import Mathlib

/-! # Font system: glyph cache and text layout

A shallow embedding of `djv::AV::Font::System` (src/lib/djvAV/FontSystem.cpp).

Numeric model.  Every length the layout code handles is a FreeType 26.6
fixed-point quantity divided by `64.f` (`advance.x / 64.f`,
`metrics.height / 64.f`) or a sum of such values and of whole pixels, so the
lengths are integers counting 1/64 of a pixel; one pixel (`1.f`) is
`pixel = 64`.  A `maxLineWidth` is modelled on the same grid.  The walks are
given twice: `measureStep`, `textLinesStep` and what is built on them add the
lengths exactly, which is what the `float` code does while the values have at
most 24 significant bits (below 2^24 on the grid, 262144 pixels);
`measureStep32`, `textLinesStep32` and what is built on them round every sum
to `float` (section "Single precision").  The two's-complement narrowing to
`int32_t` of the bearing deltas is explicit (`wrapInt32`).

Texts.  The handlers `measure`, `textLines` and `getGlyphs` take the text of a
request decoded, as a `String`; the section "The worker thread on the requests
as passed" takes it as the bytes of the `std::string` and includes the decoding,
which can throw.

FreeType itself is outside the repository: a face is modelled as a record of
deterministic functions of the requested pixel height.
-/

namespace Font

/-! ## Numbers -/

/-- One pixel (the constant `1.f`) on the 1/64 pixel grid. -/
def pixel : Int := 64

/-- Narrowing conversion to `int32_t` (two's complement). -/
def wrapInt32 (v : Int) : Int := (v + 2 ^ 31) % 2 ^ 32 - 2 ^ 31

/-- Conversion of a signed difference to `size_t` (64 bit). -/
def toSizeT (d : Int) : Nat := (d % 2 ^ 64).toNat

/-- The conversion `static_cast<int>(size)` of a pixel size kept on the 1/64 grid:
truncation toward zero. -/
def staticCastInt (size : Int) : Int := Int.tdiv size 64

/-- The type `glm::vec2`. -/
structure vec2 where
  x : Int
  y : Int
  deriving DecidableEq, Repr

/-! ## Character classes (lines 109-117) -/

/-- Source: `isSpace`. -/
def isSpace (c : Char) : Bool := ' ' == c || '\t' == c

/-- Source: `isNewline`. -/
def isNewline (c : Char) : Bool := '\n' == c || '\r' == c

/-! ## Data model -/

/-- The identifier type `UID`. -/
abbrev UID := Nat

/-- Source: `Font::Info` (family, face, size, dpi). -/
structure Info where
  family : String
  face : String
  size : Int
  dpi : Int
  deriving DecidableEq, Repr

/-- Modelled from the spec: the struct `Metrics` is declared in FontSystem.h, which is not
among the sources; its three fields are the ones `_handleMetricsRequests` assigns and a
default-constructed value is the zero metrics. -/
structure Metrics where
  ascender : Int
  descender : Int
  lineHeight : Int
  deriving DecidableEq, Repr

/-- A default-constructed `Metrics`. -/
def Metrics.default : Metrics := ⟨0, 0, 0⟩

/-- Source: `TextLine` (text and size). -/
structure TextLine where
  text : String
  size : vec2
  deriving DecidableEq, Repr

/-- Source: `GlyphInfo` (code, info and the uid computed by the constructor). -/
structure GlyphInfo where
  code : Nat
  info : Info
  uid : UID
  deriving DecidableEq, Repr

/-- Source: `Glyph`, as filled by `Glyph::_init`.  `imageData` holds the rows of the
bitmap. -/
structure Glyph where
  info : GlyphInfo
  imageData : List (List Nat)
  offset : vec2
  advance : Int
  lsbDelta : Int
  rsbDelta : Int
  deriving DecidableEq, Repr

/-- Source: `Glyph::create` (lines 211-222); the `int32_t` parameters narrow the
FreeType deltas. -/
def Glyph.create (info : GlyphInfo) (imageData : List (List Nat)) (offset : vec2)
    (advance : Int) (lsbDelta rsbDelta : Int) : Glyph :=
  { info := info, imageData := imageData, offset := offset, advance := advance,
    lsbDelta := wrapInt32 lsbDelta, rsbDelta := wrapInt32 rsbDelta }

/-! ## FreeType (external library) -/

/-- The fields of `FT_Size_Metrics` the code reads (26.6 values). -/
structure FT_Size_Metrics where
  ascender : Int
  descender : Int
  height : Int

/-- The fields of `FT_Bitmap` the code reads. -/
structure FT_Bitmap where
  width : Nat
  rows : Nat
  pitch : Int
  buffer : List Nat

/-- The glyph slot after a successful load and render. -/
structure FT_GlyphSlot where
  bitmap_left : Int
  bitmap_top : Int
  advance_x : Int
  lsb_delta : Int
  rsb_delta : Int
  bitmap : FT_Bitmap

/-- A loaded face.  `setPixelSizes h` is the error code of
`FT_Set_Pixel_Sizes(face, 0, h)` (0 is success), `sizeMetrics h` is
`face->size->metrics` once that height is set, `getCharIndex` is `FT_Get_Char_Index`,
and `renderGlyph h index` is the slot left by the chain `FT_Load_Glyph`,
`FT_Render_Glyph`, `FT_Get_Glyph`, `FT_Glyph_To_Bitmap` at height `h`, or `none` when
one of the four reports an error.  `family_name` and `style_name` are the C strings of
the face record; `none` is the null pointer FreeType leaves for a face without that
name. -/
structure FT_Face where
  family_name : Option String
  style_name : Option String
  setPixelSizes : Int → Nat
  sizeMetrics : Int → FT_Size_Metrics
  getCharIndex : Nat → Nat
  renderGlyph : Int → Nat → Option FT_GlyphSlot

/-! ## Requests and system state (lines 64-107, 224-254) -/

/-- Source: `MetricsRequest`; `promise` names the shared state of its promise. -/
structure MetricsRequest where
  info : Info
  promise : Nat

/-- Source: `MeasureRequest` (lines 74-84), with the text decoded; `RawMeasureRequest` has
it as passed. -/
structure MeasureRequest where
  text : String
  info : Info
  maxLineWidth : Int
  promise : Nat

/-- Source: `TextLinesRequest` (lines 86-96), with the text decoded. -/
structure TextLinesRequest where
  text : String
  info : Info
  maxLineWidth : Int
  promise : Nat

/-- Source: `GlyphsRequest` (lines 98-107), with the text decoded. -/
structure GlyphsRequest where
  text : String
  info : Info
  promise : Nat

/-- Assignment `m[k] = v` on a `std::map` kept as an association list. -/
def mapSet {κ ν : Type} [DecidableEq κ] (m : List (κ × ν)) (k : κ) (v : ν) : List (κ × ν) :=
  match m with
  | [] => [(k, v)]
  | (k0, v0) :: rest => if k0 = k then (k, v) :: rest else (k0, v0) :: mapSet rest k v

/-- Source: `System::Private`.  Maps are association lists read with `List.lookup`. -/
structure Private where
  fontNames : List (String × String) := []
  fontNamesPromise : List (List (String × String)) := []
  fontFaces : List (String × List (String × FT_Face)) := []
  metricsQueue : List MetricsRequest := []
  measureQueue : List MeasureRequest := []
  textLinesQueue : List TextLinesRequest := []
  glyphsQueue : List GlyphsRequest := []
  metricsRequests : List MetricsRequest := []
  measureRequests : List MeasureRequest := []
  textLinesRequests : List TextLinesRequest := []
  glyphsRequests : List GlyphsRequest := []
  glyphCache : List (UID × Glyph) := []
  running : Bool := false

/-- The function-local static of the `GlyphInfo` constructor (line 173) together
with the counter behind `createUID`. -/
structure UIDRegistry where
  map : List (Nat × UID) := []
  next : UID := 1

/-- Modelled from the spec: `createUID` is defined in djvCore, which is not among the
sources; it returns an identifier that was not issued before. -/
def createUID (r : UIDRegistry) : UID × UIDRegistry :=
  (r.next, { r with next := r.next + 1 })

/-- The overloads of `Memory::hashCombine` (djvCore/Memory.h is not among the sources),
taken as parameters; results are `size_t` values. -/
structure HashCombine where
  int : Nat → Int → Nat
  float : Nat → Int → Nat
  string : Nat → String → Nat
  uint32 : Nat → Nat → Nat

set_option linter.dupNamespace false in
/-- Source: the constructor `GlyphInfo::GlyphInfo(code, info)` (lines 168-190). -/
def GlyphInfo.GlyphInfo (H : HashCombine) (r : UIDRegistry) (code : Nat) (info : Info) :
    GlyphInfo × UIDRegistry :=
  let hash := 0
  let hash := H.int hash info.dpi
  let hash := H.float hash info.size
  let hash := H.string hash info.face
  let hash := H.string hash info.family
  let hash := H.uint32 hash code
  match r.map.lookup hash with
  | some uid => ({ code := code, info := info, uid := uid }, r)
  | none =>
    let (uid, r1) := createUID r
    ({ code := code, info := info, uid := uid }, { r1 with map := mapSet r1.map hash uid })

/-- The row copy of lines 854-860: row `y` is `width` bytes read at `buffer + y * pitch`. -/
def copyBitmap (b : FT_Bitmap) : List (List Nat) :=
  (List.range b.rows).map fun y => (b.buffer.drop (y * b.pitch).toNat).take b.width

/-- Source: `System::Private::getGlyph` (lines 770-879): the looked-up glyph (`none` is
the null pointer) and the state with the possibly extended cache. -/
def getGlyph (p : Private) (info : GlyphInfo) : Option Glyph × Private :=
  match p.glyphCache.lookup info.uid with
  | some out => (some out, p)
  | none =>
    match p.fontFaces.lookup info.info.family with
    | none => (none, p)
    | some family =>
      match family.lookup info.info.face with
      | none => (none, p)
      | some font =>
        if font.setPixelSizes (staticCastInt info.info.size) ≠ 0 then (none, p)
        else
          let ftGlyphIndex := font.getCharIndex info.code
          if ftGlyphIndex ≠ 0 then
            match font.renderGlyph (staticCastInt info.info.size) ftGlyphIndex with
            | none => (none, p)
            | some slot =>
              let out := Glyph.create info (copyBitmap slot.bitmap)
                ⟨slot.bitmap_left, slot.bitmap_top⟩ slot.advance_x slot.lsb_delta slot.rsb_delta
              (some out, { p with glyphCache := mapSet p.glyphCache info.uid out })
          else (none, p)

/-- Values handed to `promise.set_value` with the promise they were set on, one list per
kind of request, each in call order.  The order of the calls across the kinds is kept by
the log `Thread.resolved`. -/
structure Futures where
  metrics : List (Nat × Metrics) := []
  measure : List (Nat × vec2) := []
  textLines : List (Nat × List TextLine) := []
  glyphs : List (Nat × List Glyph) := []

/-- Everything a request handler reads or writes: the `Private` record, the static
UID registry and the promise states. -/
structure World where
  p : Private := {}
  uids : UIDRegistry := {}
  futures : Futures := {}

/-- The two statements `GlyphInfo(c, request.info)` and `p.getGlyph(info)` every
handler runs for a codepoint. -/
def lookupGlyph (H : HashCombine) (info : Info) (w : World) (c : Char) :
    Option Glyph × World :=
  let (glyphInfo, uids) := GlyphInfo.GlyphInfo H w.uids c.toNat info
  let (glyph, p) := getGlyph w.p glyphInfo
  (glyph, { w with p := p, uids := uids })

/-! ## Layout (lines 533-768)

The iterators `i`, `lineBegin` and `textLine` are indices into `utf32`;
`utf32.end()` is the index `utf32.length`.  The glyph lookup is a parameter
`getGlyph` acting on a state `σ`; the request handlers pass `lookupGlyph`. -/

/-- Lines 565-583 and 664-682: the advance `x` of the codepoint with its kerning
correction, and the new `rsbDeltaPrev`.  The `int32_t` subtraction is exact (its
overflow is undefined in the source). -/
def glyphAdvance (glyph : Option Glyph) (rsbDeltaPrev : Int) : Int × Int :=
  match glyph with
  | some glyph =>
    let x := glyph.advance
    let x :=
      if rsbDeltaPrev - glyph.lsbDelta > 32 then x - pixel
      else if rsbDeltaPrev - glyph.lsbDelta < -31 then x + pixel
      else x
    (x, glyph.rsbDelta)
  | none => (0, 0)

/-- The locals of the loop of `_handleMeasureRequests` (lines 558-563). -/
structure MeasureState (σ : Type) where
  sys : σ
  i : Nat
  size : vec2
  pos : vec2
  textLine : Nat
  textLineX : Int
  rsbDeltaPrev : Int

/-- One iteration of the loop of `_handleMeasureRequests` (lines 565-618) on the
codepoint `c = *i`, followed by `++i`. -/
def measureStep {σ : Type} (getGlyph : σ → Char → Option Glyph × σ) (utf32 : List Char)
    (height maxLineWidth : Int) (c : Char) (s : MeasureState σ) : MeasureState σ :=
  let found := getGlyph s.sys c
  let sys := found.2
  let x := (glyphAdvance found.1 s.rsbDeltaPrev).1
  let rsbDeltaPrev := (glyphAdvance found.1 s.rsbDeltaPrev).2
  if isNewline c then
    { s with
      sys := sys
      size := ⟨max s.size.x s.pos.x, s.size.y⟩
      pos := ⟨0, s.pos.y + height⟩
      rsbDeltaPrev := 0
      i := s.i + 1 }
  else if s.pos.x > 0 ∧ s.pos.x + (if !isSpace c then x else 0) ≥ maxLineWidth then
    if s.textLine ≠ utf32.length then
      { s with
        sys := sys
        i := s.textLine + 1
        textLine := utf32.length
        size := ⟨max s.size.x s.textLineX, s.size.y⟩
        pos := ⟨0, s.pos.y + height⟩
        rsbDeltaPrev := 0 }
    else
      { s with
        sys := sys
        size := ⟨max s.size.x s.pos.x, s.size.y⟩
        pos := ⟨x, s.pos.y + height⟩
        rsbDeltaPrev := 0
        i := s.i + 1 }
  else
    let textLine := if isSpace c ∧ s.i ≠ 0 then s.i else s.textLine
    let textLineX := if isSpace c ∧ s.i ≠ 0 then s.pos.x else s.textLineX
    { s with
      sys := sys
      textLine := textLine
      textLineX := textLineX
      pos := ⟨s.pos.x + x, s.pos.y⟩
      rsbDeltaPrev := rsbDeltaPrev
      i := s.i + 1 }

/-- The loop `for (auto i = utf32.begin(); i != utf32.end(); ++i)` of lines 563-619,
run for at most `fuel` iterations; `none` when the iterations are used up before
`i` reaches the end. -/
def measureLoop {σ : Type} (getGlyph : σ → Char → Option Glyph × σ) (utf32 : List Char)
    (height maxLineWidth : Int) : Nat → MeasureState σ → Option (MeasureState σ)
  | fuel, s =>
    match utf32[s.i]? with
    | none => some s
    | some c =>
      match fuel with
      | 0 => none
      | fuel + 1 =>
        measureLoop getGlyph utf32 height maxLineWidth fuel
          (measureStep getGlyph utf32 height maxLineWidth c s)

/-- Number of loop iterations granted to a layout walk over `n` codepoints. -/
def walkFuel (n : Nat) : Nat := (n + 1) * (n + 1)

/-- The locals before the first iteration (lines 538, 559-562). -/
def MeasureState.init {σ : Type} (utf32 : List Char) (height : Int) (sys : σ) :
    MeasureState σ :=
  { sys := sys, i := 0, size := ⟨0, 0⟩, pos := ⟨0, height⟩,
    textLine := utf32.length, textLineX := 0, rsbDeltaPrev := 0 }

/-- Lines 557-621 of `_handleMeasureRequests`: the size of `text` laid out with line
height `height` (`font->second->size->metrics.height / 64.f`). -/
def measureLayout {σ : Type} (getGlyph : σ → Char → Option Glyph × σ)
    (height maxLineWidth : Int) (text : String) (sys : σ) : Option (vec2 × σ) :=
  let utf32 := text.toList
  match measureLoop getGlyph utf32 height maxLineWidth (walkFuel utf32.length)
      (MeasureState.init utf32 height sys) with
  | none => none
  | some s => some (⟨max s.size.x s.pos.x, s.pos.y⟩, s.sys)

/-- The call `utf32.substr(pos, count)`: `none` stands for `std::out_of_range`
(`pos > size()`); otherwise at most `count` codepoints from `pos` on. -/
def substr (utf32 : List Char) (pos count : Nat) : Option (List Char) :=
  if pos > utf32.length then none else some ((utf32.drop pos).take count)

/-- The expression
`TextLine(p.utf32.to_bytes(utf32.substr(lineBegin - utf32.begin(), i - lineBegin)), glm::vec2(x, height))`
of lines 686-688, 700-702, 709-711 and 730-732; the count `i - lineBegin` is converted
to `size_t`. -/
def makeLine (utf32 : List Char) (lineBegin i : Nat) (x height : Int) : Option TextLine :=
  match substr utf32 lineBegin (toSizeT ((i : Int) - (lineBegin : Int))) with
  | none => none
  | some text => some ⟨String.mk text, ⟨x, height⟩⟩

/-- The locals of the loop of `_handleTextLinesRequests` (lines 635, 656-661). -/
structure TextLinesState (σ : Type) where
  sys : σ
  i : Nat
  lines : List TextLine
  pos : vec2
  lineBegin : Nat
  textLine : Nat
  textLineX : Int
  rsbDeltaPrev : Int

/-- One iteration of the loop of `_handleTextLinesRequests` (lines 664-726) on the
codepoint `c = *i`, followed by `++i`; `none` when `substr` throws. -/
def textLinesStep {σ : Type} (getGlyph : σ → Char → Option Glyph × σ) (utf32 : List Char)
    (height maxLineWidth : Int) (c : Char) (s : TextLinesState σ) :
    Option (TextLinesState σ) :=
  let found := getGlyph s.sys c
  let sys := found.2
  let x := (glyphAdvance found.1 s.rsbDeltaPrev).1
  let rsbDeltaPrev := (glyphAdvance found.1 s.rsbDeltaPrev).2
  if isNewline c then
    match makeLine utf32 s.lineBegin s.i s.pos.x height with
    | none => none
    | some line =>
      some { s with
        sys := sys
        lines := s.lines ++ [line]
        pos := ⟨0, s.pos.y + height⟩
        lineBegin := s.i
        rsbDeltaPrev := 0
        i := s.i + 1 }
  else if s.pos.x > 0 ∧ s.pos.x + (if !isSpace c then x else 0) ≥ maxLineWidth then
    if s.textLine ≠ utf32.length then
      match makeLine utf32 s.lineBegin s.textLine s.textLineX height with
      | none => none
      | some line =>
        some { s with
          sys := sys
          i := s.textLine + 1
          textLine := utf32.length
          lines := s.lines ++ [line]
          pos := ⟨0, s.pos.y + height⟩
          lineBegin := s.textLine + 1
          rsbDeltaPrev := 0 }
    else
      match makeLine utf32 s.lineBegin s.i s.pos.x height with
      | none => none
      | some line =>
        some { s with
          sys := sys
          lines := s.lines ++ [line]
          pos := ⟨x, s.pos.y + height⟩
          lineBegin := s.i
          rsbDeltaPrev := 0
          i := s.i + 1 }
  else
    let textLine := if isSpace c ∧ s.i ≠ 0 then s.i else s.textLine
    let textLineX := if isSpace c ∧ s.i ≠ 0 then s.pos.x else s.textLineX
    some { s with
      sys := sys
      textLine := textLine
      textLineX := textLineX
      pos := ⟨s.pos.x + x, s.pos.y⟩
      rsbDeltaPrev := rsbDeltaPrev
      i := s.i + 1 }

/-- The loop `for (; i != utf32.end(); ++i)` of lines 662-727, run for at most `fuel`
iterations; `none` when `substr` throws or the iterations are used up before `i`
reaches the end. -/
def textLinesLoop {σ : Type} (getGlyph : σ → Char → Option Glyph × σ) (utf32 : List Char)
    (height maxLineWidth : Int) : Nat → TextLinesState σ → Option (TextLinesState σ)
  | fuel, s =>
    match utf32[s.i]? with
    | none => some s
    | some c =>
      match fuel with
      | 0 => none
      | fuel + 1 =>
        match textLinesStep getGlyph utf32 height maxLineWidth c s with
        | none => none
        | some s1 => textLinesLoop getGlyph utf32 height maxLineWidth fuel s1

/-- The locals before the first iteration (lines 635, 656-661). -/
def TextLinesState.init {σ : Type} (utf32 : List Char) (height : Int) (sys : σ) :
    TextLinesState σ :=
  { sys := sys, i := 0, lines := [], pos := ⟨0, height⟩, lineBegin := 0,
    textLine := utf32.length, textLineX := 0, rsbDeltaPrev := 0 }

/-- Lines 654-733 of `_handleTextLinesRequests`: the lines of `text`. -/
def textLinesLayout {σ : Type} (getGlyph : σ → Char → Option Glyph × σ)
    (height maxLineWidth : Int) (text : String) (sys : σ) : Option (List TextLine × σ) :=
  let utf32 := text.toList
  match textLinesLoop getGlyph utf32 height maxLineWidth (walkFuel utf32.length)
      (TextLinesState.init utf32 height sys) with
  | none => none
  | some s =>
    if s.i ≠ s.lineBegin then
      match makeLine utf32 s.lineBegin s.i s.pos.x height with
      | none => none
      | some line => some (s.lines ++ [line], s.sys)
    else some (s.lines, s.sys)

/-! ## Request handlers

`getMetrics`, `measure`, `textLines` and `getGlyphs` give the value the handler of the
request kind hands to `request.promise.set_value` (the value the future returned by
the method of the same name resolves to) and the state after the request.  Lengths
divided by `64.f` in the source are the 26.6 values themselves on the 1/64 grid. -/

/-- The body of the loop of `_handleMetricsRequests` (lines 503-527). -/
def getMetrics (w : World) (request : MetricsRequest) : Metrics :=
  match w.p.fontFaces.lookup request.info.family with
  | none => Metrics.default
  | some family =>
    match family.lookup request.info.face with
    | none => Metrics.default
    | some font =>
      let ftError := font.setPixelSizes (staticCastInt request.info.size)
      if ftError = 0 then
        { ascender := (font.sizeMetrics (staticCastInt request.info.size)).ascender
          descender := (font.sizeMetrics (staticCastInt request.info.size)).descender
          lineHeight := (font.sizeMetrics (staticCastInt request.info.size)).height }
      else Metrics.default

/-- The body of the loop of `_handleMeasureRequests` (lines 538-624). -/
def measure (H : HashCombine) (w : World) (request : MeasureRequest) :
    Option (vec2 × World) :=
  match w.p.fontFaces.lookup request.info.family with
  | none => some (⟨0, 0⟩, w)
  | some family =>
    match family.lookup request.info.face with
    | none => some (⟨0, 0⟩, w)
    | some font =>
      let ftError := font.setPixelSizes (staticCastInt request.info.size)
      if ftError = 0 then
        measureLayout (lookupGlyph H request.info)
          (font.sizeMetrics (staticCastInt request.info.size)).height
          request.maxLineWidth request.text w
      else some (⟨0, 0⟩, w)

/-- The body of the loop of `_handleTextLinesRequests` (lines 635-736). -/
def textLines (H : HashCombine) (w : World) (request : TextLinesRequest) :
    Option (List TextLine × World) :=
  match w.p.fontFaces.lookup request.info.family with
  | none => some ([], w)
  | some family =>
    match family.lookup request.info.face with
    | none => some ([], w)
    | some font =>
      let ftError := font.setPixelSizes (staticCastInt request.info.size)
      if ftError = 0 then
        textLinesLayout (lookupGlyph H request.info)
          (font.sizeMetrics (staticCastInt request.info.size)).height
          request.maxLineWidth request.text w
      else some ([], w)

/-- The loop of lines 756-762: the glyphs found for the codepoints, in order. -/
def collectGlyphs {σ : Type} (getGlyph : σ → Char → Option Glyph × σ) :
    List Char → List Glyph × σ → List Glyph × σ
  | [], acc => acc
  | c :: rest, (glyphs, sys) =>
    match getGlyph sys c with
    | (some glyph, sys1) => collectGlyphs getGlyph rest (glyphs ++ [glyph], sys1)
    | (none, sys1) => collectGlyphs getGlyph rest (glyphs, sys1)

/-- The body of the loop of `_handleGlyphsRequests` (lines 747-764). -/
def getGlyphs (H : HashCombine) (w : World) (request : GlyphsRequest) :
    List Glyph × World :=
  match w.p.fontFaces.lookup request.info.family with
  | none => ([], w)
  | some family =>
    match family.lookup request.info.face with
    | none => ([], w)
    | some _ =>
      collectGlyphs (lookupGlyph H request.info) request.text.toList ([], w)

/-- Source: `System::_handleMetricsRequests` (lines 498-531). -/
def _handleMetricsRequests (w : World) : World :=
  let w1 := w.p.metricsRequests.foldl
    (fun (w : World) request =>
      { w with futures := { w.futures with
          metrics := w.futures.metrics ++ [(request.promise, getMetrics w request)] } }) w
  { w1 with p := { w1.p with metricsRequests := [] } }

/-- Source: `System::_handleMeasureRequests` (lines 533-628); `none` when a layout
walk gives no result. -/
def _handleMeasureRequests (H : HashCombine) (w : World) : Option World :=
  match w.p.measureRequests.foldlM
    (fun (w : World) request =>
      match measure H w request with
      | none => none
      | some (size, w1) =>
        some { w1 with futures := { w1.futures with
          measure := w1.futures.measure ++ [(request.promise, size)] } }) w with
  | none => none
  | some w1 => some { w1 with p := { w1.p with measureRequests := [] } }

/-- Source: `System::_handleTextLinesRequests` (lines 630-740); `none` when a layout
walk gives no result. -/
def _handleTextLinesRequests (H : HashCombine) (w : World) : Option World :=
  match w.p.textLinesRequests.foldlM
    (fun (w : World) request =>
      match textLines H w request with
      | none => none
      | some (lines, w1) =>
        some { w1 with futures := { w1.futures with
          textLines := w1.futures.textLines ++ [(request.promise, lines)] } }) w with
  | none => none
  | some w1 => some { w1 with p := { w1.p with textLinesRequests := [] } }

/-- Source: `System::_handleGlyphsRequests` (lines 742-768). -/
def _handleGlyphsRequests (H : HashCombine) (w : World) : World :=
  let w1 := w.p.glyphsRequests.foldl
    (fun (w : World) request =>
      let r := getGlyphs H w request
      { r.2 with futures := { r.2.futures with
          glyphs := r.2.futures.glyphs ++ [(request.promise, r.1)] } }) w
  { w1 with p := { w1.p with glyphsRequests := [] } }

/-! ## Font loading and the worker thread (lines 256-326, 355-480)

Operations on the queues are steps of a single state: an enqueue is the critical
section of lines 361-364, a worker iteration is the body of the `while` loop of
lines 286-323.  Waiting, time-outs and log output are not modelled. -/

/-- An entry of `FileInfo::directoryList(p.fontPath)`: the file name and what
`FT_New_Face` gives for it (`none` when it reports an error). -/
structure FontFile where
  fileName : String
  face : Option FT_Face

/-- The body of the loop of `_initFreeType` (lines 443-468) for one file: nothing when
the face does not open, otherwise `p.fontNames[family_name] = fileName` (line 466) and
`p.fontFaces[family_name][style_name] = ftFace` (line 467).  Each subscript builds a
`std::string` from the C string, which throws when that is the null pointer; the second
component tells whether that happened.  In line 467 `p.fontFaces[family_name]`, which
inserts an empty map for a new family, is evaluated before the string of the style. -/
def loadFont (p : Private) (file : FontFile) : Private × Bool :=
  match file.face with
  | none => (p, false)
  | some ftFace =>
    match ftFace.family_name with
    | none => (p, true)
    | some family =>
      match ftFace.style_name with
      | none =>
        ({ p with
            fontNames := mapSet p.fontNames family file.fileName
            fontFaces := mapSet p.fontFaces family ((p.fontFaces.lookup family).getD []) },
          true)
      | some style =>
        ({ p with
            fontNames := mapSet p.fontNames family file.fileName
            fontFaces := mapSet p.fontFaces family
              (mapSet ((p.fontFaces.lookup family).getD []) style ftFace) },
          false)

/-- The loop of lines 441-469 over the directory listing: the state it leaves and
whether an exception left it early. -/
def loadFonts : List FontFile → Private → Private × Bool
  | [], p => (p, false)
  | file :: rest, p =>
    if (loadFont p file).2 then ((loadFont p file).1, true)
    else loadFonts rest (loadFont p file).1

/-- Source: `System::_initFreeType` (lines 431-480).  `ftInitError` is the result of
`FT_Init_FreeType`.  Every exception, the two `throw`s of lines 439 and 472 and one
thrown inside the loop, is caught at line 476, which only logs, so the function returns
normally in every case; `set_value` of line 474 is reached only without one. -/
def _initFreeType (ftInitError : Nat) (directoryList : List FontFile) (p : Private) :
    Private :=
  if ftInitError ≠ 0 then p
  else
    let p1 := (loadFonts directoryList p).1
    if (loadFonts directoryList p).2 then p1
    else if p1.fontFaces.length = 0 then p1
    else { p1 with fontNamesPromise := p1.fontNamesPromise ++ [p1.fontNames] }

/-- Lines 302-305: the pending queues are moved into the in-flight lists; a moved-from
vector is empty. -/
def drain (p : Private) : Private :=
  { p with
    metricsRequests := p.metricsQueue
    measureRequests := p.measureQueue
    textLinesRequests := p.textLinesQueue
    glyphsRequests := p.glyphsQueue
    metricsQueue := []
    measureQueue := []
    textLinesQueue := []
    glyphsQueue := [] }

/-- One iteration of the loop of the worker thread (lines 288-322): drain, then the
four handlers in the order of the source, each only when its list is not empty. -/
def workerIteration (H : HashCombine) (w : World) : Option World :=
  let w0 : World := { w with p := drain w.p }
  let w1 := if w0.p.metricsRequests.length ≠ 0 then _handleMetricsRequests w0 else w0
  match (if w1.p.measureRequests.length ≠ 0 then _handleMeasureRequests H w1 else some w1) with
  | none => none
  | some w2 =>
    match (if w2.p.textLinesRequests.length ≠ 0 then _handleTextLinesRequests H w2
      else some w2) with
    | none => none
    | some w3 =>
      some (if w3.p.glyphsRequests.length ≠ 0 then _handleGlyphsRequests H w3 else w3)

/-- The loop `while (p.running)` of lines 286-323 for at most `n` iterations, with no
step of another thread in between. -/
def workerLoop (H : HashCombine) : Nat → World → Option World
  | 0, w => some w
  | n + 1, w =>
    if w.p.running then
      match workerIteration H w with
      | none => none
      | some w1 => workerLoop H n w1
    else some w

/-- The function run by the worker thread (lines 281-325) up to its `n`-th iteration:
`_initFreeType()` followed by the loop. -/
def workerThread (H : HashCombine) (ftInitError : Nat) (directoryList : List FontFile)
    (n : Nat) (w : World) : Option World :=
  workerLoop H n { w with p := _initFreeType ftInitError directoryList w.p }

/-- Source: `System::_init` (lines 256-326), as far as the state goes: `p.running = true`
before the thread is started. -/
def _init (w : World) : World :=
  { w with p := { w.p with running := true } }

/-- Source: `System::getMetrics` (lines 355-367): the request is appended to the
pending queue; `promise` names the promise of the new request. -/
def System.getMetrics (w : World) (info : Info) (promise : Nat) : World :=
  { w with p := { w.p with metricsQueue := w.p.metricsQueue ++ [⟨info, promise⟩] } }

/-- Source: `System::measure(text, maxLineWidth, info)` (lines 384-398). -/
def System.measure (w : World) (text : String) (maxLineWidth : Int) (info : Info)
    (promise : Nat) : World :=
  { w with p := { w.p with
      measureQueue := w.p.measureQueue ++ [⟨text, info, maxLineWidth, promise⟩] } }

/-- Source: `System::textLines` (lines 400-414). -/
def System.textLines (w : World) (text : String) (maxLineWidth : Int) (info : Info)
    (promise : Nat) : World :=
  { w with p := { w.p with
      textLinesQueue := w.p.textLinesQueue ++ [⟨text, info, maxLineWidth, promise⟩] } }

/-- Source: `System::getGlyphs` (lines 416-429). -/
def System.getGlyphs (w : World) (text : String) (info : Info) (promise : Nat) : World :=
  { w with p := { w.p with glyphsQueue := w.p.glyphsQueue ++ [⟨text, info, promise⟩] } }

/-! ## Observers of a walk -/

/-- The positions of the iterator `i` at the start of the successive iterations of the
loop of `_handleMeasureRequests`, the position at which the loop stops included. -/
def measureTrace {σ : Type} (getGlyph : σ → Char → Option Glyph × σ) (utf32 : List Char)
    (height maxLineWidth : Int) : Nat → MeasureState σ → List Nat
  | fuel, s =>
    match utf32[s.i]? with
    | none => [s.i]
    | some c =>
      match fuel with
      | 0 => [s.i]
      | fuel + 1 =>
        s.i :: measureTrace getGlyph utf32 height maxLineWidth fuel
          (measureStep getGlyph utf32 height maxLineWidth c s)

/-- The positions of the iterator `i` at the start of the successive iterations of the
loop of `_handleTextLinesRequests`, the position at which the loop stops included. -/
def textLinesTrace {σ : Type} (getGlyph : σ → Char → Option Glyph × σ) (utf32 : List Char)
    (height maxLineWidth : Int) : Nat → TextLinesState σ → List Nat
  | fuel, s =>
    match utf32[s.i]? with
    | none => [s.i]
    | some c =>
      match fuel with
      | 0 => [s.i]
      | fuel + 1 =>
        match textLinesStep getGlyph utf32 height maxLineWidth c s with
        | none => [s.i]
        | some s1 => s.i :: textLinesTrace getGlyph utf32 height maxLineWidth fuel s1

/-- The positions a walk resumes at after moving its iterator back: the entries of a
trace that do not lie after their predecessor.  A soft wrap to the break opportunity
`textLine` resumes at `textLine + 1`. -/
def resumePoints : List Nat → List Nat
  | a :: b :: rest => if b ≤ a then b :: resumePoints (b :: rest) else resumePoints (b :: rest)
  | _ => []

/-- The largest of 0 and the widths of the lines. -/
def maxWidth (lines : List TextLine) : Int :=
  (lines.map fun l => l.size.x).foldr max 0

/-! ## Reference notions used to state the claims -/

/-- The results of looking up the codepoints of `cs` one after the other, each lookup
starting from the state the previous one left. -/
def lookups {σ : Type} (getGlyph : σ → Char → Option Glyph × σ) : σ → List Char →
    List (Option Glyph)
  | _, [] => []
  | sys, c :: cs => (getGlyph sys c).1 :: lookups getGlyph (getGlyph sys c).2 cs

/-- The state left by looking up the codepoints of `cs` one after the other. -/
def lookupsState {σ : Type} (getGlyph : σ → Char → Option Glyph × σ) : σ → List Char → σ
  | sys, [] => sys
  | sys, c :: cs => lookupsState getGlyph (getGlyph sys c).2 cs

/-- The state, kerning state and pen x left by laying out `cs` with no width limit,
from the state `sys`, the kerning state `rsb` and the pen x `x`: every codepoint is
looked up, a newline resets pen and kerning state, any other codepoint adds its
corrected advance. -/
def penRun {σ : Type} (getGlyph : σ → Char → Option Glyph × σ) :
    σ → Int → Int → List Char → σ × Int × Int
  | sys, rsb, x, [] => (sys, rsb, x)
  | sys, rsb, x, c :: cs =>
    if isNewline c then penRun getGlyph (getGlyph sys c).2 0 0 cs
    else penRun getGlyph (getGlyph sys c).2 (glyphAdvance (getGlyph sys c).1 rsb).2
      (x + (glyphAdvance (getGlyph sys c).1 rsb).1) cs

/-- The kerning correction of lines 570-577 for a glyph that follows the kerning state
`rsbDeltaPrev`. -/
def kerningCorrection (rsbDeltaPrev : Int) (glyph : Glyph) : Int :=
  if rsbDeltaPrev - glyph.lsbDelta > 32 then -pixel
  else if rsbDeltaPrev - glyph.lsbDelta < -31 then pixel
  else 0

/-- The kerning corrections of the resolved glyphs of a line, in order: the kerning
state is the `rsbDelta` of the glyph before, and 0 at the start and after a missing
glyph. -/
def corrections : Int → List (Option Glyph) → List Int
  | _, [] => []
  | _, none :: rest => corrections 0 rest
  | rsb, some glyph :: rest => kerningCorrection rsb glyph :: corrections glyph.rsbDelta rest

/-- The advances of the resolved glyphs, in order. -/
def advances (glyphs : List (Option Glyph)) : List Int :=
  glyphs.filterMap fun g => g.map fun glyph => glyph.advance

/-- The line-splitting walk gets from the first state to the second in some number of
iterations. -/
inductive LinesReach {σ : Type} (getGlyph : σ → Char → Option Glyph × σ) (utf32 : List Char)
    (height maxLineWidth : Int) : TextLinesState σ → TextLinesState σ → Prop
  | refl (s : TextLinesState σ) : LinesReach getGlyph utf32 height maxLineWidth s s
  | step {s s1 s2 : TextLinesState σ} {c : Char} :
      utf32[s.i]? = some c →
      textLinesStep getGlyph utf32 height maxLineWidth c s = some s1 →
      LinesReach getGlyph utf32 height maxLineWidth s1 s2 →
      LinesReach getGlyph utf32 height maxLineWidth s s2

/-- A sequence of glyph requests, each the two statements of `lookupGlyph` for a font
and a codepoint, run one after the other. -/
def runLookups (H : HashCombine) : World → List (Info × Char) → World
  | w, [] => w
  | w, (info, c) :: rest => runLookups H (lookupGlyph H info w c).2 rest

/-- What `getGlyph` renders for `info` when its uid is not in the cache: the part of
lines 790-876 that does not touch the cache. -/
def renderGlyph (fontFaces : List (String × List (String × FT_Face))) (info : GlyphInfo) :
    Option Glyph :=
  match fontFaces.lookup info.info.family with
  | none => none
  | some family =>
    match family.lookup info.info.face with
    | none => none
    | some font =>
      if font.setPixelSizes (staticCastInt info.info.size) ≠ 0 then none
      else if font.getCharIndex info.code ≠ 0 then
        match font.renderGlyph (staticCastInt info.info.size) (font.getCharIndex info.code) with
        | none => none
        | some slot =>
          some (Glyph.create info (copyBitmap slot.bitmap)
            ⟨slot.bitmap_left, slot.bitmap_top⟩ slot.advance_x slot.lsb_delta slot.rsb_delta)
      else none

/-- The hash the `GlyphInfo` constructor computes for a codepoint and a font
(lines 174-179). -/
def glyphHash (H : HashCombine) (code : Nat) (info : Info) : Nat :=
  H.uint32 (H.string (H.string (H.float (H.int 0 info.dpi) info.size) info.face) info.family)
    code

/-- The second state differs from the first at most in the glyph cache and the UID
registry. -/
def SameSystem (w w1 : World) : Prop :=
  ∃ glyphCache uids, w1 = { w with p := { w.p with glyphCache := glyphCache }, uids := uids }

/-- The identity (codepoint `c`, font `info`) is registered and the cache holds `g`
under its uid. -/
def Cached (H : HashCombine) (w : World) (info : Info) (c : Char) (g : Glyph) : Prop :=
  ∃ uid, w.uids.map.lookup (glyphHash H c.toNat info) = some uid ∧
    w.p.glyphCache.lookup uid = some g

/-- The identity (codepoint `c`, font `info`) is registered and either the cache holds
a glyph under its uid or nothing can be rendered for it. -/
def Settled (H : HashCombine) (w : World) (info : Info) (c : Char) : Prop :=
  ∃ uid, w.uids.map.lookup (glyphHash H c.toNat info) = some uid ∧
    ((∃ g, w.p.glyphCache.lookup uid = some g) ∨
      renderGlyph w.p.fontFaces ⟨c.toNat, info, uid⟩ = none)

/-- The face stored in the table `fontFaces` under a family and a style, found the way
the handlers find it: `fontFaces.find(family)`, then `find(face)` in what it gives. -/
def faceEntry (fontFaces : List (String × List (String × FT_Face))) (family style : String) :
    Option FT_Face :=
  match fontFaces.lookup family with
  | none => none
  | some styles => styles.lookup style

/-- The family and the path of a file that opened with a family name. -/
def familyAndPath (file : FontFile) : Option (String × String) :=
  match file.face with
  | none => none
  | some ftFace =>
    match ftFace.family_name with
    | none => none
    | some family => some (family, file.fileName)

/-- The family-to-file-path map built from the files of a listing that opened: one
assignment `names[family] = path` for each of them, in the order of the listing. -/
def fontNamesOf (directoryList : List FontFile) : List (String × String) :=
  (directoryList.filterMap familyAndPath).foldl (fun names e => mapSet names e.1 e.2) []

/-- Every file of the listing that opens gives a face with a family name and a style
name. -/
def AllNamed (directoryList : List FontFile) : Prop :=
  ∀ file ∈ directoryList, ∀ ftFace, file.face = some ftFace →
    (∃ family, ftFace.family_name = some family) ∧ (∃ style, ftFace.style_name = some style)

/-- A sequence of `GlyphInfo` constructions, each given a codepoint and a font, run one
after the other on the UID registry: the constructed values in order and the registry
they leave. -/
def constructAll (H : HashCombine) : UIDRegistry → List (Nat × Info) →
    List GlyphInfo × UIDRegistry
  | r, [] => ([], r)
  | r, (code, info) :: rest =>
    ((GlyphInfo.GlyphInfo H r code info).1 ::
        (constructAll H (GlyphInfo.GlyphInfo H r code info).2 rest).1,
      (constructAll H (GlyphInfo.GlyphInfo H r code info).2 rest).2)

/-- Every UID in the registry was issued by `createUID` (it lies below the counter) and
no UID is registered under two hashes. -/
def RegistryInv (r : UIDRegistry) : Prop :=
  (∀ h u, r.map.lookup h = some u → u < r.next) ∧
  (∀ h1 h2 u, r.map.lookup h1 = some u → r.map.lookup h2 = some u → h1 = h2)

/-- A line fits the width `maxLineWidth`: its width is smaller, or its text ends in a
space or tab and its width less the amount added for that last codepoint is smaller. -/
def LineFits {σ : Type} (getGlyph : σ → Char → Option Glyph × σ) (maxLineWidth : Int)
    (l : TextLine) : Prop :=
  l.size.x < maxLineWidth ∨
    ∃ c, l.text.toList.getLast? = some c ∧ isSpace c = true ∧
      ∃ sys r, l.size.x - (glyphAdvance (getGlyph sys c).1 r).1 < maxLineWidth

/-- The stateless lookup in a glyph table. -/
def tableLookup (table : Char → Option Glyph) : Unit → Char → Option Glyph × Unit :=
  fun u c => (table c, u)

/-- The glyph each codepoint of `cs` gets when it is looked up in the state `w`; no
glyph for a codepoint outside `cs`. -/
def glyphsIn (H : HashCombine) (info : Info) (w : World) (cs : List Char) :
    Char → Option Glyph :=
  fun c => if c ∈ cs then (lookupGlyph H info w c).1 else none

/-- The locals of the line-splitting walk without the system state. -/
def TextLinesState.forget {σ : Type} (s : TextLinesState σ) : TextLinesState Unit :=
  { sys := (), i := s.i, lines := s.lines, pos := s.pos, lineBegin := s.lineBegin,
    textLine := s.textLine, textLineX := s.textLineX, rsbDeltaPrev := s.rsbDeltaPrev }

/-- The locals of the measuring walk without the system state. -/
def MeasureState.forget {σ : Type} (s : MeasureState σ) : MeasureState Unit :=
  { sys := (), i := s.i, size := s.size, pos := s.pos, textLine := s.textLine,
    textLineX := s.textLineX, rsbDeltaPrev := s.rsbDeltaPrev }

/-- The glyph cache is sound for the codepoints `cs` in the font `info`: the registry
holds issued uids only, each under one hash; the cache holds glyphs under issued uids
only; no two codepoints of `cs` have the same hash; and a glyph the cache holds under
the uid of a codepoint of `cs` is the glyph rendered for that codepoint.  A system that
has looked up no glyph yet is sound for codepoints with different hashes. -/
def CacheSound (H : HashCombine) (info : Info) (cs : List Char) (w : World) : Prop :=
  RegistryInv w.uids ∧
  (∀ uid g, w.p.glyphCache.lookup uid = some g → uid < w.uids.next) ∧
  (∀ c ∈ cs, ∀ d ∈ cs, glyphHash H c.toNat info = glyphHash H d.toNat info → c = d) ∧
  (∀ c ∈ cs, ∀ uid g, w.uids.map.lookup (glyphHash H c.toNat info) = some uid →
    w.p.glyphCache.lookup uid = some g →
    renderGlyph w.p.fontFaces ⟨c.toNat, info, uid⟩ = some g)

/-! ## Single precision

The lengths of the layout code are `float` values.  On the 1/64 pixel grid a `float` is
an integer with at most 24 significant bits; the result of every `float` operation is
rounded to the nearest such value, ties to the even significand.  Overflow to infinity
(a length of 2^128 pixels) is not modelled. -/

/-- The number of low bits a natural number has beyond 24 significant bits, counted up
to `fuel`. -/
def excessBits : Nat → Nat → Nat
  | 0, _ => 0
  | fuel + 1, n => if n < 2 ^ 24 then 0 else excessBits fuel (n / 2) + 1

/-- Rounding of a natural number to 24 significant bits, ties to even (for numbers
below 2^135, which covers the finite `float` range on the grid). -/
def f32Nat (n : Nat) : Nat :=
  let s := excessBits 111 n
  let q := n / 2 ^ s
  let r := n % 2 ^ s
  if 2 * r > 2 ^ s ∨ (2 * r = 2 ^ s ∧ q % 2 = 1) then (q + 1) * 2 ^ s else q * 2 ^ s

/-- The `float` nearest to a value of the 1/64 pixel grid: the conversion of a FreeType
26.6 value in `v / 64.f` and the rounding of a `float` sum. -/
def f32 (v : Int) : Int :=
  if v < 0 then -((f32Nat v.natAbs : Nat) : Int) else ((f32Nat v.natAbs : Nat) : Int)

/-- Lines 565-583 and 664-682 in `float`: `glyph->advance` is the `float`
`advance.x / 64.f` stored by `getGlyph` (line 865), `x -= 1.f` and `x += 1.f` round. -/
def glyphAdvance32 (glyph : Option Glyph) (rsbDeltaPrev : Int) : Int × Int :=
  match glyph with
  | some glyph =>
    let x := f32 glyph.advance
    let x :=
      if rsbDeltaPrev - glyph.lsbDelta > 32 then f32 (x - pixel)
      else if rsbDeltaPrev - glyph.lsbDelta < -31 then f32 (x + pixel)
      else x
    (x, glyph.rsbDelta)
  | none => (0, 0)

/-- One iteration of the loop of `_handleMeasureRequests` (lines 565-618) with every
`float` sum rounded; `height` is the `float` `metrics.height / 64.f`. -/
def measureStep32 {σ : Type} (getGlyph : σ → Char → Option Glyph × σ) (utf32 : List Char)
    (height maxLineWidth : Int) (c : Char) (s : MeasureState σ) : MeasureState σ :=
  let found := getGlyph s.sys c
  let sys := found.2
  let x := (glyphAdvance32 found.1 s.rsbDeltaPrev).1
  let rsbDeltaPrev := (glyphAdvance32 found.1 s.rsbDeltaPrev).2
  if isNewline c then
    { s with
      sys := sys
      size := ⟨max s.size.x s.pos.x, s.size.y⟩
      pos := ⟨0, f32 (s.pos.y + height)⟩
      rsbDeltaPrev := 0
      i := s.i + 1 }
  else if s.pos.x > 0 ∧ f32 (s.pos.x + (if !isSpace c then x else 0)) ≥ maxLineWidth then
    if s.textLine ≠ utf32.length then
      { s with
        sys := sys
        i := s.textLine + 1
        textLine := utf32.length
        size := ⟨max s.size.x s.textLineX, s.size.y⟩
        pos := ⟨0, f32 (s.pos.y + height)⟩
        rsbDeltaPrev := 0 }
    else
      { s with
        sys := sys
        size := ⟨max s.size.x s.pos.x, s.size.y⟩
        pos := ⟨x, f32 (s.pos.y + height)⟩
        rsbDeltaPrev := 0
        i := s.i + 1 }
  else
    let textLine := if isSpace c ∧ s.i ≠ 0 then s.i else s.textLine
    let textLineX := if isSpace c ∧ s.i ≠ 0 then s.pos.x else s.textLineX
    { s with
      sys := sys
      textLine := textLine
      textLineX := textLineX
      pos := ⟨f32 (s.pos.x + x), s.pos.y⟩
      rsbDeltaPrev := rsbDeltaPrev
      i := s.i + 1 }

/-- The loop of lines 563-619 over `measureStep32`, run for at most `fuel` iterations. -/
def measureLoop32 {σ : Type} (getGlyph : σ → Char → Option Glyph × σ) (utf32 : List Char)
    (height maxLineWidth : Int) : Nat → MeasureState σ → Option (MeasureState σ)
  | fuel, s =>
    match utf32[s.i]? with
    | none => some s
    | some c =>
      match fuel with
      | 0 => none
      | fuel + 1 =>
        measureLoop32 getGlyph utf32 height maxLineWidth fuel
          (measureStep32 getGlyph utf32 height maxLineWidth c s)

/-- Lines 557-621 of `_handleMeasureRequests` in `float`: the size of `text` laid out
with the 26.6 line height `height`. -/
def measureLayout32 {σ : Type} (getGlyph : σ → Char → Option Glyph × σ)
    (height maxLineWidth : Int) (text : String) (sys : σ) : Option (vec2 × σ) :=
  let utf32 := text.toList
  match measureLoop32 getGlyph utf32 (f32 height) maxLineWidth (walkFuel utf32.length)
      (MeasureState.init utf32 (f32 height) sys) with
  | none => none
  | some s => some (⟨max s.size.x s.pos.x, s.pos.y⟩, s.sys)

/-- One iteration of the loop of `_handleTextLinesRequests` (lines 664-726) with every
`float` sum rounded; `none` when `substr` throws. -/
def textLinesStep32 {σ : Type} (getGlyph : σ → Char → Option Glyph × σ) (utf32 : List Char)
    (height maxLineWidth : Int) (c : Char) (s : TextLinesState σ) :
    Option (TextLinesState σ) :=
  let found := getGlyph s.sys c
  let sys := found.2
  let x := (glyphAdvance32 found.1 s.rsbDeltaPrev).1
  let rsbDeltaPrev := (glyphAdvance32 found.1 s.rsbDeltaPrev).2
  if isNewline c then
    match makeLine utf32 s.lineBegin s.i s.pos.x height with
    | none => none
    | some line =>
      some { s with
        sys := sys
        lines := s.lines ++ [line]
        pos := ⟨0, f32 (s.pos.y + height)⟩
        lineBegin := s.i
        rsbDeltaPrev := 0
        i := s.i + 1 }
  else if s.pos.x > 0 ∧ f32 (s.pos.x + (if !isSpace c then x else 0)) ≥ maxLineWidth then
    if s.textLine ≠ utf32.length then
      match makeLine utf32 s.lineBegin s.textLine s.textLineX height with
      | none => none
      | some line =>
        some { s with
          sys := sys
          i := s.textLine + 1
          textLine := utf32.length
          lines := s.lines ++ [line]
          pos := ⟨0, f32 (s.pos.y + height)⟩
          lineBegin := s.textLine + 1
          rsbDeltaPrev := 0 }
    else
      match makeLine utf32 s.lineBegin s.i s.pos.x height with
      | none => none
      | some line =>
        some { s with
          sys := sys
          lines := s.lines ++ [line]
          pos := ⟨x, f32 (s.pos.y + height)⟩
          lineBegin := s.i
          rsbDeltaPrev := 0
          i := s.i + 1 }
  else
    let textLine := if isSpace c ∧ s.i ≠ 0 then s.i else s.textLine
    let textLineX := if isSpace c ∧ s.i ≠ 0 then s.pos.x else s.textLineX
    some { s with
      sys := sys
      textLine := textLine
      textLineX := textLineX
      pos := ⟨f32 (s.pos.x + x), s.pos.y⟩
      rsbDeltaPrev := rsbDeltaPrev
      i := s.i + 1 }

/-- The loop of lines 662-727 over `textLinesStep32`, run for at most `fuel`
iterations. -/
def textLinesLoop32 {σ : Type} (getGlyph : σ → Char → Option Glyph × σ) (utf32 : List Char)
    (height maxLineWidth : Int) : Nat → TextLinesState σ → Option (TextLinesState σ)
  | fuel, s =>
    match utf32[s.i]? with
    | none => some s
    | some c =>
      match fuel with
      | 0 => none
      | fuel + 1 =>
        match textLinesStep32 getGlyph utf32 height maxLineWidth c s with
        | none => none
        | some s1 => textLinesLoop32 getGlyph utf32 height maxLineWidth fuel s1

/-- Lines 654-733 of `_handleTextLinesRequests` in `float`: the lines of `text` laid
out with the 26.6 line height `height`. -/
def textLinesLayout32 {σ : Type} (getGlyph : σ → Char → Option Glyph × σ)
    (height maxLineWidth : Int) (text : String) (sys : σ) : Option (List TextLine × σ) :=
  let utf32 := text.toList
  match textLinesLoop32 getGlyph utf32 (f32 height) maxLineWidth (walkFuel utf32.length)
      (TextLinesState.init utf32 (f32 height) sys) with
  | none => none
  | some s =>
    if s.i ≠ s.lineBegin then
      match makeLine utf32 s.lineBegin s.i s.pos.x (f32 height) with
      | none => none
      | some line => some (s.lines ++ [line], s.sys)
    else some (s.lines, s.sys)

/-- The `float` reached by adding the line height `h` once per line, for `n` lines:
`pos.y` starts at `h` and `pos.y += h` runs at each of the `n - 1` line breaks. -/
def stackedHeight (h : Int) : Nat → Int
  | 0 => 0
  | 1 => h
  | n + 2 => f32 (stackedHeight h (n + 1) + h)

/-- The body of the loop of `_handleMeasureRequests` (lines 538-624) in `float`, for a
request whose text is valid UTF-8. -/
def measure32 (H : HashCombine) (w : World) (request : MeasureRequest) :
    Option (vec2 × World) :=
  match w.p.fontFaces.lookup request.info.family with
  | none => some (⟨0, 0⟩, w)
  | some family =>
    match family.lookup request.info.face with
    | none => some (⟨0, 0⟩, w)
    | some font =>
      let ftError := font.setPixelSizes (staticCastInt request.info.size)
      if ftError = 0 then
        measureLayout32 (lookupGlyph H request.info)
          (font.sizeMetrics (staticCastInt request.info.size)).height
          request.maxLineWidth request.text w
      else some (⟨0, 0⟩, w)

/-- The body of the loop of `_handleTextLinesRequests` (lines 635-736) in `float`, for a
request whose text is valid UTF-8. -/
def textLines32 (H : HashCombine) (w : World) (request : TextLinesRequest) :
    Option (List TextLine × World) :=
  match w.p.fontFaces.lookup request.info.family with
  | none => some ([], w)
  | some family =>
    match family.lookup request.info.face with
    | none => some ([], w)
    | some font =>
      let ftError := font.setPixelSizes (staticCastInt request.info.size)
      if ftError = 0 then
        textLinesLayout32 (lookupGlyph H request.info)
          (font.sizeMetrics (staticCastInt request.info.size)).height
          request.maxLineWidth request.text w
      else some ([], w)

/-- The state, kerning state and pen x left by laying out `cs` in `float` with no width
limit. -/
def penRun32 {σ : Type} (getGlyph : σ → Char → Option Glyph × σ) :
    σ → Int → Int → List Char → σ × Int × Int
  | sys, rsb, x, [] => (sys, rsb, x)
  | sys, rsb, x, c :: cs =>
    if isNewline c then penRun32 getGlyph (getGlyph sys c).2 0 0 cs
    else penRun32 getGlyph (getGlyph sys c).2 (glyphAdvance32 (getGlyph sys c).1 rsb).2
      (f32 (x + (glyphAdvance32 (getGlyph sys c).1 rsb).1)) cs

/-- The `float` pen positions reached when `cs` is laid out with no width limit: the
pen x after each codepoint that is not a newline. -/
def penPositions32 {σ : Type} (getGlyph : σ → Char → Option Glyph × σ) :
    σ → Int → Int → List Char → List Int
  | _, _, _, [] => []
  | sys, rsb, x, c :: cs =>
    if isNewline c then penPositions32 getGlyph (getGlyph sys c).2 0 0 cs
    else f32 (x + (glyphAdvance32 (getGlyph sys c).1 rsb).1) ::
      penPositions32 getGlyph (getGlyph sys c).2 (glyphAdvance32 (getGlyph sys c).1 rsb).2
        (f32 (x + (glyphAdvance32 (getGlyph sys c).1 rsb).1)) cs

/-- The `float` pen width of `cs`: the pen x at the end of `cs` laid out from the start
of a line with no width limit. -/
def penWidth32 {σ : Type} (getGlyph : σ → Char → Option Glyph × σ) (sys : σ)
    (cs : List Char) : Int :=
  (penRun32 getGlyph sys 0 0 cs).2.2

/-- The sum, over the resolved glyphs, of the absolute advance plus one pixel: a bound
of every pen position the glyphs can reach on one line. -/
def spread (glyphs : List (Option Glyph)) : Int :=
  ((advances glyphs).map fun a => |a| + pixel).sum

/-! ## The worker thread on the requests as passed

A request carries its text as a `std::string`, a string of bytes, and the handlers
decode it with `p.utf32.from_bytes` (lines 557, 654 and 754), which throws
`std::range_error` on bytes that are not UTF-8.  Neither the handlers nor the thread
function catch, so an exception ends the thread function.  The calls of
`promise.set_value` are kept in one log, in call order. -/

/-- The state of the UTF-8 decoder: the codepoints decoded so far, the number of
continuation bytes still expected, the bits collected for the current codepoint and the
least value its sequence may encode. -/
structure Utf8State where
  utf32 : List Char := []
  expect : Nat := 0
  code : Nat := 0
  least : Nat := 0

/-- A finished sequence: the codepoint is appended when it is not overlong, not a
surrogate and at most U+10FFFF. -/
def utf8Push (s : Utf8State) (code : Nat) : Option Utf8State :=
  if s.least ≤ code ∧ (code < 0xD800 ∨ (0xDFFF < code ∧ code < 0x110000)) then
    some { utf32 := s.utf32 ++ [Char.ofNat code], expect := 0, code := 0, least := 0 }
  else none

/-- The decoder on one byte; `none` is a conversion error. -/
def utf8Step (s : Utf8State) (b : Nat) : Option Utf8State :=
  if s.expect = 0 then
    if b < 0x80 then utf8Push s b
    else if 0xC0 ≤ b ∧ b < 0xE0 then some { s with expect := 1, code := b - 0xC0, least := 0x80 }
    else if 0xE0 ≤ b ∧ b < 0xF0 then some { s with expect := 2, code := b - 0xE0, least := 0x800 }
    else if 0xF0 ≤ b ∧ b < 0xF8 then
      some { s with expect := 3, code := b - 0xF0, least := 0x10000 }
    else none
  else if 0x80 ≤ b ∧ b < 0xC0 then
    if s.expect = 1 then utf8Push s (s.code * 64 + (b - 0x80))
    else some { s with expect := s.expect - 1, code := s.code * 64 + (b - 0x80) }
  else none

/-- The call `p.utf32.from_bytes(text)` of the standard library's
`std::wstring_convert<std::codecvt_utf8<djv_char_t>, djv_char_t>`: the codepoints of a
UTF-8 byte string; `none` is the `std::range_error` thrown on a conversion error or an
incomplete last sequence. -/
def from_bytes (text : List Nat) : Option (List Char) :=
  match text.foldlM utf8Step {} with
  | none => none
  | some s => if s.expect = 0 then some s.utf32 else none

/-- Source: `MeasureRequest` (lines 74-84) with `text` as the byte string. -/
structure RawMeasureRequest where
  text : List Nat
  info : Info
  maxLineWidth : Int
  promise : Nat

/-- Source: `TextLinesRequest` (lines 86-96) with `text` as the byte string. -/
structure RawTextLinesRequest where
  text : List Nat
  info : Info
  maxLineWidth : Int
  promise : Nat

/-- Source: `GlyphsRequest` (lines 98-107) with `text` as the byte string. -/
structure RawGlyphsRequest where
  text : List Nat
  info : Info
  promise : Nat

/-- The four kinds of request. -/
inductive Kind where
  | metrics
  | measure
  | textLines
  | glyphs
  deriving DecidableEq, Repr

/-- One call of `request.promise.set_value`: the kind of the request, its promise and
the value set. -/
inductive Resolved where
  | metrics (promise : Nat) (value : Metrics)
  | measure (promise : Nat) (value : vec2)
  | textLines (promise : Nat) (value : List TextLine)
  | glyphs (promise : Nat) (value : List Glyph)

/-- The kind and the promise of a resolved request. -/
def Resolved.tag : Resolved → Kind × Nat
  | .metrics promise _ => (Kind.metrics, promise)
  | .measure promise _ => (Kind.measure, promise)
  | .textLines promise _ => (Kind.textLines, promise)
  | .glyphs promise _ => (Kind.glyphs, promise)

/-- The state of the worker thread: the font system (`w`, of which the faces, the glyph
cache and the uid registry are used), the four pending queues and the four in-flight
lists with the requests as passed, and the log of the calls of `set_value`. -/
structure Thread where
  w : World := {}
  metricsQueue : List MetricsRequest := []
  measureQueue : List RawMeasureRequest := []
  textLinesQueue : List RawTextLinesRequest := []
  glyphsQueue : List RawGlyphsRequest := []
  metricsRequests : List MetricsRequest := []
  measureRequests : List RawMeasureRequest := []
  textLinesRequests : List RawTextLinesRequest := []
  glyphsRequests : List RawGlyphsRequest := []
  resolved : List Resolved := []

/-- The body of the loop of `_handleMetricsRequests` (lines 503-527) in `float`. -/
def getMetrics32 (w : World) (request : MetricsRequest) : Metrics :=
  match w.p.fontFaces.lookup request.info.family with
  | none => Metrics.default
  | some family =>
    match family.lookup request.info.face with
    | none => Metrics.default
    | some font =>
      let ftError := font.setPixelSizes (staticCastInt request.info.size)
      if ftError = 0 then
        { ascender := f32 (font.sizeMetrics (staticCastInt request.info.size)).ascender
          descender := f32 (font.sizeMetrics (staticCastInt request.info.size)).descender
          lineHeight := f32 (font.sizeMetrics (staticCastInt request.info.size)).height }
      else Metrics.default

/-- The body of the loop of `_handleMeasureRequests` (lines 538-624) on the request as
passed; `none` when an exception leaves it. -/
def measureRaw (H : HashCombine) (w : World) (request : RawMeasureRequest) :
    Option (vec2 × World) :=
  match w.p.fontFaces.lookup request.info.family with
  | none => some (⟨0, 0⟩, w)
  | some family =>
    match family.lookup request.info.face with
    | none => some (⟨0, 0⟩, w)
    | some font =>
      let ftError := font.setPixelSizes (staticCastInt request.info.size)
      if ftError = 0 then
        match from_bytes request.text with
        | none => none
        | some utf32 =>
          measureLayout32 (lookupGlyph H request.info)
            (font.sizeMetrics (staticCastInt request.info.size)).height
            request.maxLineWidth (String.mk utf32) w
      else some (⟨0, 0⟩, w)

/-- The body of the loop of `_handleTextLinesRequests` (lines 635-736) on the request as
passed; `none` when an exception leaves it.  The text of a line is kept decoded
(`to_bytes` encodes it back). -/
def textLinesRaw (H : HashCombine) (w : World) (request : RawTextLinesRequest) :
    Option (List TextLine × World) :=
  match w.p.fontFaces.lookup request.info.family with
  | none => some ([], w)
  | some family =>
    match family.lookup request.info.face with
    | none => some ([], w)
    | some font =>
      let ftError := font.setPixelSizes (staticCastInt request.info.size)
      if ftError = 0 then
        match from_bytes request.text with
        | none => none
        | some utf32 =>
          textLinesLayout32 (lookupGlyph H request.info)
            (font.sizeMetrics (staticCastInt request.info.size)).height
            request.maxLineWidth (String.mk utf32) w
      else some ([], w)

/-- The body of the loop of `_handleGlyphsRequests` (lines 747-764) on the request as
passed; `none` when an exception leaves it. -/
def getGlyphsRaw (H : HashCombine) (w : World) (request : RawGlyphsRequest) :
    Option (List Glyph × World) :=
  match w.p.fontFaces.lookup request.info.family with
  | none => some ([], w)
  | some family =>
    match family.lookup request.info.face with
    | none => some ([], w)
    | some _ =>
      match from_bytes request.text with
      | none => none
      | some utf32 => some (collectGlyphs (lookupGlyph H request.info) utf32 ([], w))

/-- The loop of `_handleMetricsRequests` (lines 501-529) over the in-flight requests. -/
def metricsLoop : List MetricsRequest → Thread → Thread
  | [], t => t
  | request :: rest, t =>
    metricsLoop rest
      { t with resolved := t.resolved ++ [.metrics request.promise (getMetrics32 t.w request)] }

/-- The loop of `_handleMeasureRequests` (lines 536-626) over the in-flight requests;
`.error` holds the state in which an exception left the loop. -/
def measureLoopRaw (H : HashCombine) : List RawMeasureRequest → Thread → Except Thread Thread
  | [], t => .ok t
  | request :: rest, t =>
    match measureRaw H t.w request with
    | none => .error t
    | some (size, w1) =>
      measureLoopRaw H rest
        { t with w := w1, resolved := t.resolved ++ [.measure request.promise size] }

/-- The loop of `_handleTextLinesRequests` (lines 633-738) over the in-flight
requests. -/
def textLinesLoopRaw (H : HashCombine) :
    List RawTextLinesRequest → Thread → Except Thread Thread
  | [], t => .ok t
  | request :: rest, t =>
    match textLinesRaw H t.w request with
    | none => .error t
    | some (lines, w1) =>
      textLinesLoopRaw H rest
        { t with w := w1, resolved := t.resolved ++ [.textLines request.promise lines] }

/-- The loop of `_handleGlyphsRequests` (lines 745-766) over the in-flight requests. -/
def glyphsLoopRaw (H : HashCombine) : List RawGlyphsRequest → Thread → Except Thread Thread
  | [], t => .ok t
  | request :: rest, t =>
    match getGlyphsRaw H t.w request with
    | none => .error t
    | some (glyphs, w1) =>
      glyphsLoopRaw H rest
        { t with w := w1, resolved := t.resolved ++ [.glyphs request.promise glyphs] }

/-- Source: `System::_handleMetricsRequests` (lines 498-531). -/
def _handleMetricsRequestsRaw (t : Thread) : Thread :=
  { metricsLoop t.metricsRequests t with metricsRequests := [] }

/-- Source: `System::_handleMeasureRequests` (lines 533-628); the list is cleared when
the loop is done. -/
def _handleMeasureRequestsRaw (H : HashCombine) (t : Thread) : Except Thread Thread :=
  match measureLoopRaw H t.measureRequests t with
  | .error t1 => .error t1
  | .ok t1 => .ok { t1 with measureRequests := [] }

/-- Source: `System::_handleTextLinesRequests` (lines 630-740). -/
def _handleTextLinesRequestsRaw (H : HashCombine) (t : Thread) : Except Thread Thread :=
  match textLinesLoopRaw H t.textLinesRequests t with
  | .error t1 => .error t1
  | .ok t1 => .ok { t1 with textLinesRequests := [] }

/-- Source: `System::_handleGlyphsRequests` (lines 742-768). -/
def _handleGlyphsRequestsRaw (H : HashCombine) (t : Thread) : Except Thread Thread :=
  match glyphsLoopRaw H t.glyphsRequests t with
  | .error t1 => .error t1
  | .ok t1 => .ok { t1 with glyphsRequests := [] }

/-- Lines 302-305 on the requests as passed. -/
def drainRaw (t : Thread) : Thread :=
  { t with
    metricsRequests := t.metricsQueue
    measureRequests := t.measureQueue
    textLinesRequests := t.textLinesQueue
    glyphsRequests := t.glyphsQueue
    metricsQueue := []
    measureQueue := []
    textLinesQueue := []
    glyphsQueue := [] }

/-- One iteration of the loop of the worker thread (lines 288-322) on the requests as
passed: `.ok` holds the state at the end of the iteration, `.error` the state in which
an exception ended the thread function. -/
def workerIterationRaw (H : HashCombine) (t : Thread) : Except Thread Thread :=
  let t0 := drainRaw t
  let t1 := if t0.metricsRequests.length ≠ 0 then _handleMetricsRequestsRaw t0 else t0
  match (if t1.measureRequests.length ≠ 0 then _handleMeasureRequestsRaw H t1 else .ok t1) with
  | .error e => .error e
  | .ok t2 =>
    match (if t2.textLinesRequests.length ≠ 0 then _handleTextLinesRequestsRaw H t2
      else .ok t2) with
    | .error e => .error e
    | .ok t3 =>
      if t3.glyphsRequests.length ≠ 0 then _handleGlyphsRequestsRaw H t3 else .ok t3

/-- The state an iteration ends in, by its end or by an exception. -/
def outcome : Except Thread Thread → Thread
  | .ok t => t
  | .error t => t

/-- The iteration ran to its end. -/
def completed : Except Thread Thread → Bool
  | .ok _ => true
  | .error _ => false

/-- The kinds and promises of the pending requests in the order of the handlers: every
metrics request in queue order, then every measure request, then every textLines
request, then every glyphs request. -/
def handlerOrder (t : Thread) : List (Kind × Nat) :=
  t.metricsQueue.map (fun request => (Kind.metrics, request.promise)) ++
    t.measureQueue.map (fun request => (Kind.measure, request.promise)) ++
    t.textLinesQueue.map (fun request => (Kind.textLines, request.promise)) ++
    t.glyphsQueue.map (fun request => (Kind.glyphs, request.promise))

/-- Every text of a pending measure, textLines or glyphs request is UTF-8. -/
def Decodable (t : Thread) : Prop :=
  (∀ request ∈ t.measureQueue, (from_bytes request.text).isSome = true) ∧
  (∀ request ∈ t.textLinesQueue, (from_bytes request.text).isSome = true) ∧
  (∀ request ∈ t.glyphsQueue, (from_bytes request.text).isSome = true)

/-! ## Sample fonts and glyph tables for the examples -/

/-- A glyph with the given advance and bearing deltas and an empty bitmap. -/
def sampleGlyph (c : Char) (advance lsbDelta rsbDelta : Int) : Glyph :=
  { info := ⟨c.toNat, ⟨"Noto Sans", "Regular", 768, 96⟩, c.toNat⟩, imageData := [],
    offset := ⟨0, 0⟩, advance := advance, lsbDelta := lsbDelta, rsbDelta := rsbDelta }

/-- A stateless glyph lookup in which every codepoint has a glyph 10 pixels wide with
no bearing deltas. -/
def sampleTable : Unit → Char → Option Glyph × Unit :=
  fun _ c => (some (sampleGlyph c 640 0 0), ())

/-- A stateless glyph lookup in which every codepoint has a glyph with advance 0 and
left bearing delta -33, so that at the start of a line its corrected advance is
-1 pixel. -/
def shrunkTable : Unit → Char → Option Glyph × Unit :=
  fun _ c => (some (sampleGlyph c 0 (-33) 0), ())

/-- A face in which every codepoint has a glyph 10 pixels wide; the line height is
20 pixels. -/
def sampleFace : FT_Face :=
  { family_name := some "Noto Sans"
    style_name := some "Regular"
    setPixelSizes := fun _ => 0
    sizeMetrics := fun _ => ⟨960, -320, 1280⟩
    getCharIndex := fun code => code + 1
    renderGlyph := fun _ _ => some ⟨0, 0, 640, 0, 0, ⟨0, 0, 0, []⟩⟩ }

/-- An instance of the parameter `HashCombine` for the examples: a multiply-and-add
combiner with `size_t` results that takes a string by its length.  It is not the
function of djvCore, which is not among the sources; no theorem depends on it except
the examples that name it. -/
def sampleHash : HashCombine :=
  { int := fun h v => (31 * h + v.toNat) % 2 ^ 64
    float := fun h v => (31 * h + v.toNat) % 2 ^ 64
    string := fun h v => (31 * h + v.length) % 2 ^ 64
    uint32 := fun h v => (31 * h + v) % 2 ^ 64 }

/-- A system with the one face `sampleFace` loaded and an empty glyph cache. -/
def sampleWorld : World :=
  { p := { fontFaces := [("Noto Sans", [("Regular", sampleFace)])] } }

/-- The font of `sampleFace` at 12 pixels. -/
def sampleInfo : Info := ⟨"Noto Sans", "Regular", 768, 96⟩

/-- The glyph `getGlyph` renders for the codepoint `a` of `sampleInfo` in a fresh
`sampleWorld`. -/
def sampleGlyphA : Glyph :=
  Glyph.create ⟨97, sampleInfo, 1⟩ [] ⟨0, 0⟩ 640 0 0

/-- A face for which `FT_Set_Pixel_Sizes` always reports an error. -/
def brokenFace : FT_Face :=
  { sampleFace with family_name := some "Broken", setPixelSizes := fun _ => 1 }

/-- A system with the one face `brokenFace` loaded. -/
def brokenWorld : World :=
  { p := { fontFaces := [("Broken", [("Regular", brokenFace)])] } }

/-- A listing of three files of which the second cannot be opened. -/
def sampleDirectory : List FontFile :=
  [⟨"NotoSans-Regular.ttf", some sampleFace⟩, ⟨"README.txt", none⟩,
    ⟨"NotoSans-Bold.ttf", some { sampleFace with style_name := some "Bold" }⟩]

/-- A listing whose first file opens as a face without a family name; the second is
the sample face. -/
def namelessDirectory : List FontFile :=
  [⟨"Embedded.pfb", some { sampleFace with family_name := none }⟩,
    ⟨"NotoSans-Regular.ttf", some sampleFace⟩]

/-- A listing whose first file is the sample face and whose second file opens as a face
without a family name. -/
def namelessLastDirectory : List FontFile :=
  [⟨"NotoSans-Regular.ttf", some sampleFace⟩,
    ⟨"Embedded.pfb", some { sampleFace with family_name := none }⟩]

/-- A face in which every codepoint has a glyph 10 pixels wide with left bearing delta
-20 and right bearing delta 20: a glyph that follows another one on the same line is
corrected by -1 pixel. -/
def kernedFace : FT_Face :=
  { sampleFace with renderGlyph := fun _ _ => some ⟨0, 0, 640, -20, 20, ⟨0, 0, 0, []⟩⟩ }

/-- A system with the one face `kernedFace` loaded and an empty glyph cache. -/
def kernedWorld : World :=
  { p := { fontFaces := [("Noto Sans", [("Regular", kernedFace)])] } }

/-- The face `sampleFace` with a line height of 78642 and 1/64 pixels (the 26.6 value
5033089), as at a pixel size of 65535. -/
def tallFace : FT_Face :=
  { sampleFace with sizeMetrics := fun _ => ⟨4026471, -1006618, 5033089⟩ }

/-- A system with the one face `tallFace` loaded and an empty glyph cache. -/
def tallWorld : World :=
  { p := { fontFaces := [("Noto Sans", [("Regular", tallFace)])] } }

/-- The font of `tallFace` at 65535 pixels. -/
def tallInfo : Info := ⟨"Noto Sans", "Regular", 4194240, 96⟩

/-- A stateless glyph lookup in which every codepoint has a glyph whose advance is the
`float` 5033089/64 pixels (78642 and 1/64 pixels) with no bearing deltas. -/
def wideTable : Unit → Char → Option Glyph × Unit :=
  fun _ c => (some (sampleGlyph c 5033089 0 0), ())

/-- A thread state with the sample face loaded and five pending requests, enqueued in
the order glyphs, textLines, measure, metrics, measure; the texts are "ab" and "a b". -/
def sampleThread : Thread :=
  { w := sampleWorld
    metricsQueue := [⟨sampleInfo, 4⟩]
    measureQueue := [⟨[97, 32, 98], sampleInfo, 100000, 3⟩, ⟨[97, 98], sampleInfo, 100000, 5⟩]
    textLinesQueue := [⟨[97, 32, 98], sampleInfo, 1000, 2⟩]
    glyphsQueue := [⟨[97, 98], sampleInfo, 1⟩] }

/-- A thread state with the sample face loaded and three pending requests, of which the
measure request carries the one byte 0xFF, which is not UTF-8. -/
def invalidThread : Thread :=
  { w := sampleWorld
    metricsQueue := [⟨sampleInfo, 1⟩]
    measureQueue := [⟨[0xFF], sampleInfo, 100000, 2⟩]
    glyphsQueue := [⟨[97], sampleInfo, 3⟩] }

/-- A quantity every iteration of a walk over `n` codepoints decreases: the distance
of the nearest possible rewind target to the end, weighted by `n + 1`, plus the
distance of the iterator to the end. -/
def walkRank (n i textLine : Nat) : Nat :=
  (n - (if textLine = n then i else textLine)) * (n + 1) + (n - i)

/-- The iterators stay in range and a recorded break opportunity lies before `i`. -/
def WalkInv (n i textLine : Nat) : Prop :=
  i ≤ n ∧ textLine ≤ n ∧ (textLine ≠ n → textLine < i)

/-- The three ways an iteration moves `i` and `textLine`: advance, advance and record a
break opportunity at `i`, or rewind to the recorded break opportunity. -/
def WalkMove (n i t i1 t1 : Nat) : Prop :=
  (i1 = i + 1 ∧ t1 = t) ∨ (i1 = i + 1 ∧ t1 = i) ∨ (t ≠ n ∧ i1 = t + 1 ∧ t1 = n)

/-- The states of the measuring walk and of the line-splitting walk after the same
number of iterations. -/
structure Sim {σ : Type} (height : Int) (ms : MeasureState σ) (ls : TextLinesState σ) :
    Prop where
  sys : ms.sys = ls.sys
  i : ms.i = ls.i
  pos : ms.pos = ls.pos
  textLine : ms.textLine = ls.textLine
  textLineX : ms.textLineX = ls.textLineX
  rsb : ms.rsbDeltaPrev = ls.rsbDeltaPrev
  width : ms.size.x = maxWidth ls.lines
  rows : ls.pos.y = height * (ls.lines.length + 1)

/-- Invariant of the line-splitting walk: `lineBegin` never passes `i` and stays inside
a non-empty text. -/
def LinesInv {σ : Type} (n : Nat) (s : TextLinesState σ) : Prop :=
  WalkInv n s.i s.textLine ∧ s.lineBegin ≤ s.i ∧ (0 < n → s.lineBegin < n)

/-- Invariant of the line-splitting walk when every amount lies between 0 and
`maxLineWidth`: the pen x is below `maxLineWidth` unless the codepoint before `i` is a
space or tab that was recorded as the break opportunity and without whose amount the pen
x is below `maxLineWidth`; the pen x recorded with a break opportunity is below
`maxLineWidth`; and the lines pushed so far fit. -/
def FitInv {σ : Type} (getGlyph : σ → Char → Option Glyph × σ) (utf32 : List Char)
    (maxLineWidth : Int) (s : TextLinesState σ) : Prop :=
  LinesInv utf32.length s ∧ s.textLineX < maxLineWidth ∧ (s.i = 0 → s.pos.x = 0) ∧
  (s.pos.x < maxLineWidth ∨
    (1 ≤ s.i ∧ s.textLine = s.i - 1 ∧ s.lineBegin < s.i ∧
      ∃ c, utf32[s.i - 1]? = some c ∧ isSpace c = true ∧
        ∃ sys r, s.pos.x - (glyphAdvance (getGlyph sys c).1 r).1 < maxLineWidth)) ∧
  (∀ l ∈ s.lines, LineFits getGlyph maxLineWidth l)

/-- The states of the two `float` walks after the same number of iterations. -/
structure Sim32 {σ : Type} (height : Int) (ms : MeasureState σ) (ls : TextLinesState σ) :
    Prop where
  sys : ms.sys = ls.sys
  i : ms.i = ls.i
  pos : ms.pos = ls.pos
  textLine : ms.textLine = ls.textLine
  textLineX : ms.textLineX = ls.textLineX
  rsb : ms.rsbDeltaPrev = ls.rsbDeltaPrev
  width : ms.size.x = maxWidth ls.lines
  rows : ls.pos.y = stackedHeight height (ls.lines.length + 1)

/-! ## Lemmas -/

section Lemmas

variable {σ : Type}

theorem walkRank_succ {n i t : Nat} (hi : i < n) (hinv : WalkInv n i t) :
    walkRank n (i + 1) t < walkRank n i t := by
  obtain ⟨_, ht, hlt⟩ := hinv
  unfold walkRank
  by_cases h : t = n
  · simp only [h, if_true]
    have : (n - (i + 1)) * (n + 1) ≤ (n - i) * (n + 1) := Nat.mul_le_mul_right _ (by omega)
    omega
  · simp only [h, if_false]
    omega

theorem walkRank_mark {n i t : Nat} (hi : i < n) (hinv : WalkInv n i t) :
    walkRank n (i + 1) i < walkRank n i t := by
  obtain ⟨_, ht, hlt⟩ := hinv
  unfold walkRank
  have hin : i ≠ n := by omega
  by_cases h : t = n
  · simp only [h, hin, if_true, if_false]
    omega
  · simp only [h, hin, if_false]
    have : (n - i) * (n + 1) ≤ (n - t) * (n + 1) := Nat.mul_le_mul_right _ (by have := hlt h; omega)
    have h2 : (n - t) = (n - i) + (i - t) := by have := hlt h; omega
    have : (n - i + 1) * (n + 1) ≤ (n - t) * (n + 1) := Nat.mul_le_mul_right _ (by have := hlt h; omega)
    have h3 : (n - i + 1) * (n + 1) = (n - i) * (n + 1) + (n + 1) := by ring
    omega

theorem walkRank_rewind {n i t : Nat} (hi : i < n) (hinv : WalkInv n i t) (h : t ≠ n) :
    walkRank n (t + 1) n < walkRank n i t := by
  obtain ⟨_, ht, hlt⟩ := hinv
  have := hlt h
  unfold walkRank
  simp only [h, if_true, if_false]
  have h3 : (n - t) * (n + 1) = (n - (t + 1)) * (n + 1) + (n + 1) := by
    have : n - t = (n - (t + 1)) + 1 := by omega
    rw [this]; ring
  omega

theorem walkRank_init (n : Nat) : walkRank n 0 n ≤ walkFuel n := by
  unfold walkRank walkFuel
  simp only [if_true]
  have : n * (n + 1) + n ≤ (n + 1) * (n + 1) := by nlinarith
  simpa using this

theorem measureStep_move (getGlyph : σ → Char → Option Glyph × σ) (utf32 : List Char)
    (height maxLineWidth : Int) (c : Char) (s : MeasureState σ) :
    WalkMove utf32.length s.i s.textLine
      (measureStep getGlyph utf32 height maxLineWidth c s).i
      (measureStep getGlyph utf32 height maxLineWidth c s).textLine := by
  unfold measureStep WalkMove
  simp only []
  split_ifs <;> simp_all

theorem textLinesStep_move (getGlyph : σ → Char → Option Glyph × σ) (utf32 : List Char)
    (height maxLineWidth : Int) (c : Char) (s s1 : TextLinesState σ)
    (h : textLinesStep getGlyph utf32 height maxLineWidth c s = some s1) :
    WalkMove utf32.length s.i s.textLine s1.i s1.textLine := by
  unfold textLinesStep at h
  unfold WalkMove
  simp only [] at h
  split_ifs at h
  all_goals first
    | (split at h
       · exact absurd h (by simp)
       · simp only [Option.some.injEq] at h; subst h; simp_all)
    | (simp only [Option.some.injEq] at h; subst h; simp_all)

theorem makeLine_eq (utf32 : List Char) (lineBegin i : Nat) (x height : Int)
    (h : lineBegin ≤ utf32.length) :
    makeLine utf32 lineBegin i x height =
      some ⟨String.mk ((utf32.drop lineBegin).take (toSizeT ((i : Int) - (lineBegin : Int)))),
        ⟨x, height⟩⟩ := by
  unfold makeLine substr
  simp [Nat.not_lt.mpr h]

theorem maxWidth_append (lines : List TextLine) (l : TextLine) :
    maxWidth (lines ++ [l]) = max (maxWidth lines) l.size.x := by
  unfold maxWidth
  induction lines with
  | nil => simp [max_comm]
  | cons a rest ih =>
    simp only [List.cons_append, List.map_cons, List.foldr_cons]
    rw [ih, max_assoc]

theorem sim_step (getGlyph : σ → Char → Option Glyph × σ) (utf32 : List Char)
    (height maxLineWidth : Int) (c : Char) (ms : MeasureState σ) (ls : TextLinesState σ)
    (h : Sim height ms ls) (hb : ls.lineBegin ≤ utf32.length) :
    ∃ ls1, textLinesStep getGlyph utf32 height maxLineWidth c ls = some ls1 ∧
      Sim height (measureStep getGlyph utf32 height maxLineWidth c ms) ls1 := by
  obtain ⟨h1, h2, h3, h4, h5, h6, h7, h8⟩ := h
  unfold textLinesStep measureStep
  simp only [h1, h2, h3, h4, h5, h6, makeLine_eq _ _ _ _ _ hb]
  split_ifs
  all_goals
    refine ⟨_, rfl, ?_⟩
    constructor <;> simp [maxWidth_append, h7, h8, h3] <;> try ring
  

theorem walkMove_inv {n i t i1 t1 : Nat} (hm : WalkMove n i t i1 t1) (hi : i < n)
    (hinv : WalkInv n i t) : WalkInv n i1 t1 ∧ walkRank n i1 t1 < walkRank n i t := by
  rcases hm with ⟨h1, h2⟩ | ⟨h1, h2⟩ | ⟨h0, h1, h2⟩
  · subst h1 h2
    refine ⟨?_, walkRank_succ hi hinv⟩
    obtain ⟨a, b, c⟩ := hinv
    exact ⟨by omega, b, fun h => by have := c h; omega⟩
  · subst h1 h2
    refine ⟨?_, walkRank_mark hi hinv⟩
    exact ⟨by omega, by omega, fun _ => by omega⟩
  · subst h1 h2
    refine ⟨?_, walkRank_rewind hi hinv h0⟩
    obtain ⟨a, b, c⟩ := hinv
    exact ⟨by have := c h0; omega, le_refl _, fun h => absurd rfl h⟩

theorem getElem?_some_lt {utf32 : List Char} {i : Nat} {c : Char}
    (h : utf32[i]? = some c) : i < utf32.length := by
  rcases Nat.lt_or_ge i utf32.length with h1 | h1
  · exact h1
  · rw [List.getElem?_eq_none h1] at h; exact absurd h (by simp)

theorem walkRank_pos {n i t : Nat} (hi : i < n) : 0 < walkRank n i t := by
  unfold walkRank; omega

theorem measureLoop_total (getGlyph : σ → Char → Option Glyph × σ) (utf32 : List Char)
    (height maxLineWidth : Int) :
    ∀ (fuel : Nat) (s : MeasureState σ), WalkInv utf32.length s.i s.textLine →
      walkRank utf32.length s.i s.textLine ≤ fuel →
      ∃ s1, measureLoop getGlyph utf32 height maxLineWidth fuel s = some s1 ∧
        s1.i = utf32.length := by
  intro fuel
  induction fuel with
  | zero =>
    intro s hinv hr
    unfold measureLoop
    cases hc : utf32[s.i]? with
    | none =>
      refine ⟨s, rfl, ?_⟩
      have := List.getElem?_eq_none_iff.mp hc
      have := hinv.1
      omega
    | some c =>
      have := walkRank_pos (t := s.textLine) (getElem?_some_lt hc)
      omega
  | succ fuel ih =>
    intro s hinv hr
    unfold measureLoop
    cases hc : utf32[s.i]? with
    | none =>
      refine ⟨s, rfl, ?_⟩
      have := List.getElem?_eq_none_iff.mp hc
      have := hinv.1
      omega
    | some c =>
      have hi := getElem?_some_lt hc
      obtain ⟨h1, h2⟩ := walkMove_inv (measureStep_move getGlyph utf32 height maxLineWidth c s) hi hinv
      simpa using ih _ h1 (by omega)

theorem measureLoop_fuel (getGlyph : σ → Char → Option Glyph × σ) (utf32 : List Char)
    (height maxLineWidth : Int) :
    ∀ (fuel extra : Nat) (s s1 : MeasureState σ),
      measureLoop getGlyph utf32 height maxLineWidth fuel s = some s1 →
      measureLoop getGlyph utf32 height maxLineWidth (fuel + extra) s = some s1 := by
  intro fuel
  induction fuel with
  | zero =>
    intro extra s s1 h
    unfold measureLoop at h ⊢
    cases hc : utf32[s.i]? with
    | none => simpa [hc] using h
    | some c => simp [hc] at h
  | succ fuel ih =>
    intro extra s s1 h
    have he : fuel + 1 + extra = (fuel + extra) + 1 := by omega
    rw [he]
    unfold measureLoop at h ⊢
    cases hc : utf32[s.i]? with
    | none => simpa [hc] using h
    | some c =>
      simp only [hc] at h ⊢
      exact ih extra _ _ h

theorem textLinesStep_lineBegin (getGlyph : σ → Char → Option Glyph × σ) (utf32 : List Char)
    (height maxLineWidth : Int) (c : Char) (s s1 : TextLinesState σ)
    (h : textLinesStep getGlyph utf32 height maxLineWidth c s = some s1) :
    (s1.lineBegin = s.lineBegin ∧ s1.i = s.i + 1) ∨ (s1.lineBegin = s.i ∧ s1.i = s.i + 1) ∨
      (s.textLine ≠ utf32.length ∧ s1.lineBegin = s.textLine + 1 ∧ s1.i = s.textLine + 1) := by
  unfold textLinesStep at h
  simp only [] at h
  split_ifs at h
  all_goals first
    | (split at h
       · exact absurd h (by simp)
       · simp only [Option.some.injEq] at h; subst h; simp_all)
    | (simp only [Option.some.injEq] at h; subst h; simp_all)

theorem textLinesStep_isSome (getGlyph : σ → Char → Option Glyph × σ) (utf32 : List Char)
    (height maxLineWidth : Int) (c : Char) (s : TextLinesState σ)
    (hb : s.lineBegin ≤ utf32.length) :
    ∃ s1, textLinesStep getGlyph utf32 height maxLineWidth c s = some s1 := by
  unfold textLinesStep
  simp only [makeLine_eq _ _ _ _ _ hb]
  split_ifs <;> exact ⟨_, rfl⟩

theorem textLinesStep_inv (getGlyph : σ → Char → Option Glyph × σ) (utf32 : List Char)
    (height maxLineWidth : Int) (c : Char) (s : TextLinesState σ)
    (hc : utf32[s.i]? = some c) (hinv : LinesInv utf32.length s) :
    ∃ s1, textLinesStep getGlyph utf32 height maxLineWidth c s = some s1 ∧
      LinesInv utf32.length s1 ∧
      walkRank utf32.length s1.i s1.textLine < walkRank utf32.length s.i s.textLine := by
  have hi := getElem?_some_lt hc
  obtain ⟨hw, hb1, hb2⟩ := hinv
  obtain ⟨s1, hs⟩ := textLinesStep_isSome getGlyph utf32 height maxLineWidth c s (by omega)
  obtain ⟨h1, h2⟩ := walkMove_inv (textLinesStep_move getGlyph utf32 height maxLineWidth c s s1 hs) hi hw
  refine ⟨s1, hs, ⟨h1, ?_⟩, h2⟩
  have h3 := hw.2.2
  rcases textLinesStep_lineBegin getGlyph utf32 height maxLineWidth c s s1 hs with
    ⟨a, b⟩ | ⟨a, b⟩ | ⟨a0, a, b⟩
  · exact ⟨by omega, fun _ => by omega⟩
  · exact ⟨by omega, fun _ => by omega⟩
  · have := h3 a0
    exact ⟨by omega, fun _ => by omega⟩

theorem textLinesLoop_total (getGlyph : σ → Char → Option Glyph × σ) (utf32 : List Char)
    (height maxLineWidth : Int) :
    ∀ (fuel : Nat) (s : TextLinesState σ), LinesInv utf32.length s →
      walkRank utf32.length s.i s.textLine ≤ fuel →
      ∃ s1, textLinesLoop getGlyph utf32 height maxLineWidth fuel s = some s1 ∧
        s1.i = utf32.length ∧ LinesInv utf32.length s1 := by
  intro fuel
  induction fuel with
  | zero =>
    intro s hinv hr
    unfold textLinesLoop
    cases hc : utf32[s.i]? with
    | none =>
      refine ⟨s, rfl, ?_, hinv⟩
      have := List.getElem?_eq_none_iff.mp hc
      have := hinv.1.1
      omega
    | some c =>
      have := walkRank_pos (t := s.textLine) (getElem?_some_lt hc)
      omega
  | succ fuel ih =>
    intro s hinv hr
    unfold textLinesLoop
    cases hc : utf32[s.i]? with
    | none =>
      refine ⟨s, rfl, ?_, hinv⟩
      have := List.getElem?_eq_none_iff.mp hc
      have := hinv.1.1
      omega
    | some c =>
      obtain ⟨s1, hs, h1, h2⟩ := textLinesStep_inv getGlyph utf32 height maxLineWidth c s hc hinv
      simpa [hs] using ih s1 h1 (by omega)

theorem textLinesLoop_fuel (getGlyph : σ → Char → Option Glyph × σ) (utf32 : List Char)
    (height maxLineWidth : Int) :
    ∀ (fuel extra : Nat) (s s1 : TextLinesState σ),
      textLinesLoop getGlyph utf32 height maxLineWidth fuel s = some s1 →
      textLinesLoop getGlyph utf32 height maxLineWidth (fuel + extra) s = some s1 := by
  intro fuel
  induction fuel with
  | zero =>
    intro extra s s1 h
    unfold textLinesLoop at h ⊢
    cases hc : utf32[s.i]? with
    | none => simpa [hc] using h
    | some c => simp [hc] at h
  | succ fuel ih =>
    intro extra s s1 h
    have he : fuel + 1 + extra = (fuel + extra) + 1 := by omega
    rw [he]
    unfold textLinesLoop at h ⊢
    cases hc : utf32[s.i]? with
    | none => simpa [hc] using h
    | some c =>
      simp only [hc] at h ⊢
      cases hs : textLinesStep getGlyph utf32 height maxLineWidth c s with
      | none => simp [hs] at h
      | some s2 =>
        simp only [hs] at h ⊢
        exact ih extra _ _ h

theorem sim_loop (getGlyph : σ → Char → Option Glyph × σ) (utf32 : List Char)
    (height maxLineWidth : Int) :
    ∀ (fuel : Nat) (ms ms1 : MeasureState σ) (ls : TextLinesState σ),
      Sim height ms ls → LinesInv utf32.length ls →
      measureLoop getGlyph utf32 height maxLineWidth fuel ms = some ms1 →
      ∃ ls1, textLinesLoop getGlyph utf32 height maxLineWidth fuel ls = some ls1 ∧
        Sim height ms1 ls1 ∧ LinesInv utf32.length ls1 := by
  intro fuel
  induction fuel with
  | zero =>
    intro ms ms1 ls hsim hinv h
    unfold measureLoop at h
    unfold textLinesLoop
    rw [hsim.i] at h
    cases hc : utf32[ls.i]? with
    | none =>
      simp only [hc, Option.some.injEq] at h
      subst h
      exact ⟨ls, rfl, hsim, hinv⟩
    | some c => simp [hc] at h
  | succ fuel ih =>
    intro ms ms1 ls hsim hinv h
    unfold measureLoop at h
    unfold textLinesLoop
    rw [hsim.i] at h
    cases hc : utf32[ls.i]? with
    | none =>
      simp only [hc, Option.some.injEq] at h
      subst h
      exact ⟨ls, rfl, hsim, hinv⟩
    | some c =>
      simp only [hc] at h
      obtain ⟨ls1, hs, hsim1⟩ :=
        sim_step getGlyph utf32 height maxLineWidth c ms ls hsim (by have := hinv.2.1; have := hinv.1.1; omega)
      obtain ⟨ls2, hs2, hinv2, _⟩ := textLinesStep_inv getGlyph utf32 height maxLineWidth c ls hc hinv
      rw [hs] at hs2
      simp only [Option.some.injEq] at hs2
      subst hs2
      simp only [hs]
      exact ih _ _ _ hsim1 hinv2 h

theorem measureTrace_head (getGlyph : σ → Char → Option Glyph × σ) (utf32 : List Char)
    (height maxLineWidth : Int) (fuel : Nat) (s : MeasureState σ) :
    ∃ tl, measureTrace getGlyph utf32 height maxLineWidth fuel s = s.i :: tl := by
  unfold measureTrace
  cases utf32[s.i]? with
  | none => exact ⟨_, rfl⟩
  | some c => cases fuel <;> exact ⟨_, rfl⟩

theorem walkMove_bound {n i t i1 t1 b : Nat} (hm : WalkMove n i t i1 t1)
    (hb : b ≤ i) (ht : t ≠ n → b ≤ t) :
    b ≤ i1 ∧ (t1 ≠ n → b ≤ t1) ∧ (i1 ≤ i → b < i1) := by
  rcases hm with ⟨h1, h2⟩ | ⟨h1, h2⟩ | ⟨h0, h1, h2⟩
  · subst h1 h2; exact ⟨by omega, ht, fun h => by omega⟩
  · subst h1 h2; exact ⟨by omega, fun _ => hb, fun h => by omega⟩
  · subst h1 h2; have := ht h0; exact ⟨by omega, fun h => absurd rfl h, fun _ => by omega⟩

theorem measureTrace_resume_gt (getGlyph : σ → Char → Option Glyph × σ) (utf32 : List Char)
    (height maxLineWidth : Int) :
    ∀ (fuel : Nat) (s : MeasureState σ) (b : Nat), b ≤ s.i →
      (s.textLine ≠ utf32.length → b ≤ s.textLine) →
      ∀ r ∈ resumePoints (measureTrace getGlyph utf32 height maxLineWidth fuel s), b < r := by
  intro fuel
  induction fuel with
  | zero =>
    intro s b _ _ r hr
    unfold measureTrace at hr
    cases hc : utf32[s.i]? <;> simp [hc, resumePoints] at hr
  | succ fuel ih =>
    intro s b hb ht r hr
    unfold measureTrace at hr
    cases hc : utf32[s.i]? with
    | none => simp [hc, resumePoints] at hr
    | some c =>
      simp only [hc] at hr
      obtain ⟨h1, h2, h3⟩ :=
        walkMove_bound (measureStep_move getGlyph utf32 height maxLineWidth c s) hb ht
      obtain ⟨tl, htl⟩ := measureTrace_head getGlyph utf32 height maxLineWidth fuel
        (measureStep getGlyph utf32 height maxLineWidth c s)
      have ih1 := ih (measureStep getGlyph utf32 height maxLineWidth c s) b h1 h2
      rw [htl] at hr ih1
      unfold resumePoints at hr
      split_ifs at hr with hle
      · rcases List.mem_cons.mp hr with h | h
        · rw [h]; exact h3 hle
        · exact ih1 r h
      · exact ih1 r hr

theorem measureTrace_increasing (getGlyph : σ → Char → Option Glyph × σ) (utf32 : List Char)
    (height maxLineWidth : Int) :
    ∀ (fuel : Nat) (s : MeasureState σ),
      (resumePoints (measureTrace getGlyph utf32 height maxLineWidth fuel s)).Pairwise
        (fun a b => a < b) := by
  intro fuel
  induction fuel with
  | zero =>
    intro s
    unfold measureTrace
    cases hc : utf32[s.i]? <;> simp [resumePoints]
  | succ fuel ih =>
    intro s
    unfold measureTrace
    cases hc : utf32[s.i]? with
    | none => simp [resumePoints]
    | some c =>
      simp only []
      have hm := measureStep_move getGlyph utf32 height maxLineWidth c s
      obtain ⟨tl, htl⟩ := measureTrace_head getGlyph utf32 height maxLineWidth fuel
        (measureStep getGlyph utf32 height maxLineWidth c s)
      have ih1 := ih (measureStep getGlyph utf32 height maxLineWidth c s)
      have hgt := measureTrace_resume_gt getGlyph utf32 height maxLineWidth fuel
        (measureStep getGlyph utf32 height maxLineWidth c s)
        (measureStep getGlyph utf32 height maxLineWidth c s).i (le_refl _)
      rw [htl] at ih1 hgt ⊢
      unfold resumePoints
      split_ifs with hle
      · refine List.Pairwise.cons ?_ ih1
        apply hgt
        intro hne
        rcases hm with ⟨h1, h2⟩ | ⟨h1, h2⟩ | ⟨h0, h1, h2⟩
        · omega
        · omega
        · exact absurd h2 hne
      · exact ih1

theorem measureTrace_last (getGlyph : σ → Char → Option Glyph × σ) (utf32 : List Char)
    (height maxLineWidth : Int) :
    ∀ (fuel : Nat) (s : MeasureState σ), WalkInv utf32.length s.i s.textLine →
      walkRank utf32.length s.i s.textLine ≤ fuel →
      (measureTrace getGlyph utf32 height maxLineWidth fuel s).getLast? = some utf32.length := by
  intro fuel
  induction fuel with
  | zero =>
    intro s hinv hr
    unfold measureTrace
    cases hc : utf32[s.i]? with
    | none =>
      have := List.getElem?_eq_none_iff.mp hc
      have := hinv.1
      simp; omega
    | some c =>
      have := walkRank_pos (t := s.textLine) (getElem?_some_lt hc)
      omega
  | succ fuel ih =>
    intro s hinv hr
    unfold measureTrace
    cases hc : utf32[s.i]? with
    | none =>
      have := List.getElem?_eq_none_iff.mp hc
      have := hinv.1
      simp; omega
    | some c =>
      have hi := getElem?_some_lt hc
      obtain ⟨h1, h2⟩ := walkMove_inv (measureStep_move getGlyph utf32 height maxLineWidth c s) hi hinv
      obtain ⟨tl, htl⟩ := measureTrace_head getGlyph utf32 height maxLineWidth fuel
        (measureStep getGlyph utf32 height maxLineWidth c s)
      have := ih _ h1 (by omega)
      simp only []
      rw [htl] at this ⊢
      simpa [List.getLast?_cons_cons] using this

theorem textLinesTrace_head (getGlyph : σ → Char → Option Glyph × σ) (utf32 : List Char)
    (height maxLineWidth : Int) (fuel : Nat) (s : TextLinesState σ) :
    ∃ tl, textLinesTrace getGlyph utf32 height maxLineWidth fuel s = s.i :: tl := by
  unfold textLinesTrace
  cases utf32[s.i]? with
  | none => exact ⟨_, rfl⟩
  | some c =>
    cases fuel with
    | zero => exact ⟨_, rfl⟩
    | succ fuel =>
      simp only []
      split <;> exact ⟨_, rfl⟩

theorem textLinesTrace_resume_gt (getGlyph : σ → Char → Option Glyph × σ)
    (utf32 : List Char) (height maxLineWidth : Int) :
    ∀ (fuel : Nat) (s : TextLinesState σ) (b : Nat), b ≤ s.i →
      (s.textLine ≠ utf32.length → b ≤ s.textLine) →
      ∀ r ∈ resumePoints (textLinesTrace getGlyph utf32 height maxLineWidth fuel s),
        b < r := by
  intro fuel
  induction fuel with
  | zero =>
    intro s b _ _ r hr
    unfold textLinesTrace at hr
    cases hc : utf32[s.i]? <;> simp [hc, resumePoints] at hr
  | succ fuel ih =>
    intro s b hb ht r hr
    unfold textLinesTrace at hr
    cases hc : utf32[s.i]? with
    | none => simp [hc, resumePoints] at hr
    | some c =>
      simp only [hc] at hr
      cases hs : textLinesStep getGlyph utf32 height maxLineWidth c s with
      | none => simp [hs, resumePoints] at hr
      | some s1 =>
        simp only [hs] at hr
        obtain ⟨h1, h2, h3⟩ :=
          walkMove_bound (textLinesStep_move getGlyph utf32 height maxLineWidth c s s1 hs) hb ht
        obtain ⟨tl, htl⟩ := textLinesTrace_head getGlyph utf32 height maxLineWidth fuel s1
        have ih1 := ih s1 b h1 h2
        rw [htl] at hr ih1
        unfold resumePoints at hr
        split_ifs at hr with hle
        · rcases List.mem_cons.mp hr with h | h
          · rw [h]; exact h3 hle
          · exact ih1 r h
        · exact ih1 r hr

theorem textLinesTrace_increasing (getGlyph : σ → Char → Option Glyph × σ)
    (utf32 : List Char) (height maxLineWidth : Int) :
    ∀ (fuel : Nat) (s : TextLinesState σ),
      (resumePoints (textLinesTrace getGlyph utf32 height maxLineWidth fuel s)).Pairwise
        (fun a b => a < b) := by
  intro fuel
  induction fuel with
  | zero =>
    intro s
    unfold textLinesTrace
    cases hc : utf32[s.i]? <;> simp [resumePoints]
  | succ fuel ih =>
    intro s
    unfold textLinesTrace
    cases hc : utf32[s.i]? with
    | none => simp [resumePoints]
    | some c =>
      simp only []
      cases hs : textLinesStep getGlyph utf32 height maxLineWidth c s with
      | none => simp [resumePoints]
      | some s1 =>
        simp only []
        have hm := textLinesStep_move getGlyph utf32 height maxLineWidth c s s1 hs
        obtain ⟨tl, htl⟩ := textLinesTrace_head getGlyph utf32 height maxLineWidth fuel s1
        have ih1 := ih s1
        have hgt := textLinesTrace_resume_gt getGlyph utf32 height maxLineWidth fuel s1
          s1.i (le_refl _)
        rw [htl] at ih1 hgt ⊢
        unfold resumePoints
        split_ifs with hle
        · refine List.Pairwise.cons ?_ ih1
          apply hgt
          intro hne
          rcases hm with ⟨h1, h2⟩ | ⟨h1, h2⟩ | ⟨h0, h1, h2⟩
          · omega
          · omega
          · exact absurd h2 hne
        · exact ih1

theorem textLinesTrace_last (getGlyph : σ → Char → Option Glyph × σ) (utf32 : List Char)
    (height maxLineWidth : Int) :
    ∀ (fuel : Nat) (s : TextLinesState σ), LinesInv utf32.length s →
      walkRank utf32.length s.i s.textLine ≤ fuel →
      (textLinesTrace getGlyph utf32 height maxLineWidth fuel s).getLast? =
        some utf32.length := by
  intro fuel
  induction fuel with
  | zero =>
    intro s hinv hr
    unfold textLinesTrace
    cases hc : utf32[s.i]? with
    | none =>
      have := List.getElem?_eq_none_iff.mp hc
      have := hinv.1.1
      simp; omega
    | some c =>
      have := walkRank_pos (t := s.textLine) (getElem?_some_lt hc)
      omega
  | succ fuel ih =>
    intro s hinv hr
    unfold textLinesTrace
    cases hc : utf32[s.i]? with
    | none =>
      have := List.getElem?_eq_none_iff.mp hc
      have := hinv.1.1
      simp; omega
    | some c =>
      obtain ⟨s1, hs, h1, h2⟩ := textLinesStep_inv getGlyph utf32 height maxLineWidth c s hc hinv
      obtain ⟨tl, htl⟩ := textLinesTrace_head getGlyph utf32 height maxLineWidth fuel s1
      have := ih s1 h1 (by omega)
      simp only [hs]
      rw [htl] at this ⊢
      simpa [List.getLast?_cons_cons] using this

theorem init_sim (utf32 : List Char) (height : Int) (sys : σ) :
    Sim height (MeasureState.init utf32 height sys) (TextLinesState.init utf32 height sys) := by
  constructor <;> simp [MeasureState.init, TextLinesState.init, maxWidth]

theorem init_inv (utf32 : List Char) (height : Int) (sys : σ) :
    LinesInv utf32.length (TextLinesState.init utf32 height sys) := by
  refine ⟨⟨?_, ?_, ?_⟩, ?_, ?_⟩ <;> simp [TextLinesState.init]

theorem toList_length_pos {text : String} (h : text ≠ "") : 0 < text.toList.length := by
  rcases text with ⟨l⟩
  cases l with
  | nil => exact absurd rfl h
  | cons a rest => simp [String.toList]

theorem layout_agree (getGlyph : σ → Char → Option Glyph × σ) (height maxLineWidth : Int)
    (text : String) (sys : σ) (hne : text ≠ "") :
    ∃ size lines sys1,
      measureLayout getGlyph height maxLineWidth text sys = some (size, sys1) ∧
      textLinesLayout getGlyph height maxLineWidth text sys = some (lines, sys1) ∧
      size.x = maxWidth lines ∧ size.y = height * lines.length := by
  have hpos := toList_length_pos hne
  obtain ⟨ms1, hm, _⟩ := measureLoop_total getGlyph text.toList height maxLineWidth
    (walkFuel text.toList.length) (MeasureState.init text.toList height sys)
    (init_inv text.toList height sys).1 (walkRank_init _)
  obtain ⟨ls1, hl, hsim, hinv⟩ := sim_loop getGlyph text.toList height maxLineWidth
    (walkFuel text.toList.length) _ ms1 _ (init_sim text.toList height sys)
    (init_inv text.toList height sys) hm
  obtain ⟨ls2, hl2, hend, _⟩ := textLinesLoop_total getGlyph text.toList height maxLineWidth
    (walkFuel text.toList.length) (TextLinesState.init text.toList height sys)
    (init_inv text.toList height sys) (walkRank_init _)
  rw [hl] at hl2
  simp only [Option.some.injEq] at hl2
  subst hl2
  have hb := hinv.2.2 hpos
  have hne2 : ls1.i ≠ ls1.lineBegin := by omega
  unfold measureLayout textLinesLayout
  simp only [hm, hl, hne2, ne_eq, not_false_eq_true, if_true,
    makeLine_eq _ _ _ _ _ (Nat.le_of_lt hb)]
  rw [hsim.sys]
  refine ⟨_, _, _, rfl, rfl, ?_, ?_⟩
  · simp [maxWidth_append, hsim.width, hsim.pos]
  · simp [hsim.pos, hsim.rows]

theorem measureLayout_isSome (getGlyph : σ → Char → Option Glyph × σ)
    (height maxLineWidth : Int) (text : String) (sys : σ) :
    ∃ r, measureLayout getGlyph height maxLineWidth text sys = some r := by
  obtain ⟨ms1, hm, _⟩ := measureLoop_total getGlyph text.toList height maxLineWidth
    (walkFuel text.toList.length) (MeasureState.init text.toList height sys)
    (init_inv text.toList height sys).1 (walkRank_init _)
  unfold measureLayout
  simp only [hm]
  exact ⟨_, rfl⟩

theorem textLinesLayout_isSome (getGlyph : σ → Char → Option Glyph × σ)
    (height maxLineWidth : Int) (text : String) (sys : σ) :
    ∃ r, textLinesLayout getGlyph height maxLineWidth text sys = some r := by
  obtain ⟨ls1, hl, hend, hinv⟩ := textLinesLoop_total getGlyph text.toList height maxLineWidth
    (walkFuel text.toList.length) (TextLinesState.init text.toList height sys)
    (init_inv text.toList height sys) (walkRank_init _)
  unfold textLinesLayout
  have hb : ls1.lineBegin ≤ text.toList.length := by have := hinv.2.1; omega
  simp only [hl, makeLine_eq _ _ _ _ _ hb]
  split_ifs <;> exact ⟨_, rfl⟩

theorem linesReach_one {getGlyph : σ → Char → Option Glyph × σ} {utf32 : List Char}
    {height maxLineWidth : Int} {s s1 : TextLinesState σ} {c : Char}
    (hc : utf32[s.i]? = some c)
    (hs : textLinesStep getGlyph utf32 height maxLineWidth c s = some s1) :
    LinesReach getGlyph utf32 height maxLineWidth s s1 :=
  LinesReach.step hc hs (LinesReach.refl s1)

theorem textLinesStep_newline (getGlyph : σ → Char → Option Glyph × σ) (utf32 : List Char)
    (height maxLineWidth : Int) (c : Char) (s : TextLinesState σ)
    (hn : isNewline c = true) (hb : s.lineBegin ≤ utf32.length) :
    ∃ s1, textLinesStep getGlyph utf32 height maxLineWidth c s = some s1 ∧
      s1.i = s.i + 1 ∧ s1.sys = (getGlyph s.sys c).2 ∧ s1.rsbDeltaPrev = 0 ∧
      s1.pos = ⟨0, s.pos.y + height⟩ ∧
      s1.lines = s.lines ++ [⟨String.mk ((utf32.drop s.lineBegin).take
        (toSizeT ((s.i : Int) - (s.lineBegin : Int)))), ⟨s.pos.x, height⟩⟩] ∧
      s1.lineBegin = s.i ∧ s1.textLine = s.textLine ∧ s1.textLineX = s.textLineX := by
  unfold textLinesStep
  simp only [makeLine_eq _ _ _ _ _ hb, hn, if_true]
  exact ⟨_, rfl, rfl, rfl, rfl, rfl, rfl, rfl, rfl, rfl⟩

theorem textLinesStep_advance (getGlyph : σ → Char → Option Glyph × σ) (utf32 : List Char)
    (height maxLineWidth : Int) (c : Char) (s : TextLinesState σ)
    (hn : isNewline c = false)
    (hno : ¬ (s.pos.x > 0 ∧
      s.pos.x + (if !isSpace c then (glyphAdvance (getGlyph s.sys c).1 s.rsbDeltaPrev).1 else 0)
        ≥ maxLineWidth)) :
    ∃ s1, textLinesStep getGlyph utf32 height maxLineWidth c s = some s1 ∧
      s1.i = s.i + 1 ∧ s1.sys = (getGlyph s.sys c).2 ∧
      s1.rsbDeltaPrev = (glyphAdvance (getGlyph s.sys c).1 s.rsbDeltaPrev).2 ∧
      s1.pos = ⟨s.pos.x + (glyphAdvance (getGlyph s.sys c).1 s.rsbDeltaPrev).1, s.pos.y⟩ ∧
      s1.lines = s.lines ∧ s1.lineBegin = s.lineBegin ∧
      s1.textLine = (if isSpace c ∧ s.i ≠ 0 then s.i else s.textLine) ∧
      s1.textLineX = (if isSpace c ∧ s.i ≠ 0 then s.pos.x else s.textLineX) := by
  unfold textLinesStep
  simp only [hn, Bool.false_eq_true, if_false, if_neg hno]
  exact ⟨_, rfl, rfl, rfl, rfl, rfl, rfl, rfl, rfl, rfl⟩

theorem textLinesStep_softWrap (getGlyph : σ → Char → Option Glyph × σ) (utf32 : List Char)
    (height maxLineWidth : Int) (c : Char) (s : TextLinesState σ)
    (hn : isNewline c = false)
    (hov : s.pos.x > 0 ∧
      s.pos.x + (if !isSpace c then (glyphAdvance (getGlyph s.sys c).1 s.rsbDeltaPrev).1 else 0)
        ≥ maxLineWidth)
    (ht : s.textLine ≠ utf32.length) (hb : s.lineBegin ≤ utf32.length) :
    ∃ s1, textLinesStep getGlyph utf32 height maxLineWidth c s = some s1 ∧
      s1.i = s.textLine + 1 ∧ s1.sys = (getGlyph s.sys c).2 ∧ s1.rsbDeltaPrev = 0 ∧
      s1.pos = ⟨0, s.pos.y + height⟩ ∧
      s1.lines = s.lines ++ [⟨String.mk ((utf32.drop s.lineBegin).take
        (toSizeT ((s.textLine : Int) - (s.lineBegin : Int)))), ⟨s.textLineX, height⟩⟩] ∧
      s1.lineBegin = s.textLine + 1 ∧ s1.textLine = utf32.length ∧
      s1.textLineX = s.textLineX := by
  unfold textLinesStep
  simp only [makeLine_eq _ _ _ _ _ hb, hn, Bool.false_eq_true, if_false, if_pos hov, if_pos ht]
  exact ⟨_, rfl, rfl, rfl, rfl, rfl, rfl, rfl, rfl, rfl⟩

theorem textLinesStep_hardBreak (getGlyph : σ → Char → Option Glyph × σ) (utf32 : List Char)
    (height maxLineWidth : Int) (c : Char) (s : TextLinesState σ)
    (hn : isNewline c = false)
    (hov : s.pos.x > 0 ∧
      s.pos.x + (if !isSpace c then (glyphAdvance (getGlyph s.sys c).1 s.rsbDeltaPrev).1 else 0)
        ≥ maxLineWidth)
    (ht : s.textLine = utf32.length) (hb : s.lineBegin ≤ utf32.length) :
    ∃ s1, textLinesStep getGlyph utf32 height maxLineWidth c s = some s1 ∧
      s1.i = s.i + 1 ∧ s1.sys = (getGlyph s.sys c).2 ∧ s1.rsbDeltaPrev = 0 ∧
      s1.pos = ⟨(glyphAdvance (getGlyph s.sys c).1 s.rsbDeltaPrev).1, s.pos.y + height⟩ ∧
      s1.lines = s.lines ++ [⟨String.mk ((utf32.drop s.lineBegin).take
        (toSizeT ((s.i : Int) - (s.lineBegin : Int)))), ⟨s.pos.x, height⟩⟩] ∧
      s1.lineBegin = s.i ∧ s1.textLine = s.textLine ∧ s1.textLineX = s.textLineX := by
  unfold textLinesStep
  simp only [makeLine_eq _ _ _ _ _ hb, hn, Bool.false_eq_true, if_false, if_pos hov,
    if_neg (not_not.mpr ht)]
  exact ⟨_, rfl, rfl, rfl, rfl, rfl, rfl, rfl, rfl, rfl⟩

theorem toSizeT_sub {a b : Nat} (h : a ≤ b) (hb : b < 2 ^ 64) :
    toSizeT ((b : Int) - (a : Int)) = b - a := by
  unfold toSizeT
  have h1 : ((b : Int) - (a : Int)) = ((b - a : Nat) : Int) := by omega
  rw [h1]
  have h2 : ((b - a : Nat) : Int) % 2 ^ 64 = ((b - a : Nat) : Int) := by
    apply Int.emod_eq_of_lt <;> omega
  rw [h2]
  simp

theorem glyphAdvance_some (g : Glyph) (rsb : Int) :
    glyphAdvance (some g) rsb = (g.advance + kerningCorrection rsb g, g.rsbDelta) := by
  unfold glyphAdvance kerningCorrection
  simp only []
  split_ifs <;> simp [sub_eq_add_neg]

theorem glyphAdvance_none (rsb : Int) : glyphAdvance none rsb = (0, 0) := rfl

theorem penRun_sum (getGlyph : σ → Char → Option Glyph × σ) :
    ∀ (cs : List Char) (sys : σ) (rsb x : Int), (∀ c ∈ cs, isNewline c = false) →
      (penRun getGlyph sys rsb x cs).2.2 =
        x + (advances (lookups getGlyph sys cs)).sum +
          (corrections rsb (lookups getGlyph sys cs)).sum ∧
      (penRun getGlyph sys rsb x cs).1 = lookupsState getGlyph sys cs := by
  intro cs
  induction cs with
  | nil => intro sys rsb x _; simp [penRun, lookups, advances, corrections, lookupsState]
  | cons c cs ih =>
    intro sys rsb x hall
    have hn := hall c (List.mem_cons_self _ _)
    have ih1 := fun r y => ih (getGlyph sys c).2 r y
      (fun d hd => hall d (List.mem_cons_of_mem _ hd))
    unfold penRun lookups lookupsState
    simp only [hn, Bool.false_eq_true, if_false]
    cases hg : (getGlyph sys c).1 with
    | none =>
      simp only [glyphAdvance_none, advances, corrections, List.filterMap_cons, Option.map_none']
      have := ih1 0 (x + 0)
      simp only [advances] at this
      refine ⟨by rw [this.1]; ring, this.2⟩
    | some g =>
      simp only [glyphAdvance_some, advances, corrections, List.filterMap_cons,
        Option.map_some', List.sum_cons]
      have := ih1 g.rsbDelta (x + (g.advance + kerningCorrection rsb g))
      simp only [advances] at this
      refine ⟨by rw [this.1]; ring, this.2⟩

theorem corrections_bound :
    ∀ (gs : List (Option Glyph)) (rsb : Int),
      (∀ k ∈ corrections rsb gs, k = -pixel ∨ k = 0 ∨ k = pixel) ∧
      (corrections rsb gs).length = (advances gs).length := by
  intro gs
  induction gs with
  | nil => intro rsb; simp [corrections, advances]
  | cons g gs ih =>
    intro rsb
    cases g with
    | none =>
      simp only [corrections, advances, List.filterMap_cons, Option.map_none']
      exact ih 0
    | some g =>
      simp only [corrections, advances, List.filterMap_cons, Option.map_some',
        List.length_cons, List.mem_cons]
      obtain ⟨h1, h2⟩ := ih g.rsbDelta
      refine ⟨?_, by simpa [advances] using h2⟩
      intro k hk
      rcases hk with hk | hk
      · rw [hk]; unfold kerningCorrection; split_ifs <;> simp
      · exact h1 k hk

theorem abs_sum_le (l : List Int) (p : Int) (h : ∀ k ∈ l, k = -p ∨ k = 0 ∨ k = p)
    (hp : 0 ≤ p) : |l.sum| ≤ p * l.length := by
  induction l with
  | nil => simp
  | cons a rest ih =>
    have h1 := ih (fun k hk => h k (List.mem_cons_of_mem _ hk))
    have h2 := h a (List.mem_cons_self _ _)
    simp only [List.sum_cons, List.length_cons, Nat.cast_add, Nat.cast_one]
    have h3 : |a| ≤ p := by
      rcases h2 with h2 | h2 | h2 <;> rw [h2] <;> simp [abs_of_nonneg hp, hp]
    calc |a + rest.sum| ≤ |a| + |rest.sum| := abs_add _ _
      _ ≤ p + p * rest.length := add_le_add h3 h1
      _ = p * (rest.length + 1) := by ring

theorem measureLayout_empty (getGlyph : σ → Char → Option Glyph × σ)
    (height maxLineWidth : Int) (sys : σ) :
    measureLayout getGlyph height maxLineWidth "" sys = some (⟨0, height⟩, sys) := by
  unfold measureLayout
  have : ("" : String).toList = [] := rfl
  simp only [this]
  unfold measureLoop
  simp [MeasureState.init]

theorem textLinesLoop_invariant (getGlyph : σ → Char → Option Glyph × σ) (utf32 : List Char)
    (height maxLineWidth : Int) (P : TextLinesState σ → Prop)
    (hstep : ∀ s c s1, P s → utf32[s.i]? = some c →
      textLinesStep getGlyph utf32 height maxLineWidth c s = some s1 → P s1) :
    ∀ (fuel : Nat) (s sf : TextLinesState σ), P s →
      textLinesLoop getGlyph utf32 height maxLineWidth fuel s = some sf → P sf := by
  intro fuel
  induction fuel with
  | zero =>
    intro s sf hp h
    unfold textLinesLoop at h
    cases hc : utf32[s.i]? with
    | none => simp only [hc, Option.some.injEq] at h; rw [← h]; exact hp
    | some c => simp [hc] at h
  | succ fuel ih =>
    intro s sf hp h
    unfold textLinesLoop at h
    cases hc : utf32[s.i]? with
    | none => simp only [hc, Option.some.injEq] at h; rw [← h]; exact hp
    | some c =>
      simp only [hc] at h
      cases hs : textLinesStep getGlyph utf32 height maxLineWidth c s with
      | none => simp [hs] at h
      | some s1 =>
        simp only [hs] at h
        exact ih s1 sf (hstep s c s1 hp hc hs) h

theorem collectGlyphs_eq (getGlyph : σ → Char → Option Glyph × σ) :
    ∀ (cs : List Char) (glyphs : List Glyph) (sys : σ),
      collectGlyphs getGlyph cs (glyphs, sys) =
        (glyphs ++ (lookups getGlyph sys cs).filterMap id, lookupsState getGlyph sys cs) := by
  intro cs
  induction cs with
  | nil => intro glyphs sys; simp [collectGlyphs, lookups, lookupsState]
  | cons c rest ih =>
    intro glyphs sys
    unfold collectGlyphs
    rcases h : getGlyph sys c with ⟨g, sys1⟩
    cases g with
    | none => simp [ih, lookups, lookupsState, h]
    | some glyph => simp [ih, lookups, lookupsState, h]

theorem lookups_length (getGlyph : σ → Char → Option Glyph × σ) :
    ∀ (cs : List Char) (sys : σ), (lookups getGlyph sys cs).length = cs.length := by
  intro cs
  induction cs with
  | nil => intro sys; rfl
  | cons c rest ih => intro sys; simp [lookups, ih]

theorem filterMap_id_sublist (l : List (Option Glyph)) :
    ((l.filterMap id).map some).Sublist l := by
  induction l with
  | nil => simp
  | cons a rest ih =>
    cases a with
    | none => simpa using ih.cons none
    | some g => simpa using ih.cons₂ (some g)

theorem lookup_mapSet_self {κ ν : Type} [DecidableEq κ] [BEq κ] [LawfulBEq κ]
    (m : List (κ × ν)) (k : κ) (v : ν) : (mapSet m k v).lookup k = some v := by
  induction m with
  | nil => simp [mapSet, List.lookup]
  | cons e rest ih =>
    rcases e with ⟨k0, v0⟩
    unfold mapSet
    by_cases h : k0 = k
    · simp [h, List.lookup]
    · have hb : (k == k0) = false := by
        simp only [beq_eq_false_iff_ne, ne_eq]
        exact fun e => h e.symm
      simp [h, List.lookup, hb, ih]

theorem lookup_mapSet_ne {κ ν : Type} [DecidableEq κ] [BEq κ] [LawfulBEq κ]
    (m : List (κ × ν)) (k k1 : κ) (v : ν) (hne : k1 ≠ k) :
    (mapSet m k v).lookup k1 = m.lookup k1 := by
  induction m with
  | nil =>
    have hb : (k1 == k) = false := by simpa using hne
    simp [mapSet, List.lookup, hb]
  | cons e rest ih =>
    rcases e with ⟨k0, v0⟩
    unfold mapSet
    by_cases h : k0 = k
    · subst h
      have hb : (k1 == k0) = false := by simpa using hne
      simp [List.lookup, hb]
    · simp only [h, if_false, List.lookup]
      cases k1 == k0 <;> simp [ih]

theorem mapSet_of_lookup_none {κ ν : Type} [DecidableEq κ] [BEq κ] [LawfulBEq κ]
    (m : List (κ × ν)) (k : κ) (v : ν) (h : m.lookup k = none) :
    mapSet m k v = m ++ [(k, v)] := by
  induction m with
  | nil => rfl
  | cons e rest ih =>
    rcases e with ⟨k0, v0⟩
    unfold mapSet
    by_cases hk : k0 = k
    · subst hk
      simp [List.lookup] at h
    · have hb : (k == k0) = false := by
        simp only [beq_eq_false_iff_ne, ne_eq]
        exact fun e => hk e.symm
      simp only [List.lookup, hb] at h
      simp [hk, ih h]

theorem getGlyph_eq (p : Private) (info : GlyphInfo) :
    getGlyph p info =
      match p.glyphCache.lookup info.uid with
      | some out => (some out, p)
      | none =>
        match renderGlyph p.fontFaces info with
        | none => (none, p)
        | some out => (some out, { p with glyphCache := mapSet p.glyphCache info.uid out }) := by
  unfold getGlyph renderGlyph
  cases p.glyphCache.lookup info.uid with
  | some out => rfl
  | none =>
    simp only []
    cases p.fontFaces.lookup info.info.family with
    | none => rfl
    | some family =>
      simp only []
      cases family.lookup info.info.face with
      | none => rfl
      | some font =>
        simp only []
        split_ifs
        · rfl
        · cases font.renderGlyph (staticCastInt info.info.size) (font.getCharIndex info.code) <;> rfl
        · rfl

theorem getGlyph_fontFaces (p : Private) (info : GlyphInfo) :
    (getGlyph p info).2.fontFaces = p.fontFaces := by
  rw [getGlyph_eq]
  cases p.glyphCache.lookup info.uid with
  | some out => rfl
  | none =>
    simp only []
    cases renderGlyph p.fontFaces info <;> rfl

theorem getGlyph_cases (p : Private) (info : GlyphInfo) :
    ((getGlyph p info).2 = p ∧
        ((getGlyph p info).1 = p.glyphCache.lookup info.uid ∨
          (p.glyphCache.lookup info.uid = none ∧ renderGlyph p.fontFaces info = none ∧
            (getGlyph p info).1 = none))) ∨
      ∃ g, (getGlyph p info).1 = some g ∧ p.glyphCache.lookup info.uid = none ∧
        renderGlyph p.fontFaces info = some g ∧
        (getGlyph p info).2 = { p with glyphCache := p.glyphCache ++ [(info.uid, g)] } := by
  rw [getGlyph_eq]
  cases hc : p.glyphCache.lookup info.uid with
  | some out => exact Or.inl ⟨rfl, Or.inl rfl⟩
  | none =>
    cases hr : renderGlyph p.fontFaces info with
    | none => exact Or.inl (by simp)
    | some out =>
      refine Or.inr ⟨out, ?_⟩
      simp [mapSet_of_lookup_none _ _ _ hc]

theorem lookup_append_of_some {κ ν : Type} [BEq κ] (m m1 : List (κ × ν)) (k : κ) (v : ν)
    (h : m.lookup k = some v) : (m ++ m1).lookup k = some v := by
  induction m with
  | nil => simp [List.lookup] at h
  | cons e rest ih =>
    rcases e with ⟨k0, v0⟩
    simp only [List.cons_append, List.lookup] at h ⊢
    cases hb : k == k0 with
    | true => simpa [hb] using h
    | false => simp only [hb] at h ⊢; exact ih h

theorem getGlyph_cache_grows (p : Private) (info : GlyphInfo) :
    (∀ uid g, p.glyphCache.lookup uid = some g →
      (getGlyph p info).2.glyphCache.lookup uid = some g) ∧
    (∀ e ∈ p.glyphCache, e ∈ (getGlyph p info).2.glyphCache) ∧
    p.glyphCache.length ≤ (getGlyph p info).2.glyphCache.length := by
  rcases getGlyph_cases p info with ⟨h, _⟩ | ⟨g, _, _, _, h⟩
  · rw [h]; exact ⟨fun _ _ h => h, fun _ h => h, le_refl _⟩
  · rw [h]
    refine ⟨fun uid g1 h1 => lookup_append_of_some _ _ _ _ h1, fun e he => ?_, ?_⟩
    · exact List.mem_append_left _ he
    · simp

theorem glyphInfo_ctor_eq (H : HashCombine) (r : UIDRegistry) (code : Nat) (info : Info) :
    GlyphInfo.GlyphInfo H r code info =
      match r.map.lookup (glyphHash H code info) with
      | some uid => (⟨code, info, uid⟩, r)
      | none => (⟨code, info, r.next⟩,
          { map := mapSet r.map (glyphHash H code info) r.next, next := r.next + 1 }) := by
  unfold GlyphInfo.GlyphInfo glyphHash createUID
  simp only []

theorem renderGlyph_none_uid (fontFaces : List (String × List (String × FT_Face)))
    (code : Nat) (info : Info) (uid uid1 : UID)
    (h : renderGlyph fontFaces ⟨code, info, uid⟩ = none) :
    renderGlyph fontFaces ⟨code, info, uid1⟩ = none := by
  unfold renderGlyph at h ⊢
  simp only [] at h ⊢
  cases hf : fontFaces.lookup info.family with
  | none => rfl
  | some family =>
    simp only [hf] at h ⊢
    cases hs : family.lookup info.face with
    | none => rfl
    | some font =>
      simp only [hs] at h ⊢
      split_ifs at h ⊢
      · rfl
      · cases hr : font.renderGlyph (staticCastInt info.size) (font.getCharIndex code) with
        | none => rfl
        | some slot => simp [hr] at h
      · rfl

theorem lookupGlyph_cached (H : HashCombine) (w : World) (info : Info) (c : Char) (g : Glyph)
    (h : Cached H w info c g) : lookupGlyph H info w c = (some g, w) := by
  obtain ⟨uid, h1, h2⟩ := h
  unfold lookupGlyph
  rw [glyphInfo_ctor_eq]
  simp only [h1]
  rw [getGlyph_eq]
  simp only [h2]

theorem lookupGlyph_settled (H : HashCombine) (w : World) (info : Info) (c : Char)
    (h : Settled H w info c) : (lookupGlyph H info w c).2 = w := by
  obtain ⟨uid, h1, h2⟩ := h
  unfold lookupGlyph
  rw [glyphInfo_ctor_eq]
  simp only [h1]
  rw [getGlyph_eq]
  rcases h2 with ⟨g, h2⟩ | h2
  · simp only [h2]
  · cases hc : w.p.glyphCache.lookup uid with
    | some out => rfl
    | none => simp only [h2]

theorem lookupGlyph_fontFaces (H : HashCombine) (w : World) (info : Info) (c : Char) :
    (lookupGlyph H info w c).2.p.fontFaces = w.p.fontFaces := by
  unfold lookupGlyph
  exact getGlyph_fontFaces _ _

theorem lookupGlyph_registry (H : HashCombine) (w : World) (info : Info) (c : Char)
    (k : Nat) (uid : UID) (h : w.uids.map.lookup k = some uid) :
    (lookupGlyph H info w c).2.uids.map.lookup k = some uid := by
  unfold lookupGlyph
  rw [glyphInfo_ctor_eq]
  cases hl : w.uids.map.lookup (glyphHash H c.toNat info) with
  | some u => exact h
  | none =>
    simp only []
    rw [lookup_mapSet_ne]
    · exact h
    · intro e
      rw [e, hl] at h
      exact absurd h (by simp)

theorem lookupGlyph_cache (H : HashCombine) (w : World) (info : Info) (c : Char)
    (uid : UID) (g : Glyph) (h : w.p.glyphCache.lookup uid = some g) :
    (lookupGlyph H info w c).2.p.glyphCache.lookup uid = some g := by
  unfold lookupGlyph
  exact (getGlyph_cache_grows _ _).1 uid g h

theorem lookupGlyph_cache_length (H : HashCombine) (w : World) (info : Info) (c : Char) :
    w.p.glyphCache.length ≤ (lookupGlyph H info w c).2.p.glyphCache.length := by
  unfold lookupGlyph
  exact (getGlyph_cache_grows _ _).2.2

theorem cached_preserved (H : HashCombine) (w : World) (info info1 : Info) (c c1 : Char)
    (g : Glyph) (h : Cached H w info c g) : Cached H (lookupGlyph H info1 w c1).2 info c g := by
  obtain ⟨uid, h1, h2⟩ := h
  exact ⟨uid, lookupGlyph_registry H w info1 c1 _ uid h1, lookupGlyph_cache H w info1 c1 uid g h2⟩

theorem settled_preserved (H : HashCombine) (w : World) (info info1 : Info) (c c1 : Char)
    (h : Settled H w info c) : Settled H (lookupGlyph H info1 w c1).2 info c := by
  obtain ⟨uid, h1, h2⟩ := h
  refine ⟨uid, lookupGlyph_registry H w info1 c1 _ uid h1, ?_⟩
  rcases h2 with ⟨g, h2⟩ | h2
  · exact Or.inl ⟨g, lookupGlyph_cache H w info1 c1 uid g h2⟩
  · rw [lookupGlyph_fontFaces]
    exact Or.inr h2

theorem lookupGlyph_result (H : HashCombine) (w : World) (info : Info) (c : Char) :
    ∃ uid, (lookupGlyph H info w c).2.uids.map.lookup (glyphHash H c.toNat info) = some uid ∧
      ((∃ g, (lookupGlyph H info w c).1 = some g ∧
          (lookupGlyph H info w c).2.p.glyphCache.lookup uid = some g) ∨
        ((lookupGlyph H info w c).1 = none ∧
          renderGlyph w.p.fontFaces ⟨c.toNat, info, uid⟩ = none)) := by
  unfold lookupGlyph
  rw [glyphInfo_ctor_eq]
  cases hl : w.uids.map.lookup (glyphHash H c.toNat info) with
  | some u =>
    refine ⟨u, hl, ?_⟩
    simp only []
    rw [getGlyph_eq]
    cases hc : w.p.glyphCache.lookup u with
    | some out => exact Or.inl ⟨out, rfl, hc⟩
    | none =>
      simp only []
      cases hr : renderGlyph w.p.fontFaces ⟨c.toNat, info, u⟩ with
      | none => exact Or.inr ⟨rfl, rfl⟩
      | some out => exact Or.inl ⟨out, rfl, lookup_mapSet_self _ _ _⟩
  | none =>
    refine ⟨w.uids.next, lookup_mapSet_self _ _ _, ?_⟩
    simp only []
    rw [getGlyph_eq]
    cases hc : w.p.glyphCache.lookup w.uids.next with
    | some out => exact Or.inl ⟨out, rfl, hc⟩
    | none =>
      simp only []
      cases hr : renderGlyph w.p.fontFaces ⟨c.toNat, info, w.uids.next⟩ with
      | none => exact Or.inr ⟨rfl, rfl⟩
      | some out => exact Or.inl ⟨out, rfl, lookup_mapSet_self _ _ _⟩

theorem cached_after (H : HashCombine) (w : World) (info : Info) (c : Char) (g : Glyph)
    (h : (lookupGlyph H info w c).1 = some g) :
    Cached H (lookupGlyph H info w c).2 info c g := by
  obtain ⟨uid, h1, h2⟩ := lookupGlyph_result H w info c
  rcases h2 with ⟨g1, e, h2⟩ | ⟨e, _⟩
  · rw [h] at e
    cases e
    exact ⟨uid, h1, h2⟩
  · rw [h] at e
    exact absurd e (by simp)

theorem settled_after (H : HashCombine) (w : World) (info : Info) (c : Char) :
    Settled H (lookupGlyph H info w c).2 info c := by
  obtain ⟨uid, h1, h2⟩ := lookupGlyph_result H w info c
  refine ⟨uid, h1, ?_⟩
  rcases h2 with ⟨g1, _, h2⟩ | ⟨_, h2⟩
  · exact Or.inl ⟨g1, h2⟩
  · rw [lookupGlyph_fontFaces]
    exact Or.inr h2

theorem cached_runLookups (H : HashCombine) (info : Info) (c : Char) (g : Glyph) :
    ∀ (calls : List (Info × Char)) (w : World), Cached H w info c g →
      Cached H (runLookups H w calls) info c g := by
  intro calls
  induction calls with
  | nil => intro w h; exact h
  | cons x rest ih =>
    intro w h
    rcases x with ⟨info1, c1⟩
    exact ih _ (cached_preserved H w info info1 c c1 g h)

theorem settled_runLookups (H : HashCombine) (info : Info) (c : Char) :
    ∀ (calls : List (Info × Char)) (w : World), Settled H w info c →
      Settled H (runLookups H w calls) info c := by
  intro calls
  induction calls with
  | nil => intro w h; exact h
  | cons x rest ih =>
    intro w h
    rcases x with ⟨info1, c1⟩
    exact ih _ (settled_preserved H w info info1 c c1 h)

theorem settled_of_mem (H : HashCombine) :
    ∀ (calls : List (Info × Char)) (w : World) (x : Info × Char), x ∈ calls →
      Settled H (runLookups H w calls) x.1 x.2 := by
  intro calls
  induction calls with
  | nil => intro w x hx; simp at hx
  | cons y rest ih =>
    intro w x hx
    rcases y with ⟨info1, c1⟩
    rcases List.mem_cons.mp hx with h | h
    · subst h
      exact settled_runLookups H info1 c1 rest _ (settled_after H w info1 c1)
    · exact ih _ x h

theorem runLookups_length (H : HashCombine) :
    ∀ (calls : List (Info × Char)) (w : World),
      w.p.glyphCache.length ≤ (runLookups H w calls).p.glyphCache.length := by
  intro calls
  induction calls with
  | nil => intro w; exact le_refl _
  | cons y rest ih =>
    intro w
    rcases y with ⟨info1, c1⟩
    exact le_trans (lookupGlyph_cache_length H w info1 c1) (ih _)

theorem runLookups_settled (H : HashCombine) :
    ∀ (calls : List (Info × Char)) (w : World),
      (∀ x ∈ calls, Settled H w x.1 x.2) → runLookups H w calls = w := by
  intro calls
  induction calls with
  | nil => intro w _; rfl
  | cons y rest ih =>
    intro w h
    rcases y with ⟨info1, c1⟩
    have h1 := lookupGlyph_settled H w info1 c1 (h _ (List.mem_cons_self _ _))
    unfold runLookups
    rw [h1]
    exact ih w (fun x hx => h x (List.mem_cons_of_mem _ hx))

theorem measureStep_sys (getGlyph : σ → Char → Option Glyph × σ) (utf32 : List Char)
    (height maxLineWidth : Int) (c : Char) (s : MeasureState σ) :
    (measureStep getGlyph utf32 height maxLineWidth c s).sys = (getGlyph s.sys c).2 := by
  unfold measureStep
  simp only []
  split_ifs <;> rfl

theorem textLinesStep_sys (getGlyph : σ → Char → Option Glyph × σ) (utf32 : List Char)
    (height maxLineWidth : Int) (c : Char) (s s1 : TextLinesState σ)
    (h : textLinesStep getGlyph utf32 height maxLineWidth c s = some s1) :
    s1.sys = (getGlyph s.sys c).2 := by
  unfold textLinesStep at h
  simp only [] at h
  split_ifs at h
  all_goals first
    | (split at h
       · exact absurd h (by simp)
       · simp only [Option.some.injEq] at h; subst h; rfl)
    | (simp only [Option.some.injEq] at h; subst h; rfl)

theorem measureLoop_rel (getGlyph : σ → Char → Option Glyph × σ) (utf32 : List Char)
    (height maxLineWidth : Int) (R : σ → σ → Prop) (hrefl : ∀ s, R s s)
    (htrans : ∀ a b c, R a b → R b c → R a c) (hstep : ∀ s c, R s (getGlyph s c).2) :
    ∀ (fuel : Nat) (s s1 : MeasureState σ),
      measureLoop getGlyph utf32 height maxLineWidth fuel s = some s1 → R s.sys s1.sys := by
  intro fuel
  induction fuel with
  | zero =>
    intro s s1 h
    unfold measureLoop at h
    cases hc : utf32[s.i]? with
    | none => simp only [hc, Option.some.injEq] at h; rw [← h]; exact hrefl _
    | some c => simp [hc] at h
  | succ fuel ih =>
    intro s s1 h
    unfold measureLoop at h
    cases hc : utf32[s.i]? with
    | none => simp only [hc, Option.some.injEq] at h; rw [← h]; exact hrefl _
    | some c =>
      simp only [hc] at h
      have := ih _ _ h
      rw [measureStep_sys] at this
      exact htrans _ _ _ (hstep s.sys c) this

theorem textLinesLoop_rel (getGlyph : σ → Char → Option Glyph × σ) (utf32 : List Char)
    (height maxLineWidth : Int) (R : σ → σ → Prop) (hrefl : ∀ s, R s s)
    (htrans : ∀ a b c, R a b → R b c → R a c) (hstep : ∀ s c, R s (getGlyph s c).2) :
    ∀ (fuel : Nat) (s s1 : TextLinesState σ),
      textLinesLoop getGlyph utf32 height maxLineWidth fuel s = some s1 → R s.sys s1.sys := by
  intro fuel
  induction fuel with
  | zero =>
    intro s s1 h
    unfold textLinesLoop at h
    cases hc : utf32[s.i]? with
    | none => simp only [hc, Option.some.injEq] at h; rw [← h]; exact hrefl _
    | some c => simp [hc] at h
  | succ fuel ih =>
    intro s s1 h
    unfold textLinesLoop at h
    cases hc : utf32[s.i]? with
    | none => simp only [hc, Option.some.injEq] at h; rw [← h]; exact hrefl _
    | some c =>
      simp only [hc] at h
      cases hs : textLinesStep getGlyph utf32 height maxLineWidth c s with
      | none => simp [hs] at h
      | some s2 =>
        simp only [hs] at h
        have := ih _ _ h
        rw [textLinesStep_sys getGlyph utf32 height maxLineWidth c s s2 hs] at this
        exact htrans _ _ _ (hstep s.sys c) this

theorem measureLayout_rel (getGlyph : σ → Char → Option Glyph × σ)
    (height maxLineWidth : Int) (R : σ → σ → Prop) (hrefl : ∀ s, R s s)
    (htrans : ∀ a b c, R a b → R b c → R a c) (hstep : ∀ s c, R s (getGlyph s c).2)
    (text : String) (sys : σ) :
    ∃ v sys1, measureLayout getGlyph height maxLineWidth text sys = some (v, sys1) ∧
      R sys sys1 := by
  obtain ⟨ms1, hm, _⟩ := measureLoop_total getGlyph text.toList height maxLineWidth
    (walkFuel text.toList.length) (MeasureState.init text.toList height sys)
    (init_inv text.toList height sys).1 (walkRank_init _)
  have hr := measureLoop_rel getGlyph text.toList height maxLineWidth R hrefl htrans hstep
    _ _ _ hm
  unfold measureLayout
  simp only [hm]
  exact ⟨_, _, rfl, hr⟩

theorem textLinesLayout_rel (getGlyph : σ → Char → Option Glyph × σ)
    (height maxLineWidth : Int) (R : σ → σ → Prop) (hrefl : ∀ s, R s s)
    (htrans : ∀ a b c, R a b → R b c → R a c) (hstep : ∀ s c, R s (getGlyph s c).2)
    (text : String) (sys : σ) :
    ∃ v sys1, textLinesLayout getGlyph height maxLineWidth text sys = some (v, sys1) ∧
      R sys sys1 := by
  obtain ⟨ls1, hl, _, hinv⟩ := textLinesLoop_total getGlyph text.toList height maxLineWidth
    (walkFuel text.toList.length) (TextLinesState.init text.toList height sys)
    (init_inv text.toList height sys) (walkRank_init _)
  have hr := textLinesLoop_rel getGlyph text.toList height maxLineWidth R hrefl htrans hstep
    _ _ _ hl
  have hb : ls1.lineBegin ≤ text.toList.length := by have := hinv.2.1; have := hinv.1.1; omega
  unfold textLinesLayout
  simp only [hl, makeLine_eq _ _ _ _ _ hb]
  split_ifs
  · exact ⟨_, _, rfl, hr⟩
  · exact ⟨_, _, rfl, hr⟩

theorem lookupsState_rel (getGlyph : σ → Char → Option Glyph × σ) (R : σ → σ → Prop)
    (hrefl : ∀ s, R s s) (htrans : ∀ a b c, R a b → R b c → R a c)
    (hstep : ∀ s c, R s (getGlyph s c).2) :
    ∀ (cs : List Char) (sys : σ), R sys (lookupsState getGlyph sys cs) := by
  intro cs
  induction cs with
  | nil => intro sys; exact hrefl _
  | cons c cs ih => intro sys; exact htrans _ _ _ (hstep sys c) (ih _)

theorem sameSystem_refl (w : World) : SameSystem w w := ⟨w.p.glyphCache, w.uids, rfl⟩

theorem sameSystem_trans (a b c : World) (h1 : SameSystem a b) (h2 : SameSystem b c) :
    SameSystem a c := by
  obtain ⟨c1, u1, e1⟩ := h1
  obtain ⟨c2, u2, e2⟩ := h2
  exact ⟨c2, u2, by rw [e2, e1]⟩

theorem lookupGlyph_sameSystem (H : HashCombine) (info : Info) (w : World) (c : Char) :
    SameSystem w (lookupGlyph H info w c).2 := by
  unfold lookupGlyph
  rcases getGlyph_cases w.p (GlyphInfo.GlyphInfo H w.uids c.toNat info).1 with
    ⟨h, _⟩ | ⟨g, _, _, _, h⟩
  · exact ⟨w.p.glyphCache, (GlyphInfo.GlyphInfo H w.uids c.toNat info).2, by simp only [h]⟩
  · exact ⟨w.p.glyphCache ++ [((GlyphInfo.GlyphInfo H w.uids c.toNat info).1.uid, g)],
      (GlyphInfo.GlyphInfo H w.uids c.toNat info).2, by simp only [h]⟩

theorem measure_spec (H : HashCombine) (w : World) (request : MeasureRequest) :
    ∃ v w1, measure H w request = some (v, w1) ∧ SameSystem w w1 := by
  unfold measure
  cases w.p.fontFaces.lookup request.info.family with
  | none => exact ⟨_, _, rfl, sameSystem_refl w⟩
  | some family =>
    simp only []
    cases family.lookup request.info.face with
    | none => exact ⟨_, _, rfl, sameSystem_refl w⟩
    | some font =>
      simp only []
      split_ifs
      · exact measureLayout_rel _ _ _ SameSystem sameSystem_refl sameSystem_trans
          (fun s c => lookupGlyph_sameSystem H request.info s c) _ _
      · exact ⟨_, _, rfl, sameSystem_refl w⟩

theorem textLines_spec (H : HashCombine) (w : World) (request : TextLinesRequest) :
    ∃ v w1, textLines H w request = some (v, w1) ∧ SameSystem w w1 := by
  unfold textLines
  cases w.p.fontFaces.lookup request.info.family with
  | none => exact ⟨_, _, rfl, sameSystem_refl w⟩
  | some family =>
    simp only []
    cases family.lookup request.info.face with
    | none => exact ⟨_, _, rfl, sameSystem_refl w⟩
    | some font =>
      simp only []
      split_ifs
      · exact textLinesLayout_rel _ _ _ SameSystem sameSystem_refl sameSystem_trans
          (fun s c => lookupGlyph_sameSystem H request.info s c) _ _
      · exact ⟨_, _, rfl, sameSystem_refl w⟩

theorem getGlyphs_spec (H : HashCombine) (w : World) (request : GlyphsRequest) :
    SameSystem w (getGlyphs H w request).2 := by
  unfold getGlyphs
  cases w.p.fontFaces.lookup request.info.family with
  | none => exact sameSystem_refl w
  | some family =>
    simp only []
    cases family.lookup request.info.face with
    | none => exact sameSystem_refl w
    | some font =>
      simp only [collectGlyphs_eq]
      exact lookupsState_rel _ SameSystem sameSystem_refl sameSystem_trans
        (fun s c => lookupGlyph_sameSystem H request.info s c) _ _

theorem getMetrics_futures (w : World) (f : Futures) (request : MetricsRequest) :
    getMetrics { w with futures := f } request = getMetrics w request := rfl

theorem metricsFold_spec :
    ∀ (reqs : List MetricsRequest) (w : World),
      reqs.foldl (fun (w : World) request =>
        { w with futures := { w.futures with
            metrics := w.futures.metrics ++ [(request.promise, getMetrics w request)] } }) w =
      { w with futures := { w.futures with
          metrics := w.futures.metrics ++
            reqs.map (fun request => (request.promise, getMetrics w request)) } } := by
  intro reqs
  induction reqs with
  | nil => intro w; simp
  | cons r rest ih =>
    intro w
    simp only [List.foldl_cons, ih, List.map_cons, getMetrics_futures, List.append_assoc,
      List.singleton_append]

theorem handleMetrics_spec (w : World) :
    _handleMetricsRequests w =
      { w with
        p := { w.p with metricsRequests := [] }
        futures := { w.futures with
          metrics := w.futures.metrics ++
            w.p.metricsRequests.map (fun request => (request.promise, getMetrics w request)) } } := by
  unfold _handleMetricsRequests
  simp only [metricsFold_spec]

theorem measureFold_spec (H : HashCombine) :
    ∀ (reqs : List MeasureRequest) (w : World),
      ∃ (w1 : World) (values : List (Nat × vec2)) (glyphCache : List (UID × Glyph))
        (uids : UIDRegistry),
        reqs.foldlM (fun (w : World) request =>
          match measure H w request with
          | none => none
          | some (size, w1) =>
            some { w1 with futures := { w1.futures with
              measure := w1.futures.measure ++ [(request.promise, size)] } }) w = some w1 ∧
        values.map Prod.fst = reqs.map (fun request => request.promise) ∧
        w1 = { p := { w.p with glyphCache := glyphCache }, uids := uids,
               futures := { w.futures with measure := w.futures.measure ++ values } } := by
  intro reqs
  induction reqs with
  | nil =>
    intro w
    exact ⟨w, [], w.p.glyphCache, w.uids, rfl, rfl, by simp⟩
  | cons r rest ih =>
    intro w
    obtain ⟨v, w1, hm, c1, u1, e1⟩ := measure_spec H w r
    obtain ⟨w2, values, c2, u2, hf, hv, e2⟩ := ih
      { w1 with futures := { w1.futures with
          measure := w1.futures.measure ++ [(r.promise, v)] } }
    refine ⟨w2, (r.promise, v) :: values, c2, u2, ?_, ?_, ?_⟩
    · simp only [List.foldlM_cons, hm]
      exact hf
    · simp [hv]
    · rw [e2, e1]
      simp

theorem handleMeasure_spec (H : HashCombine) (w : World) :
    ∃ (values : List (Nat × vec2)) (glyphCache : List (UID × Glyph)) (uids : UIDRegistry),
      values.map Prod.fst = w.p.measureRequests.map (fun request => request.promise) ∧
      _handleMeasureRequests H w = some
        { p := { w.p with measureRequests := [], glyphCache := glyphCache }, uids := uids,
          futures := { w.futures with measure := w.futures.measure ++ values } } := by
  obtain ⟨w1, values, c, u, hf, hv, e⟩ := measureFold_spec H w.p.measureRequests w
  refine ⟨values, c, u, hv, ?_⟩
  unfold _handleMeasureRequests
  exact (congrArg (fun o : Option World =>
    match o with
    | none => none
    | some w1 => some { w1 with p := { w1.p with measureRequests := [] } }) hf).trans
    (by rw [e])

theorem textLinesFold_spec (H : HashCombine) :
    ∀ (reqs : List TextLinesRequest) (w : World),
      ∃ (w1 : World) (values : List (Nat × List TextLine)) (glyphCache : List (UID × Glyph))
        (uids : UIDRegistry),
        reqs.foldlM (fun (w : World) request =>
          match textLines H w request with
          | none => none
          | some (lines, w1) =>
            some { w1 with futures := { w1.futures with
              textLines := w1.futures.textLines ++ [(request.promise, lines)] } }) w = some w1 ∧
        values.map Prod.fst = reqs.map (fun request => request.promise) ∧
        w1 = { p := { w.p with glyphCache := glyphCache }, uids := uids,
               futures := { w.futures with textLines := w.futures.textLines ++ values } } := by
  intro reqs
  induction reqs with
  | nil =>
    intro w
    exact ⟨w, [], w.p.glyphCache, w.uids, rfl, rfl, by simp⟩
  | cons r rest ih =>
    intro w
    obtain ⟨v, w1, hm, c1, u1, e1⟩ := textLines_spec H w r
    obtain ⟨w2, values, c2, u2, hf, hv, e2⟩ := ih
      { w1 with futures := { w1.futures with
          textLines := w1.futures.textLines ++ [(r.promise, v)] } }
    refine ⟨w2, (r.promise, v) :: values, c2, u2, ?_, ?_, ?_⟩
    · simp only [List.foldlM_cons, hm]
      exact hf
    · simp [hv]
    · rw [e2, e1]
      simp

theorem handleTextLines_spec (H : HashCombine) (w : World) :
    ∃ (values : List (Nat × List TextLine)) (glyphCache : List (UID × Glyph))
      (uids : UIDRegistry),
      values.map Prod.fst = w.p.textLinesRequests.map (fun request => request.promise) ∧
      _handleTextLinesRequests H w = some
        { p := { w.p with textLinesRequests := [], glyphCache := glyphCache }, uids := uids,
          futures := { w.futures with textLines := w.futures.textLines ++ values } } := by
  obtain ⟨w1, values, c, u, hf, hv, e⟩ := textLinesFold_spec H w.p.textLinesRequests w
  refine ⟨values, c, u, hv, ?_⟩
  unfold _handleTextLinesRequests
  exact (congrArg (fun o : Option World =>
    match o with
    | none => none
    | some w1 => some { w1 with p := { w1.p with textLinesRequests := [] } }) hf).trans
    (by rw [e])

theorem glyphsFold_spec (H : HashCombine) :
    ∀ (reqs : List GlyphsRequest) (w : World),
      ∃ (values : List (Nat × List Glyph)) (glyphCache : List (UID × Glyph))
        (uids : UIDRegistry),
        values.map Prod.fst = reqs.map (fun request => request.promise) ∧
        reqs.foldl (fun (w : World) request =>
          let r := getGlyphs H w request
          { r.2 with futures := { r.2.futures with
              glyphs := r.2.futures.glyphs ++ [(request.promise, r.1)] } }) w =
          { p := { w.p with glyphCache := glyphCache }, uids := uids,
            futures := { w.futures with glyphs := w.futures.glyphs ++ values } } := by
  intro reqs
  induction reqs with
  | nil =>
    intro w
    exact ⟨[], w.p.glyphCache, w.uids, rfl, by simp⟩
  | cons r rest ih =>
    intro w
    obtain ⟨c1, u1, e1⟩ := getGlyphs_spec H w r
    obtain ⟨values, c2, u2, hv, hf⟩ := ih
      { (getGlyphs H w r).2 with futures := { (getGlyphs H w r).2.futures with
          glyphs := (getGlyphs H w r).2.futures.glyphs ++ [(r.promise, (getGlyphs H w r).1)] } }
    refine ⟨(r.promise, (getGlyphs H w r).1) :: values, c2, u2, by simp [hv], ?_⟩
    simp only [List.foldl_cons]
    rw [hf, e1]
    simp

theorem handleGlyphs_spec (H : HashCombine) (w : World) :
    ∃ (values : List (Nat × List Glyph)) (glyphCache : List (UID × Glyph))
      (uids : UIDRegistry),
      values.map Prod.fst = w.p.glyphsRequests.map (fun request => request.promise) ∧
      _handleGlyphsRequests H w =
        { p := { w.p with glyphsRequests := [], glyphCache := glyphCache }, uids := uids,
          futures := { w.futures with glyphs := w.futures.glyphs ++ values } } := by
  obtain ⟨values, c, u, hv, hf⟩ := glyphsFold_spec H w.p.glyphsRequests w
  refine ⟨values, c, u, hv, ?_⟩
  unfold _handleGlyphsRequests
  simp only []
  rw [hf]

theorem handleMetrics_if (w : World) :
    (if w.p.metricsRequests.length ≠ 0 then _handleMetricsRequests w else w) =
      _handleMetricsRequests w := by
  split_ifs with h
  · rfl
  · have h0 : w.p.metricsRequests = [] := List.length_eq_zero.mp (not_not.mp h)
    rw [handleMetrics_spec, h0]
    rcases w with ⟨p, u, f⟩
    rcases p with ⟨⟩
    rcases f with ⟨⟩
    simp only [] at h0
    subst h0
    simp

theorem handleMeasure_if (H : HashCombine) (w : World) :
    (if w.p.measureRequests.length ≠ 0 then _handleMeasureRequests H w else some w) =
      _handleMeasureRequests H w := by
  split_ifs with h
  · rfl
  · have h0 : w.p.measureRequests = [] := List.length_eq_zero.mp (not_not.mp h)
    unfold _handleMeasureRequests
    rw [h0]
    rcases w with ⟨p, u, f⟩
    rcases p with ⟨⟩
    simp only [] at h0
    subst h0
    rfl

theorem handleTextLines_if (H : HashCombine) (w : World) :
    (if w.p.textLinesRequests.length ≠ 0 then _handleTextLinesRequests H w else some w) =
      _handleTextLinesRequests H w := by
  split_ifs with h
  · rfl
  · have h0 : w.p.textLinesRequests = [] := List.length_eq_zero.mp (not_not.mp h)
    unfold _handleTextLinesRequests
    rw [h0]
    rcases w with ⟨p, u, f⟩
    rcases p with ⟨⟩
    simp only [] at h0
    subst h0
    rfl

theorem handleGlyphs_if (H : HashCombine) (w : World) :
    (if w.p.glyphsRequests.length ≠ 0 then _handleGlyphsRequests H w else w) =
      _handleGlyphsRequests H w := by
  split_ifs with h
  · rfl
  · have h0 : w.p.glyphsRequests = [] := List.length_eq_zero.mp (not_not.mp h)
    unfold _handleGlyphsRequests
    rw [h0]
    rcases w with ⟨p, u, f⟩
    rcases p with ⟨⟩
    simp only [] at h0
    subst h0
    rfl

theorem workerIteration_eq (H : HashCombine) (w : World) :
    workerIteration H w =
      match _handleMeasureRequests H (_handleMetricsRequests { w with p := drain w.p }) with
      | none => none
      | some w2 =>
        match _handleTextLinesRequests H w2 with
        | none => none
        | some w3 => some (_handleGlyphsRequests H w3) := by
  have h1 := handleMetrics_if { w with p := drain w.p }
  unfold workerIteration
  simp only [] at h1 ⊢
  rw [h1, handleMeasure_if]
  cases _handleMeasureRequests H (_handleMetricsRequests { w with p := drain w.p }) with
  | none => rfl
  | some w2 =>
    simp only []
    rw [handleTextLines_if]
    cases _handleTextLinesRequests H w2 with
    | none => rfl
    | some w3 =>
      simp only []
      rw [handleGlyphs_if]

theorem workerIteration_spec (H : HashCombine) (w : World) :
    ∃ (ms : List (Nat × Metrics)) (zs : List (Nat × vec2)) (ls : List (Nat × List TextLine))
      (gs : List (Nat × List Glyph)) (glyphCache : List (UID × Glyph)) (uids : UIDRegistry),
      ms = w.p.metricsQueue.map (fun request => (request.promise, getMetrics w request)) ∧
      zs.map Prod.fst = w.p.measureQueue.map (fun request => request.promise) ∧
      ls.map Prod.fst = w.p.textLinesQueue.map (fun request => request.promise) ∧
      gs.map Prod.fst = w.p.glyphsQueue.map (fun request => request.promise) ∧
      workerIteration H w = some
        { p := { w.p with
            metricsQueue := [], measureQueue := [], textLinesQueue := [], glyphsQueue := []
            metricsRequests := [], measureRequests := [], textLinesRequests := []
            glyphsRequests := [], glyphCache := glyphCache }
          uids := uids
          futures :=
            { metrics := w.futures.metrics ++ ms, measure := w.futures.measure ++ zs
              textLines := w.futures.textLines ++ ls, glyphs := w.futures.glyphs ++ gs } } := by
  rw [workerIteration_eq]
  obtain ⟨w1, hw1⟩ : ∃ w1, w1 = _handleMetricsRequests { w with p := drain w.p } := ⟨_, rfl⟩
  have e0 := hw1
  rw [handleMetrics_spec] at e0
  rw [← hw1]
  obtain ⟨zs, c1, u1, hz, e1⟩ := handleMeasure_spec H w1
  rw [e1]
  simp only []
  obtain ⟨w2, hw2⟩ : ∃ w2 : World, w2 =
      { p := { w1.p with measureRequests := [], glyphCache := c1 }, uids := u1,
        futures := { w1.futures with measure := w1.futures.measure ++ zs } } := ⟨_, rfl⟩
  rw [← hw2]
  obtain ⟨ls, c2, u2, hl, e2⟩ := handleTextLines_spec H w2
  rw [e2]
  simp only []
  obtain ⟨w3, hw3⟩ : ∃ w3 : World, w3 =
      { p := { w2.p with textLinesRequests := [], glyphCache := c2 }, uids := u2,
        futures := { w2.futures with textLines := w2.futures.textLines ++ ls } } := ⟨_, rfl⟩
  rw [← hw3]
  obtain ⟨gs, c3, u3, hg, e3⟩ := handleGlyphs_spec H w3
  rw [e3]
  refine ⟨_, zs, ls, gs, c3, u3, rfl, ?_, ?_, ?_, ?_⟩
  · rw [hz, e0]; simp [drain]
  · rw [hl, hw2, e0]; simp [drain]
  · rw [hg, hw3, hw2, e0]; simp [drain]
  · rw [hw3, hw2, e0]
    simp [drain, getMetrics]

theorem measureFold_noFonts (H : HashCombine) :
    ∀ (reqs : List MeasureRequest) (w : World), w.p.fontFaces = [] →
      reqs.foldlM (fun (w : World) request =>
        match measure H w request with
        | none => none
        | some (size, w1) =>
          some { w1 with futures := { w1.futures with
            measure := w1.futures.measure ++ [(request.promise, size)] } }) w =
      some { w with futures := { w.futures with
          measure := w.futures.measure ++
            reqs.map (fun request => (request.promise, (⟨0, 0⟩ : vec2))) } } := by
  intro reqs
  induction reqs with
  | nil => intro w _; simp
  | cons r rest ih =>
    intro w h
    have hm : measure H w r = some (⟨0, 0⟩, w) := by simp [measure, h]
    have e := ih { w with futures := { w.futures with
      measure := w.futures.measure ++ [(r.promise, (⟨0, 0⟩ : vec2))] } } h
    simp only [List.foldlM_cons, hm]
    exact e.trans (by simp)

theorem textLinesFold_noFonts (H : HashCombine) :
    ∀ (reqs : List TextLinesRequest) (w : World), w.p.fontFaces = [] →
      reqs.foldlM (fun (w : World) request =>
        match textLines H w request with
        | none => none
        | some (lines, w1) =>
          some { w1 with futures := { w1.futures with
            textLines := w1.futures.textLines ++ [(request.promise, lines)] } }) w =
      some { w with futures := { w.futures with
          textLines := w.futures.textLines ++
            reqs.map (fun request => (request.promise, ([] : List TextLine))) } } := by
  intro reqs
  induction reqs with
  | nil => intro w _; simp
  | cons r rest ih =>
    intro w h
    have hm : textLines H w r = some ([], w) := by simp [textLines, h]
    have e := ih { w with futures := { w.futures with
      textLines := w.futures.textLines ++ [(r.promise, ([] : List TextLine))] } } h
    simp only [List.foldlM_cons, hm]
    exact e.trans (by simp)

theorem glyphsFold_noFonts (H : HashCombine) :
    ∀ (reqs : List GlyphsRequest) (w : World), w.p.fontFaces = [] →
      reqs.foldl (fun (w : World) request =>
        let r := getGlyphs H w request
        { r.2 with futures := { r.2.futures with
            glyphs := r.2.futures.glyphs ++ [(request.promise, r.1)] } }) w =
      { w with futures := { w.futures with
          glyphs := w.futures.glyphs ++
            reqs.map (fun request => (request.promise, ([] : List Glyph))) } } := by
  intro reqs
  induction reqs with
  | nil => intro w _; simp
  | cons r rest ih =>
    intro w h
    have hm : getGlyphs H w r = ([], w) := by simp [getGlyphs, h]
    have e := ih { w with futures := { w.futures with
      glyphs := w.futures.glyphs ++ [(r.promise, ([] : List Glyph))] } } h
    simp only [List.foldl_cons, hm]
    exact e.trans (by simp)

theorem getMetrics_noFonts (w : World) (request : MetricsRequest) (h : w.p.fontFaces = []) :
    getMetrics w request = ⟨0, 0, 0⟩ := by
  simp [getMetrics, h, Metrics.default]

theorem handleMetrics_noFonts (w : World) (h : w.p.fontFaces = []) :
    _handleMetricsRequests w =
      { w with
        p := { w.p with metricsRequests := [] }
        futures := { w.futures with
          metrics := w.futures.metrics ++
            w.p.metricsRequests.map (fun request => (request.promise, (⟨0, 0, 0⟩ : Metrics))) } } := by
  rw [handleMetrics_spec]
  have hmet : ∀ request : MetricsRequest, getMetrics w request = ⟨0, 0, 0⟩ :=
    fun request => getMetrics_noFonts w request h
  simp only [hmet]

theorem handleMeasure_noFonts (H : HashCombine) (w : World) (h : w.p.fontFaces = []) :
    _handleMeasureRequests H w = some
      { w with
        p := { w.p with measureRequests := [] }
        futures := { w.futures with
          measure := w.futures.measure ++
            w.p.measureRequests.map (fun request => (request.promise, (⟨0, 0⟩ : vec2))) } } := by
  have hf := measureFold_noFonts H w.p.measureRequests w h
  unfold _handleMeasureRequests
  exact (congrArg (fun o : Option World =>
    match o with
    | none => none
    | some w1 => some { w1 with p := { w1.p with measureRequests := [] } }) hf)

theorem handleTextLines_noFonts (H : HashCombine) (w : World) (h : w.p.fontFaces = []) :
    _handleTextLinesRequests H w = some
      { w with
        p := { w.p with textLinesRequests := [] }
        futures := { w.futures with
          textLines := w.futures.textLines ++
            w.p.textLinesRequests.map
              (fun request => (request.promise, ([] : List TextLine))) } } := by
  have hf := textLinesFold_noFonts H w.p.textLinesRequests w h
  unfold _handleTextLinesRequests
  exact (congrArg (fun o : Option World =>
    match o with
    | none => none
    | some w1 => some { w1 with p := { w1.p with textLinesRequests := [] } }) hf)

theorem handleGlyphs_noFonts (H : HashCombine) (w : World) (h : w.p.fontFaces = []) :
    _handleGlyphsRequests H w =
      { w with
        p := { w.p with glyphsRequests := [] }
        futures := { w.futures with
          glyphs := w.futures.glyphs ++
            w.p.glyphsRequests.map (fun request => (request.promise, ([] : List Glyph))) } } := by
  have hf := glyphsFold_noFonts H w.p.glyphsRequests w h
  unfold _handleGlyphsRequests
  simp only []
  rw [hf]

theorem workerIteration_noFonts (H : HashCombine) (w : World) (h : w.p.fontFaces = []) :
    workerIteration H w = some
      { w with
        p := { w.p with
          metricsQueue := [], measureQueue := [], textLinesQueue := [], glyphsQueue := []
          metricsRequests := [], measureRequests := [], textLinesRequests := []
          glyphsRequests := [] }
        futures :=
          { metrics := w.futures.metrics ++
              w.p.metricsQueue.map (fun request => (request.promise, (⟨0, 0, 0⟩ : Metrics)))
            measure := w.futures.measure ++
              w.p.measureQueue.map (fun request => (request.promise, (⟨0, 0⟩ : vec2)))
            textLines := w.futures.textLines ++
              w.p.textLinesQueue.map (fun request => (request.promise, ([] : List TextLine)))
            glyphs := w.futures.glyphs ++
              w.p.glyphsQueue.map (fun request => (request.promise, ([] : List Glyph))) } } := by
  rw [workerIteration_eq]
  obtain ⟨w1, hw1⟩ : ∃ w1, w1 = _handleMetricsRequests { w with p := drain w.p } := ⟨_, rfl⟩
  have e0 := hw1
  rw [handleMetrics_noFonts _ (by simpa [drain] using h)] at e0
  rw [← hw1]
  have h1 : w1.p.fontFaces = [] := by rw [e0]; simpa [drain] using h
  rw [handleMeasure_noFonts H w1 h1]
  simp only []
  obtain ⟨w2, hw2⟩ : ∃ w2 : World, w2 =
      { w1 with
        p := { w1.p with measureRequests := [] }
        futures := { w1.futures with
          measure := w1.futures.measure ++
            w1.p.measureRequests.map (fun request => (request.promise, (⟨0, 0⟩ : vec2))) } } :=
    ⟨_, rfl⟩
  rw [← hw2]
  have h2 : w2.p.fontFaces = [] := by rw [hw2]; exact h1
  rw [handleTextLines_noFonts H w2 h2]
  simp only []
  obtain ⟨w3, hw3⟩ : ∃ w3 : World, w3 =
      { w2 with
        p := { w2.p with textLinesRequests := [] }
        futures := { w2.futures with
          textLines := w2.futures.textLines ++
            w2.p.textLinesRequests.map
              (fun request => (request.promise, ([] : List TextLine))) } } := ⟨_, rfl⟩
  rw [← hw3]
  have h3 : w3.p.fontFaces = [] := by rw [hw3]; exact h2
  rw [handleGlyphs_noFonts H w3 h3, hw3, hw2, e0]
  simp [drain]

theorem loadFont_failed (p : Private) (file : FontFile) (h : file.face = none) :
    loadFont p file = (p, false) := by
  unfold loadFont
  simp [h]

theorem loadFonts_failed :
    ∀ (directoryList : List FontFile) (p : Private),
      (∀ f ∈ directoryList, f.face = none) → loadFonts directoryList p = (p, false) := by
  intro directoryList
  induction directoryList with
  | nil => intro p _; rfl
  | cons f rest ih =>
    intro p h
    unfold loadFonts
    rw [loadFont_failed p f (h f (List.mem_cons_self _ _))]
    simp only [Bool.false_eq_true, if_false]
    exact ih p (fun g hg => h g (List.mem_cons_of_mem _ hg))

theorem initFreeType_fatal (ftInitError : Nat) (directoryList : List FontFile) (p : Private)
    (hfresh : p.fontFaces = [])
    (hfatal : ftInitError ≠ 0 ∨ ∀ f ∈ directoryList, f.face = none) :
    _initFreeType ftInitError directoryList p = p := by
  unfold _initFreeType
  by_cases he : ftInitError ≠ 0
  · simp [he]
  · rcases hfatal with h | h
    · exact absurd h he
    · simp only [he, if_false, loadFonts_failed directoryList p h, hfresh,
        List.length_nil, if_true, Bool.false_eq_true]

/-! ### Font loading -/

theorem loadFont_named (p : Private) (file : FontFile) (ftFace : FT_Face)
    (family style : String) (hf : file.face = some ftFace)
    (h1 : ftFace.family_name = some family) (h2 : ftFace.style_name = some style) :
    loadFont p file =
      ({ p with
          fontNames := mapSet p.fontNames family file.fileName
          fontFaces := mapSet p.fontFaces family
            (mapSet ((p.fontFaces.lookup family).getD []) style ftFace) }, false) := by
  unfold loadFont
  simp only [hf, h1, h2]

theorem allNamed_cons {f : FontFile} {rest : List FontFile} (h : AllNamed (f :: rest)) :
    AllNamed rest :=
  fun g hg face hface => h g (List.mem_cons_of_mem _ hg) face hface

theorem loadFont_ok (p : Private) (file : FontFile) (h : AllNamed [file]) :
    (loadFont p file).2 = false := by
  cases hf : file.face with
  | none => rw [loadFont_failed p file hf]
  | some ftFace =>
    obtain ⟨⟨family, h1⟩, ⟨style, h2⟩⟩ := h file (List.mem_singleton.mpr rfl) ftFace hf
    rw [loadFont_named p file ftFace family style hf h1 h2]

theorem allNamed_head {f : FontFile} {rest : List FontFile} (h : AllNamed (f :: rest)) :
    AllNamed [f] := by
  intro g hg face hface
  rw [List.mem_singleton.mp hg] at hface
  exact h f (List.mem_cons_self _ _) face hface

theorem loadFonts_cons_ok (p : Private) (f : FontFile) (rest : List FontFile)
    (h : AllNamed [f]) :
    loadFonts (f :: rest) p = loadFonts rest (loadFont p f).1 := by
  have := loadFont_ok p f h
  conv_lhs => unfold loadFonts
  simp only [this, Bool.false_eq_true, if_false]

theorem loadFonts_ok :
    ∀ (directoryList : List FontFile) (p : Private), AllNamed directoryList →
      (loadFonts directoryList p).2 = false := by
  intro directoryList
  induction directoryList with
  | nil => intro p _; rfl
  | cons f rest ih =>
    intro p h
    rw [loadFonts_cons_ok p f rest (allNamed_head h)]
    exact ih _ (allNamed_cons h)

theorem faceEntry_loadFont (p : Private) (file : FontFile) (family style : String)
    (h : AllNamed [file]) :
    faceEntry (loadFont p file).1.fontFaces family style =
      match file.face with
      | none => faceEntry p.fontFaces family style
      | some ftFace =>
        if ftFace.family_name = some family ∧ ftFace.style_name = some style then some ftFace
        else faceEntry p.fontFaces family style := by
  cases hf : file.face with
  | none => rw [loadFont_failed p file hf]
  | some ftFace =>
    obtain ⟨⟨fam, e1⟩, ⟨sty, e2⟩⟩ := h file (List.mem_singleton.mpr rfl) ftFace hf
    rw [loadFont_named p file ftFace fam sty hf e1 e2]
    simp only [e1, e2, Option.some.injEq]
    by_cases h1 : fam = family
    · subst h1
      unfold faceEntry
      rw [lookup_mapSet_self]
      simp only []
      by_cases h2 : sty = style
      · subst h2
        rw [lookup_mapSet_self]
        simp
      · rw [lookup_mapSet_ne _ _ _ _ (fun e => h2 e.symm)]
        simp only [h2, and_false, if_false]
        cases p.fontFaces.lookup fam with
        | none => simp [List.lookup]
        | some styles => simp
    · unfold faceEntry
      rw [lookup_mapSet_ne _ _ _ _ (fun e => h1 e.symm)]
      simp [h1]

theorem faceEntry_persists :
    ∀ (directoryList : List FontFile) (p : Private) (family style : String),
      AllNamed directoryList →
      (faceEntry p.fontFaces family style).isSome = true →
      (faceEntry (loadFonts directoryList p).1.fontFaces family style).isSome = true := by
  intro directoryList
  induction directoryList with
  | nil => intro p family style _ h; exact h
  | cons f rest ih =>
    intro p family style hn h
    rw [loadFonts_cons_ok p f rest (allNamed_head hn)]
    apply ih _ _ _ (allNamed_cons hn)
    rw [faceEntry_loadFont p f family style (allNamed_head hn)]
    cases f.face with
    | none => exact h
    | some ftFace =>
      simp only []
      split_ifs
      · rfl
      · exact h

theorem faceEntry_of_opened :
    ∀ (directoryList : List FontFile) (p : Private) (file : FontFile) (ftFace : FT_Face)
      (family style : String),
      AllNamed directoryList → file ∈ directoryList → file.face = some ftFace →
      ftFace.family_name = some family → ftFace.style_name = some style →
      (faceEntry (loadFonts directoryList p).1.fontFaces family style).isSome = true := by
  intro directoryList
  induction directoryList with
  | nil => intro p file ftFace family style _ hm; exact absurd hm (List.not_mem_nil _)
  | cons f rest ih =>
    intro p file ftFace family style hn hm hf h1 h2
    rw [loadFonts_cons_ok p f rest (allNamed_head hn)]
    rcases List.mem_cons.mp hm with h | h
    · subst h
      apply faceEntry_persists _ _ _ _ (allNamed_cons hn)
      rw [faceEntry_loadFont p file family style (allNamed_head hn), hf]
      simp [h1, h2]
    · exact ih _ file ftFace family style (allNamed_cons hn) h hf h1 h2

theorem faceEntry_origin :
    ∀ (directoryList : List FontFile) (p : Private) (family style : String) (ftFace : FT_Face),
      AllNamed directoryList →
      faceEntry (loadFonts directoryList p).1.fontFaces family style = some ftFace →
      faceEntry p.fontFaces family style = some ftFace ∨
        ∃ file ∈ directoryList, file.face = some ftFace ∧
          ftFace.family_name = some family ∧ ftFace.style_name = some style := by
  intro directoryList
  induction directoryList with
  | nil => intro p family style ftFace _ h; exact Or.inl h
  | cons f rest ih =>
    intro p family style ftFace hn h
    rw [loadFonts_cons_ok p f rest (allNamed_head hn)] at h
    rcases ih _ family style ftFace (allNamed_cons hn) h with h1 | ⟨file, hm, hf, hnm⟩
    · rw [faceEntry_loadFont p f family style (allNamed_head hn)] at h1
      cases hf : f.face with
      | none =>
        rw [hf] at h1
        exact Or.inl h1
      | some face0 =>
        rw [hf] at h1
        simp only [] at h1
        split_ifs at h1 with hc
        · have e : face0 = ftFace := Option.some.inj h1
          subst e
          exact Or.inr ⟨f, List.mem_cons_self _ _, hf, hc.1, hc.2⟩
        · exact Or.inl h1
    · exact Or.inr ⟨file, List.mem_cons_of_mem _ hm, hf, hnm⟩

theorem loadFonts_filter :
    ∀ (directoryList : List FontFile) (p : Private),
      loadFonts directoryList p =
        loadFonts (directoryList.filter (fun file => file.face.isSome)) p := by
  intro directoryList
  induction directoryList with
  | nil => intro p; rfl
  | cons f rest ih =>
    intro p
    cases hf : f.face with
    | none =>
      rw [List.filter_cons_of_neg (by simp [hf])]
      conv_lhs => unfold loadFonts
      rw [loadFont_failed p f hf]
      simp only [Bool.false_eq_true, if_false]
      exact ih p
    | some ftFace =>
      rw [List.filter_cons_of_pos (by simp [hf])]
      conv_lhs => unfold loadFonts
      conv_rhs => unfold loadFonts
      by_cases ht : (loadFont p f).2 = true
      · simp only [ht, if_true]
      · simp only [ht, if_false]
        exact ih _

theorem initFreeType_fontFaces (directoryList : List FontFile) (p : Private) :
    (_initFreeType 0 directoryList p).fontFaces = (loadFonts directoryList p).1.fontFaces := by
  unfold _initFreeType
  simp only [ne_eq, not_true_eq_false, if_false]
  split_ifs <;> rfl

theorem loadFont_promise (p : Private) (file : FontFile) :
    (loadFont p file).1.fontNamesPromise = p.fontNamesPromise := by
  unfold loadFont
  cases file.face with
  | none => rfl
  | some ftFace =>
    simp only []
    cases ftFace.family_name with
    | none => rfl
    | some family =>
      simp only []
      cases ftFace.style_name <;> rfl

theorem loadFonts_promise :
    ∀ (directoryList : List FontFile) (p : Private),
      (loadFonts directoryList p).1.fontNamesPromise = p.fontNamesPromise := by
  intro directoryList
  induction directoryList with
  | nil => intro p; rfl
  | cons f rest ih =>
    intro p
    unfold loadFonts
    split_ifs
    · exact loadFont_promise p f
    · rw [ih]
      exact loadFont_promise p f

theorem loadFonts_fontNames :
    ∀ (directoryList : List FontFile) (p : Private), AllNamed directoryList →
      (loadFonts directoryList p).1.fontNames =
        (directoryList.filterMap familyAndPath).foldl
          (fun names e => mapSet names e.1 e.2) p.fontNames := by
  intro directoryList
  induction directoryList with
  | nil => intro p _; rfl
  | cons f rest ih =>
    intro p hn
    rw [loadFonts_cons_ok p f rest (allNamed_head hn), ih _ (allNamed_cons hn)]
    cases hf : f.face with
    | none =>
      rw [loadFont_failed p f hf]
      simp [List.filterMap_cons, familyAndPath, hf]
    | some ftFace =>
      obtain ⟨⟨fam, e1⟩, ⟨sty, e2⟩⟩ := hn f (List.mem_cons_self _ _) ftFace hf
      rw [loadFont_named p f ftFace fam sty hf e1 e2]
      simp [List.filterMap_cons, familyAndPath, hf, e1]

theorem mapSet_ne_nil {κ ν : Type} [DecidableEq κ] (m : List (κ × ν)) (k : κ) (v : ν) :
    mapSet m k v ≠ [] := by
  cases m with
  | nil => simp [mapSet]
  | cons e rest =>
    rcases e with ⟨k0, v0⟩
    unfold mapSet
    split_ifs <;> simp

theorem loadFont_fontFaces_ne_nil (p : Private) (file : FontFile) (hn : AllNamed [file])
    (h : p.fontFaces ≠ [] ∨ file.face.isSome = true) : (loadFont p file).1.fontFaces ≠ [] := by
  cases hf : file.face with
  | none =>
    rw [loadFont_failed p file hf]
    rcases h with h | h
    · exact h
    · rw [hf] at h; exact absurd h (by simp)
  | some ftFace =>
    obtain ⟨⟨fam, e1⟩, ⟨sty, e2⟩⟩ := hn file (List.mem_singleton.mpr rfl) ftFace hf
    rw [loadFont_named p file ftFace fam sty hf e1 e2]
    exact mapSet_ne_nil _ _ _

theorem loadFonts_ne_nil :
    ∀ (directoryList : List FontFile) (p : Private), AllNamed directoryList →
      (p.fontFaces ≠ [] ∨ ∃ file ∈ directoryList, file.face.isSome = true) →
      (loadFonts directoryList p).1.fontFaces ≠ [] := by
  intro directoryList
  induction directoryList with
  | nil =>
    intro p _ h
    rcases h with h | ⟨file, hm, _⟩
    · exact h
    · exact absurd hm (List.not_mem_nil _)
  | cons f rest ih =>
    intro p hn h
    rw [loadFonts_cons_ok p f rest (allNamed_head hn)]
    apply ih _ (allNamed_cons hn)
    rcases h with h | ⟨file, hm, hf⟩
    · exact Or.inl (loadFont_fontFaces_ne_nil p f (allNamed_head hn) (Or.inl h))
    · rcases List.mem_cons.mp hm with e | e
      · subst e
        exact Or.inl (loadFont_fontFaces_ne_nil p file (allNamed_head hn) (Or.inr hf))
      · exact Or.inr ⟨file, e, hf⟩

theorem loadFont_throws (p : Private) (file : FontFile) (h : ¬ AllNamed [file]) :
    (loadFont p file).2 = true := by
  cases hf : file.face with
  | none =>
    exfalso
    apply h
    intro g hg face hface
    rw [List.mem_singleton.mp hg, hf] at hface
    exact absurd hface (by simp)
  | some ftFace =>
    unfold loadFont
    simp only [hf]
    cases h1 : ftFace.family_name with
    | none => rfl
    | some family =>
      simp only []
      cases h2 : ftFace.style_name with
      | none => rfl
      | some style =>
        exfalso
        apply h
        intro g hg face hface
        rw [List.mem_singleton.mp hg, hf] at hface
        have e : ftFace = face := Option.some.inj hface
        subst e
        exact ⟨⟨family, h1⟩, ⟨style, h2⟩⟩

theorem loadFonts_throws :
    ∀ (directoryList : List FontFile) (p : Private), ¬ AllNamed directoryList →
      (loadFonts directoryList p).2 = true := by
  intro directoryList
  induction directoryList with
  | nil =>
    intro p h
    exact absurd (fun g hg => absurd hg (List.not_mem_nil _)) h
  | cons f rest ih =>
    intro p h
    by_cases hf : AllNamed [f]
    · rw [loadFonts_cons_ok p f rest hf]
      apply ih
      intro hrest
      apply h
      intro g hg face hface
      rcases List.mem_cons.mp hg with e | e
      · exact hf g (List.mem_singleton.mpr e) face hface
      · exact hrest g e face hface
    · have := loadFont_throws p f hf
      unfold loadFonts
      simp only [this, if_true]

theorem initFreeType_promise (ftInitError : Nat) (directoryList : List FontFile) (p : Private)
    (hfresh : p.fontFaces = []) [Decidable (AllNamed directoryList)] :
    (_initFreeType ftInitError directoryList p).fontNamesPromise =
      if ftInitError = 0 ∧ AllNamed directoryList ∧
          ∃ file ∈ directoryList, file.face.isSome = true then
        p.fontNamesPromise ++ [(directoryList.filterMap familyAndPath).foldl
          (fun names e => mapSet names e.1 e.2) p.fontNames]
      else p.fontNamesPromise := by
  by_cases hc : ftInitError = 0 ∧ AllNamed directoryList ∧
      ∃ file ∈ directoryList, file.face.isSome = true
  · rw [if_pos hc]
    obtain ⟨he, hn, hex⟩ := hc
    subst he
    have hne := loadFonts_ne_nil directoryList p hn (Or.inr hex)
    have hlen : (loadFonts directoryList p).1.fontFaces.length ≠ 0 :=
      fun e => hne (List.length_eq_zero.mp e)
    unfold _initFreeType
    simp only [ne_eq, not_true_eq_false, if_false, hlen, loadFonts_ok directoryList p hn,
      Bool.false_eq_true]
    rw [loadFonts_promise, loadFonts_fontNames directoryList p hn]
  · rw [if_neg hc]
    by_cases he : ftInitError = 0
    · by_cases hn : AllNamed directoryList
      · have hnone : ∀ f ∈ directoryList, f.face = none := by
          intro f hm
          cases hf : f.face with
          | none => rfl
          | some ftFace => exact absurd ⟨he, hn, f, hm, by simp [hf]⟩ hc
        rw [initFreeType_fatal ftInitError directoryList p hfresh (Or.inr hnone)]
      · unfold _initFreeType
        simp only [he, ne_eq, not_true_eq_false, if_false, loadFonts_throws directoryList p hn,
          if_true]
        exact loadFonts_promise directoryList p
    · rw [initFreeType_fatal ftInitError directoryList p hfresh (Or.inl he)]

theorem workerLoop_total (H : HashCombine) :
    ∀ (n : Nat) (w : World), ∃ w1, workerLoop H n w = some w1 ∧
      w1.p.fontNamesPromise = w.p.fontNamesPromise ∧ w1.p.fontNames = w.p.fontNames ∧
      w1.p.fontFaces = w.p.fontFaces := by
  intro n
  induction n with
  | zero => intro w; exact ⟨w, rfl, rfl, rfl, rfl⟩
  | succ n ih =>
    intro w
    unfold workerLoop
    by_cases hr : w.p.running = true
    · obtain ⟨ms, zs, ls, gs, c, u, _, _, _, _, e⟩ := workerIteration_spec H w
      rw [if_pos hr, e]
      obtain ⟨w1, h1, h2, h3, h4⟩ := ih
        { p := { w.p with
            metricsQueue := [], measureQueue := [], textLinesQueue := [], glyphsQueue := []
            metricsRequests := [], measureRequests := [], textLinesRequests := []
            glyphsRequests := [], glyphCache := c }
          uids := u
          futures :=
            { metrics := w.futures.metrics ++ ms, measure := w.futures.measure ++ zs
              textLines := w.futures.textLines ++ ls, glyphs := w.futures.glyphs ++ gs } }
      exact ⟨w1, h1, h2, h3, h4⟩
    · rw [if_neg hr]
      exact ⟨w, rfl, rfl, rfl, rfl⟩

theorem textLinesStep_textLine (getGlyph : σ → Char → Option Glyph × σ) (utf32 : List Char)
    (height maxLineWidth : Int) (c : Char) (s s1 : TextLinesState σ)
    (hs : textLinesStep getGlyph utf32 height maxLineWidth c s = some s1) :
    s1.textLine = s.textLine ∨ s1.textLine = utf32.length ∨
      (s1.textLine = s.i ∧ isSpace c = true ∧ s.i ≠ 0 ∧ isNewline c = false) := by
  unfold textLinesStep at hs
  cases hn : isNewline c with
  | true =>
    simp only [hn, if_true] at hs
    split at hs
    · exact absurd hs (by simp)
    · simp only [Option.some.injEq] at hs
      rw [← hs]
      exact Or.inl rfl
  | false =>
    simp only [hn, Bool.false_eq_true, if_false] at hs
    by_cases hov : s.pos.x > 0 ∧ s.pos.x + (if !isSpace c then
        (glyphAdvance (getGlyph s.sys c).1 s.rsbDeltaPrev).1 else 0) ≥ maxLineWidth
    · simp only [if_pos hov] at hs
      by_cases ht : s.textLine ≠ utf32.length
      · simp only [if_pos ht] at hs
        split at hs
        · exact absurd hs (by simp)
        · simp only [Option.some.injEq] at hs
          rw [← hs]
          exact Or.inr (Or.inl rfl)
      · simp only [if_neg ht] at hs
        split at hs
        · exact absurd hs (by simp)
        · simp only [Option.some.injEq] at hs
          rw [← hs]
          exact Or.inl rfl
    · simp only [if_neg hov, Option.some.injEq] at hs
      rw [← hs]
      by_cases hsp : isSpace c = true ∧ s.i ≠ 0
      · right; right
        simp [hsp.1, hsp.2]
      · left
        simp [hsp]

theorem measureStep_textLine (getGlyph : σ → Char → Option Glyph × σ) (utf32 : List Char)
    (height maxLineWidth : Int) (c : Char) (s : MeasureState σ) :
    (measureStep getGlyph utf32 height maxLineWidth c s).textLine = s.textLine ∨
      (measureStep getGlyph utf32 height maxLineWidth c s).textLine = utf32.length ∨
      ((measureStep getGlyph utf32 height maxLineWidth c s).textLine = s.i ∧
        isSpace c = true ∧ s.i ≠ 0 ∧ isNewline c = false) := by
  unfold measureStep
  cases hn : isNewline c with
  | true => exact Or.inl (by simp)
  | false =>
    simp only [Bool.false_eq_true, if_false]
    by_cases hov : s.pos.x > 0 ∧ s.pos.x + (if !isSpace c then
        (glyphAdvance (getGlyph s.sys c).1 s.rsbDeltaPrev).1 else 0) ≥ maxLineWidth
    · simp only [if_pos hov]
      by_cases ht : s.textLine ≠ utf32.length
      · right; left
        simp [ht]
      · left
        simp [ht]
    · simp only [if_neg hov]
      by_cases hsp : isSpace c = true ∧ s.i ≠ 0
      · right; right
        simp [hsp.1, hsp.2]
      · left
        simp [hsp]

theorem linesReach_invariant {getGlyph : σ → Char → Option Glyph × σ} {utf32 : List Char}
    {height maxLineWidth : Int} (P : TextLinesState σ → Prop)
    (hstep : ∀ s c s1, P s → utf32[s.i]? = some c →
      textLinesStep getGlyph utf32 height maxLineWidth c s = some s1 → P s1)
    {s s2 : TextLinesState σ} (hr : LinesReach getGlyph utf32 height maxLineWidth s s2)
    (hp : P s) : P s2 := by
  induction hr with
  | refl s => exact hp
  | step hc hs _ ih => exact ih (hstep _ _ _ hp hc hs)

theorem breakOpportunity_isSpace (getGlyph : σ → Char → Option Glyph × σ) (utf32 : List Char)
    (height maxLineWidth : Int) (sys : σ) (s : TextLinesState σ)
    (hr : LinesReach getGlyph utf32 height maxLineWidth (TextLinesState.init utf32 height sys) s)
    (ht : s.textLine ≠ utf32.length) :
    s.textLine ≠ 0 ∧ ∃ c, utf32[s.textLine]? = some c ∧ isSpace c = true := by
  refine linesReach_invariant
    (fun s => s.textLine ≠ utf32.length →
      s.textLine ≠ 0 ∧ ∃ c, utf32[s.textLine]? = some c ∧ isSpace c = true)
    ?_ hr (fun h => absurd rfl h) ht
  intro s c s1 hp hc hs ht1
  rcases textLinesStep_textLine getGlyph utf32 height maxLineWidth c s s1 hs with
    h | h | ⟨h1, h2, h3, _⟩
  · rw [h] at ht1 ⊢
    exact hp ht1
  · exact absurd h ht1
  · rw [h1]
    exact ⟨h3, c, hc, h2⟩

theorem glyphInfo_ctor_spec (H : HashCombine) (r : UIDRegistry) (code : Nat) (info : Info) :
    (GlyphInfo.GlyphInfo H r code info).1.code = code ∧
    (GlyphInfo.GlyphInfo H r code info).1.info = info ∧
    (GlyphInfo.GlyphInfo H r code info).2.map.lookup (glyphHash H code info) =
      some (GlyphInfo.GlyphInfo H r code info).1.uid ∧
    (∀ h u, r.map.lookup h = some u →
      (GlyphInfo.GlyphInfo H r code info).2.map.lookup h = some u) ∧
    (RegistryInv r → RegistryInv (GlyphInfo.GlyphInfo H r code info).2) ∧
    (r.map.lookup (glyphHash H code info) = none →
      (GlyphInfo.GlyphInfo H r code info).2.map =
        r.map ++ [(glyphHash H code info, (GlyphInfo.GlyphInfo H r code info).1.uid)]) ∧
    (∀ u, r.map.lookup (glyphHash H code info) = some u →
      (GlyphInfo.GlyphInfo H r code info).2 = r) := by
  rw [glyphInfo_ctor_eq]
  cases hl : r.map.lookup (glyphHash H code info) with
  | some u =>
    refine ⟨rfl, rfl, hl, fun _ _ h => h, fun h => h, fun h => absurd h (by simp), ?_⟩
    intro _ _
    rfl
  | none =>
    have hne : ∀ h u, r.map.lookup h = some u → h ≠ glyphHash H code info := by
      intro h u hh e
      rw [e, hl] at hh
      exact absurd hh (by simp)
    refine ⟨rfl, rfl, lookup_mapSet_self _ _ _, ?_, ?_, ?_, ?_⟩
    · intro h u hh
      show (mapSet r.map (glyphHash H code info) r.next).lookup h = some u
      rw [lookup_mapSet_ne _ _ _ _ (hne h u hh)]
      exact hh
    · intro hinv
      constructor
      · intro h u hh
        show u < r.next + 1
        have hh1 : (mapSet r.map (glyphHash H code info) r.next).lookup h = some u := hh
        by_cases e : h = glyphHash H code info
        · rw [e, lookup_mapSet_self] at hh1
          simp only [Option.some.injEq] at hh1
          rw [← hh1]
          exact Nat.lt_succ_self _
        · rw [lookup_mapSet_ne _ _ _ _ e] at hh1
          exact Nat.lt_succ_of_lt (hinv.1 h u hh1)
      · intro h1 h2 u hh1 hh2
        have hh3 : (mapSet r.map (glyphHash H code info) r.next).lookup h1 = some u := hh1
        have hh4 : (mapSet r.map (glyphHash H code info) r.next).lookup h2 = some u := hh2
        by_cases e1 : h1 = glyphHash H code info
        · by_cases e2 : h2 = glyphHash H code info
          · rw [e1, e2]
          · rw [e1, lookup_mapSet_self] at hh3
            rw [lookup_mapSet_ne _ _ _ _ e2] at hh4
            simp only [Option.some.injEq] at hh3
            have := hinv.1 h2 u hh4
            rw [← hh3] at this
            exact absurd this (Nat.lt_irrefl _)
        · by_cases e2 : h2 = glyphHash H code info
          · rw [e2, lookup_mapSet_self] at hh4
            rw [lookup_mapSet_ne _ _ _ _ e1] at hh3
            simp only [Option.some.injEq] at hh4
            have := hinv.1 h1 u hh3
            rw [← hh4] at this
            exact absurd this (Nat.lt_irrefl _)
          · rw [lookup_mapSet_ne _ _ _ _ e1] at hh3
            rw [lookup_mapSet_ne _ _ _ _ e2] at hh4
            exact hinv.2 h1 h2 u hh3 hh4
    · intro _
      exact mapSet_of_lookup_none _ _ _ hl
    · intro u hu
      exact absurd hu (by simp)

theorem constructAll_spec (H : HashCombine) :
    ∀ (calls : List (Nat × Info)) (r : UIDRegistry), RegistryInv r →
      RegistryInv (constructAll H r calls).2 ∧
      (constructAll H r calls).1.map (fun g => (g.code, g.info)) = calls ∧
      (∀ h u, r.map.lookup h = some u → (constructAll H r calls).2.map.lookup h = some u) ∧
      (∀ g ∈ (constructAll H r calls).1,
        (constructAll H r calls).2.map.lookup (glyphHash H g.code g.info) = some g.uid) := by
  intro calls
  induction calls with
  | nil =>
    intro r hinv
    exact ⟨hinv, rfl, fun _ _ h => h, fun g hg => absurd hg (List.not_mem_nil _)⟩
  | cons call rest ih =>
    intro r hinv
    rcases call with ⟨code, info⟩
    obtain ⟨h1, h2, h3, h4, h5, _, _⟩ := glyphInfo_ctor_spec H r code info
    obtain ⟨i1, i2, i3, i4⟩ := ih (GlyphInfo.GlyphInfo H r code info).2 (h5 hinv)
    unfold constructAll
    refine ⟨i1, ?_, fun h u hh => i3 h u (h4 h u hh), ?_⟩
    · simp only [List.map_cons, i2, h1, h2]
    · intro g hg
      rcases List.mem_cons.mp hg with e | e
      · rw [e, h1, h2]
        exact i3 _ _ h3
      · exact i4 g e

theorem amount_bounds (getGlyph : σ → Char → Option Glyph × σ) (maxLineWidth : Int)
    (hM : 0 < maxLineWidth)
    (hadv : ∀ sys c g, (getGlyph sys c).1 = some g → pixel ≤ g.advance)
    (hfit : ∀ sys c g r, (getGlyph sys c).1 = some g →
      (glyphAdvance (some g) r).1 < maxLineWidth)
    (sys : σ) (c : Char) (r : Int) :
    0 ≤ (glyphAdvance (getGlyph sys c).1 r).1 ∧
      (glyphAdvance (getGlyph sys c).1 r).1 < maxLineWidth := by
  cases hg : (getGlyph sys c).1 with
  | none => exact ⟨by simp [glyphAdvance], by simpa [glyphAdvance] using hM⟩
  | some g =>
    refine ⟨?_, hfit sys c g r hg⟩
    have := hadv sys c g hg
    have hp : pixel = 64 := rfl
    unfold glyphAdvance
    simp only []
    split_ifs <;> omega

theorem getLast?_take_drop (utf32 : List Char) {b i : Nat} (hb : b < i)
    (hi : i ≤ utf32.length) :
    ((utf32.drop b).take (i - b)).getLast? = utf32[i - 1]? := by
  rw [List.getLast?_eq_getElem?]
  have hlen : ((utf32.drop b).take (i - b)).length = i - b := by
    rw [List.length_take, List.length_drop]
    omega
  rw [hlen, List.getElem?_take_of_lt (by omega), List.getElem?_drop]
  congr 1
  omega

theorem lineFits_of_overhang (getGlyph : σ → Char → Option Glyph × σ) (utf32 : List Char)
    (maxLineWidth height x : Int) {b i : Nat} (hsize : utf32.length < 2 ^ 64)
    (hi : i ≤ utf32.length)
    (h : x < maxLineWidth ∨
      (1 ≤ i ∧ b < i ∧ ∃ c, utf32[i - 1]? = some c ∧ isSpace c = true ∧
        ∃ sys r, x - (glyphAdvance (getGlyph sys c).1 r).1 < maxLineWidth)) :
    LineFits getGlyph maxLineWidth
      ⟨String.mk ((utf32.drop b).take (toSizeT ((i : Int) - (b : Int)))), ⟨x, height⟩⟩ := by
  rcases h with h | ⟨_, hb, c, hc, hsp, hx⟩
  · exact Or.inl h
  · refine Or.inr ⟨c, ?_, hsp, hx⟩
    rw [toSizeT_sub (Nat.le_of_lt hb) (by omega)]
    show ((utf32.drop b).take (i - b)).getLast? = some c
    rw [getLast?_take_drop utf32 hb hi]
    exact hc

theorem fitInv_step (getGlyph : σ → Char → Option Glyph × σ) (utf32 : List Char)
    (height maxLineWidth : Int) (hsize : utf32.length < 2 ^ 64)
    (hx : ∀ sys c r, 0 ≤ (glyphAdvance (getGlyph sys c).1 r).1 ∧
      (glyphAdvance (getGlyph sys c).1 r).1 < maxLineWidth)
    (s s1 : TextLinesState σ) (c : Char) (hinv : FitInv getGlyph utf32 maxLineWidth s)
    (hc : utf32[s.i]? = some c)
    (hs : textLinesStep getGlyph utf32 height maxLineWidth c s = some s1) :
    FitInv getGlyph utf32 maxLineWidth s1 := by
  obtain ⟨hl, htx, hi0, hpos, hlines⟩ := hinv
  have hi := getElem?_some_lt hc
  have hb : s.lineBegin ≤ utf32.length := by
    have := hl.2.1
    omega
  have hbi : s.lineBegin ≤ s.i := hl.2.1
  obtain ⟨s2, hs2, hl1, _⟩ := textLinesStep_inv getGlyph utf32 height maxLineWidth c s hc hl
  rw [hs] at hs2
  simp only [Option.some.injEq] at hs2
  subst hs2
  have hxc := hx s.sys c s.rsbDeltaPrev
  have hpush : LineFits getGlyph maxLineWidth
      ⟨String.mk ((utf32.drop s.lineBegin).take (toSizeT ((s.i : Int) - (s.lineBegin : Int)))),
        ⟨s.pos.x, height⟩⟩ := by
    apply lineFits_of_overhang getGlyph utf32 maxLineWidth height s.pos.x hsize (Nat.le_of_lt hi)
    rcases hpos with h | ⟨h1, _, h3, h4⟩
    · exact Or.inl h
    · exact Or.inr ⟨h1, h3, h4⟩
  cases hn : isNewline c with
  | true =>
    obtain ⟨s2, hs2, e1, _, _, e4, e5, _, _, e8⟩ :=
      textLinesStep_newline getGlyph utf32 height maxLineWidth c s hn hb
    rw [hs] at hs2
    simp only [Option.some.injEq] at hs2
    subst hs2
    refine ⟨hl1, by rw [e8]; exact htx, fun h => by omega, Or.inl ?_, ?_⟩
    · rw [e4]
      exact lt_of_le_of_lt hxc.1 hxc.2
    · intro l hm
      rw [e5] at hm
      rcases List.mem_append.mp hm with h | h
      · exact hlines l h
      · rw [List.mem_singleton.mp h]
        exact hpush
  | false =>
    by_cases hov : s.pos.x > 0 ∧ s.pos.x + (if !isSpace c then
        (glyphAdvance (getGlyph s.sys c).1 s.rsbDeltaPrev).1 else 0) ≥ maxLineWidth
    · by_cases ht : s.textLine ≠ utf32.length
      · obtain ⟨s2, hs2, e1, _, _, e4, e5, _, _, e8⟩ :=
          textLinesStep_softWrap getGlyph utf32 height maxLineWidth c s hn hov ht hb
        rw [hs] at hs2
        simp only [Option.some.injEq] at hs2
        subst hs2
        refine ⟨hl1, by rw [e8]; exact htx, fun h => by omega, Or.inl ?_, ?_⟩
        · rw [e4]
          exact lt_of_le_of_lt hxc.1 hxc.2
        · intro l hm
          rw [e5] at hm
          rcases List.mem_append.mp hm with h | h
          · exact hlines l h
          · rw [List.mem_singleton.mp h]
            exact Or.inl htx
      · obtain ⟨s2, hs2, e1, _, _, e4, e5, _, _, e8⟩ :=
          textLinesStep_hardBreak getGlyph utf32 height maxLineWidth c s hn hov
            (not_not.mp ht) hb
        rw [hs] at hs2
        simp only [Option.some.injEq] at hs2
        subst hs2
        refine ⟨hl1, by rw [e8]; exact htx, fun h => by omega, Or.inl ?_, ?_⟩
        · rw [e4]
          exact hxc.2
        · intro l hm
          rw [e5] at hm
          rcases List.mem_append.mp hm with h | h
          · exact hlines l h
          · rw [List.mem_singleton.mp h]
            exact hpush
    · obtain ⟨s2, hs2, e1, _, _, e4, e5, e6, e7, e8⟩ :=
        textLinesStep_advance getGlyph utf32 height maxLineWidth c s hn hov
      rw [hs] at hs2
      simp only [Option.some.injEq] at hs2
      subst hs2
      have hlt : s.pos.x < maxLineWidth := by
        by_contra hge
        apply hov
        have h0 : 0 < maxLineWidth := lt_of_le_of_lt hxc.1 hxc.2
        refine ⟨by omega, ?_⟩
        split_ifs
        · omega
        · omega
      refine ⟨hl1, ?_, fun h => by omega, ?_, by rw [e5]; exact hlines⟩
      · rw [e8]
        split_ifs
        · exact hlt
        · exact htx
      · rw [e4]
        cases hsp : isSpace c with
        | true =>
          by_cases h0 : s.i = 0
          · left
            show s.pos.x + (glyphAdvance (getGlyph s.sys c).1 s.rsbDeltaPrev).1 < maxLineWidth
            rw [hi0 h0]
            omega
          · right
            refine ⟨by omega, ?_, by omega, c, ?_, hsp, s.sys, s.rsbDeltaPrev, ?_⟩
            · rw [e7, e1, if_pos ⟨hsp, h0⟩]
              omega
            · rw [e1]
              simpa using hc
            · show s.pos.x + (glyphAdvance (getGlyph s.sys c).1 s.rsbDeltaPrev).1 -
                (glyphAdvance (getGlyph s.sys c).1 s.rsbDeltaPrev).1 < maxLineWidth
              omega
        | false =>
          left
          show s.pos.x + (glyphAdvance (getGlyph s.sys c).1 s.rsbDeltaPrev).1 < maxLineWidth
          simp only [hsp, Bool.not_false, if_true] at hov
          by_cases hp : s.pos.x > 0
          · by_contra hge
            exact hov ⟨hp, by omega⟩
          · omega

theorem maxWidth_cases (lines : List TextLine) :
    maxWidth lines = 0 ∨ ∃ l ∈ lines, maxWidth lines = l.size.x := by
  induction lines with
  | nil => exact Or.inl rfl
  | cons l rest ih =>
    have e : maxWidth (l :: rest) = max l.size.x (maxWidth rest) := rfl
    rw [e]
    rcases le_total l.size.x (maxWidth rest) with h | h
    · rw [max_eq_right h]
      rcases ih with h0 | ⟨m, hm, hw⟩
      · exact Or.inl h0
      · exact Or.inr ⟨m, List.mem_cons_of_mem _ hm, hw⟩
    · rw [max_eq_left h]
      exact Or.inr ⟨l, List.mem_cons_self _ _, rfl⟩

theorem textLinesLayout_empty (getGlyph : σ → Char → Option Glyph × σ)
    (height maxLineWidth : Int) (sys : σ) :
    textLinesLayout getGlyph height maxLineWidth "" sys = some ([], sys) := by
  unfold textLinesLayout
  have : ("" : String).toList = [] := rfl
  simp only [this]
  unfold textLinesLoop
  simp [TextLinesState.init]

theorem fit_layout (getGlyph : σ → Char → Option Glyph × σ) (height maxLineWidth : Int)
    (text : String) (sys : σ) (hsize : text.toList.length < 2 ^ 64)
    (hx : ∀ sys c r, 0 ≤ (glyphAdvance (getGlyph sys c).1 r).1 ∧
      (glyphAdvance (getGlyph sys c).1 r).1 < maxLineWidth) :
    ∃ lines sys1, textLinesLayout getGlyph height maxLineWidth text sys = some (lines, sys1) ∧
      ∀ l ∈ lines, LineFits getGlyph maxLineWidth l := by
  have hM : 0 < maxLineWidth := lt_of_le_of_lt (hx sys ' ' 0).1 (hx sys ' ' 0).2
  obtain ⟨s1, hloop, hend, hinv1⟩ := textLinesLoop_total getGlyph text.toList height
    maxLineWidth (walkFuel text.toList.length) (TextLinesState.init text.toList height sys)
    (init_inv text.toList height sys) (walkRank_init _)
  have hinit : FitInv getGlyph text.toList maxLineWidth
      (TextLinesState.init text.toList height sys) :=
    ⟨init_inv text.toList height sys, hM, fun _ => rfl, Or.inl hM,
      fun l hl => absurd hl (List.not_mem_nil _)⟩
  have hfin := textLinesLoop_invariant getGlyph text.toList height maxLineWidth
    (FitInv getGlyph text.toList maxLineWidth)
    (fun s c s2 hp hc hs =>
      fitInv_step getGlyph text.toList height maxLineWidth hsize hx s s2 c hp hc hs)
    _ _ s1 hinit hloop
  obtain ⟨hl, _, _, hpos, hlines⟩ := hfin
  have hb : s1.lineBegin ≤ text.toList.length := by
    have := hl.2.1
    omega
  unfold textLinesLayout
  simp only [hloop, makeLine_eq _ _ _ _ _ hb]
  split_ifs with hne
  · refine ⟨_, _, rfl, ?_⟩
    intro l hm
    rcases List.mem_append.mp hm with h | h
    · exact hlines l h
    · rw [List.mem_singleton.mp h]
      apply lineFits_of_overhang getGlyph text.toList maxLineWidth height s1.pos.x hsize
        (le_of_eq hend)
      rcases hpos with h | ⟨h1, _, h3, h4⟩
      · exact Or.inl h
      · exact Or.inr ⟨h1, h3, h4⟩
  · exact ⟨_, _, rfl, hlines⟩

/-! ### Single precision -/

theorem excessBits_small (fuel n : Nat) (h : n < 2 ^ 24) : excessBits fuel n = 0 := by
  cases fuel with
  | zero => rfl
  | succ fuel =>
    unfold excessBits
    rw [if_pos h]

theorem f32Nat_exact (n : Nat) (h : n ≤ 2 ^ 24) : f32Nat n = n := by
  rcases Nat.lt_or_ge n (2 ^ 24) with h1 | h1
  · unfold f32Nat
    simp only [excessBits_small 111 n h1, pow_zero, Nat.div_one, Nat.mod_one, mul_zero, mul_one]
    simp
  · have : n = 2 ^ 24 := le_antisymm h h1
    subst this
    decide

theorem f32_exact (v : Int) (h : |v| ≤ 2 ^ 24) : f32 v = v := by
  have hn : v.natAbs ≤ 2 ^ 24 := by
    have := Int.natCast_natAbs v
    omega
  unfold f32
  rw [f32Nat_exact _ hn]
  split_ifs with h0
  · omega
  · omega

theorem f32_zero : f32 0 = 0 := by decide


theorem measureStep32_move (getGlyph : σ → Char → Option Glyph × σ) (utf32 : List Char)
    (height maxLineWidth : Int) (c : Char) (s : MeasureState σ) :
    WalkMove utf32.length s.i s.textLine
      (measureStep32 getGlyph utf32 height maxLineWidth c s).i
      (measureStep32 getGlyph utf32 height maxLineWidth c s).textLine := by
  unfold measureStep32 WalkMove
  simp only []
  split_ifs <;> simp_all

theorem textLinesStep32_move (getGlyph : σ → Char → Option Glyph × σ) (utf32 : List Char)
    (height maxLineWidth : Int) (c : Char) (s s1 : TextLinesState σ)
    (h : textLinesStep32 getGlyph utf32 height maxLineWidth c s = some s1) :
    WalkMove utf32.length s.i s.textLine s1.i s1.textLine := by
  unfold textLinesStep32 at h
  unfold WalkMove
  simp only [] at h
  split_ifs at h
  all_goals first
    | (split at h
       · exact absurd h (by simp)
       · simp only [Option.some.injEq] at h; subst h; simp_all)
    | (simp only [Option.some.injEq] at h; subst h; simp_all)

theorem stackedHeight_succ (h : Int) (n : Nat) :
    stackedHeight h (n + 2) = f32 (stackedHeight h (n + 1) + h) := rfl

theorem sim32_step (getGlyph : σ → Char → Option Glyph × σ) (utf32 : List Char)
    (height maxLineWidth : Int) (c : Char) (ms : MeasureState σ) (ls : TextLinesState σ)
    (h : Sim32 height ms ls) (hb : ls.lineBegin ≤ utf32.length) :
    ∃ ls1, textLinesStep32 getGlyph utf32 height maxLineWidth c ls = some ls1 ∧
      Sim32 height (measureStep32 getGlyph utf32 height maxLineWidth c ms) ls1 := by
  obtain ⟨h1, h2, h3, h4, h5, h6, h7, h8⟩ := h
  unfold textLinesStep32 measureStep32
  simp only [h1, h2, h3, h4, h5, h6, makeLine_eq _ _ _ _ _ hb]
  split_ifs
  all_goals
    refine ⟨_, rfl, ?_⟩
    constructor <;> first
      | (simp [maxWidth_append, h7, h3]; done)
      | exact h8
      | (simp only [List.length_append, List.length_singleton]
         rw [stackedHeight_succ, ← h8])

theorem measureLoop32_total (getGlyph : σ → Char → Option Glyph × σ) (utf32 : List Char)
    (height maxLineWidth : Int) :
    ∀ (fuel : Nat) (s : MeasureState σ), WalkInv utf32.length s.i s.textLine →
      walkRank utf32.length s.i s.textLine ≤ fuel →
      ∃ s1, measureLoop32 getGlyph utf32 height maxLineWidth fuel s = some s1 ∧
        s1.i = utf32.length := by
  intro fuel
  induction fuel with
  | zero =>
    intro s hinv hr
    unfold measureLoop32
    cases hc : utf32[s.i]? with
    | none =>
      refine ⟨s, rfl, ?_⟩
      have := List.getElem?_eq_none_iff.mp hc
      have := hinv.1
      omega
    | some c =>
      have := walkRank_pos (t := s.textLine) (getElem?_some_lt hc)
      omega
  | succ fuel ih =>
    intro s hinv hr
    unfold measureLoop32
    cases hc : utf32[s.i]? with
    | none =>
      refine ⟨s, rfl, ?_⟩
      have := List.getElem?_eq_none_iff.mp hc
      have := hinv.1
      omega
    | some c =>
      have hi := getElem?_some_lt hc
      obtain ⟨h1, h2⟩ := walkMove_inv (measureStep32_move getGlyph utf32 height maxLineWidth c s) hi hinv
      simpa using ih _ h1 (by omega)

theorem textLinesStep32_lineBegin (getGlyph : σ → Char → Option Glyph × σ) (utf32 : List Char)
    (height maxLineWidth : Int) (c : Char) (s s1 : TextLinesState σ)
    (h : textLinesStep32 getGlyph utf32 height maxLineWidth c s = some s1) :
    (s1.lineBegin = s.lineBegin ∧ s1.i = s.i + 1) ∨ (s1.lineBegin = s.i ∧ s1.i = s.i + 1) ∨
      (s.textLine ≠ utf32.length ∧ s1.lineBegin = s.textLine + 1 ∧ s1.i = s.textLine + 1) := by
  unfold textLinesStep32 at h
  simp only [] at h
  split_ifs at h
  all_goals first
    | (split at h
       · exact absurd h (by simp)
       · simp only [Option.some.injEq] at h; subst h; simp_all)
    | (simp only [Option.some.injEq] at h; subst h; simp_all)

theorem textLinesStep32_isSome (getGlyph : σ → Char → Option Glyph × σ) (utf32 : List Char)
    (height maxLineWidth : Int) (c : Char) (s : TextLinesState σ)
    (hb : s.lineBegin ≤ utf32.length) :
    ∃ s1, textLinesStep32 getGlyph utf32 height maxLineWidth c s = some s1 := by
  unfold textLinesStep32
  simp only [makeLine_eq _ _ _ _ _ hb]
  split_ifs <;> exact ⟨_, rfl⟩

theorem textLinesStep32_inv (getGlyph : σ → Char → Option Glyph × σ) (utf32 : List Char)
    (height maxLineWidth : Int) (c : Char) (s : TextLinesState σ)
    (hc : utf32[s.i]? = some c) (hinv : LinesInv utf32.length s) :
    ∃ s1, textLinesStep32 getGlyph utf32 height maxLineWidth c s = some s1 ∧
      LinesInv utf32.length s1 ∧
      walkRank utf32.length s1.i s1.textLine < walkRank utf32.length s.i s.textLine := by
  have hi := getElem?_some_lt hc
  obtain ⟨hw, hb1, hb2⟩ := hinv
  obtain ⟨s1, hs⟩ := textLinesStep32_isSome getGlyph utf32 height maxLineWidth c s (by omega)
  obtain ⟨h1, h2⟩ := walkMove_inv (textLinesStep32_move getGlyph utf32 height maxLineWidth c s s1 hs) hi hw
  refine ⟨s1, hs, ⟨h1, ?_⟩, h2⟩
  have h3 := hw.2.2
  rcases textLinesStep32_lineBegin getGlyph utf32 height maxLineWidth c s s1 hs with
    ⟨a, b⟩ | ⟨a, b⟩ | ⟨a0, a, b⟩
  · exact ⟨by omega, fun _ => by omega⟩
  · exact ⟨by omega, fun _ => by omega⟩
  · have := h3 a0
    exact ⟨by omega, fun _ => by omega⟩

theorem textLinesLoop32_total (getGlyph : σ → Char → Option Glyph × σ) (utf32 : List Char)
    (height maxLineWidth : Int) :
    ∀ (fuel : Nat) (s : TextLinesState σ), LinesInv utf32.length s →
      walkRank utf32.length s.i s.textLine ≤ fuel →
      ∃ s1, textLinesLoop32 getGlyph utf32 height maxLineWidth fuel s = some s1 ∧
        s1.i = utf32.length ∧ LinesInv utf32.length s1 := by
  intro fuel
  induction fuel with
  | zero =>
    intro s hinv hr
    unfold textLinesLoop32
    cases hc : utf32[s.i]? with
    | none =>
      refine ⟨s, rfl, ?_, hinv⟩
      have := List.getElem?_eq_none_iff.mp hc
      have := hinv.1.1
      omega
    | some c =>
      have := walkRank_pos (t := s.textLine) (getElem?_some_lt hc)
      omega
  | succ fuel ih =>
    intro s hinv hr
    unfold textLinesLoop32
    cases hc : utf32[s.i]? with
    | none =>
      refine ⟨s, rfl, ?_, hinv⟩
      have := List.getElem?_eq_none_iff.mp hc
      have := hinv.1.1
      omega
    | some c =>
      obtain ⟨s1, hs, h1, h2⟩ := textLinesStep32_inv getGlyph utf32 height maxLineWidth c s hc hinv
      simpa [hs] using ih s1 h1 (by omega)

theorem sim32_loop (getGlyph : σ → Char → Option Glyph × σ) (utf32 : List Char)
    (height maxLineWidth : Int) :
    ∀ (fuel : Nat) (ms ms1 : MeasureState σ) (ls : TextLinesState σ),
      Sim32 height ms ls → LinesInv utf32.length ls →
      measureLoop32 getGlyph utf32 height maxLineWidth fuel ms = some ms1 →
      ∃ ls1, textLinesLoop32 getGlyph utf32 height maxLineWidth fuel ls = some ls1 ∧
        Sim32 height ms1 ls1 ∧ LinesInv utf32.length ls1 := by
  intro fuel
  induction fuel with
  | zero =>
    intro ms ms1 ls hsim hinv h
    unfold measureLoop32 at h
    unfold textLinesLoop32
    rw [hsim.i] at h
    cases hc : utf32[ls.i]? with
    | none =>
      simp only [hc, Option.some.injEq] at h
      subst h
      exact ⟨ls, rfl, hsim, hinv⟩
    | some c => simp [hc] at h
  | succ fuel ih =>
    intro ms ms1 ls hsim hinv h
    unfold measureLoop32 at h
    unfold textLinesLoop32
    rw [hsim.i] at h
    cases hc : utf32[ls.i]? with
    | none =>
      simp only [hc, Option.some.injEq] at h
      subst h
      exact ⟨ls, rfl, hsim, hinv⟩
    | some c =>
      simp only [hc] at h
      obtain ⟨ls1, hs, hsim1⟩ :=
        sim32_step getGlyph utf32 height maxLineWidth c ms ls hsim (by have := hinv.2.1; have := hinv.1.1; omega)
      obtain ⟨ls2, hs2, hinv2, _⟩ := textLinesStep32_inv getGlyph utf32 height maxLineWidth c ls hc hinv
      rw [hs] at hs2
      simp only [Option.some.injEq] at hs2
      subst hs2
      simp only [hs]
      exact ih _ _ _ hsim1 hinv2 h

theorem init32_sim (utf32 : List Char) (height : Int) (sys : σ) :
    Sim32 height (MeasureState.init utf32 height sys) (TextLinesState.init utf32 height sys) := by
  constructor <;> simp [MeasureState.init, TextLinesState.init, maxWidth, stackedHeight]

theorem layout32_agree (getGlyph : σ → Char → Option Glyph × σ) (height maxLineWidth : Int)
    (text : String) (sys : σ) (hne : text ≠ "") :
    ∃ size lines sys1,
      measureLayout32 getGlyph height maxLineWidth text sys = some (size, sys1) ∧
      textLinesLayout32 getGlyph height maxLineWidth text sys = some (lines, sys1) ∧
      size.x = maxWidth lines ∧ size.y = stackedHeight (f32 height) lines.length := by
  have hpos := toList_length_pos hne
  obtain ⟨ms1, hm, _⟩ := measureLoop32_total getGlyph text.toList (f32 height) maxLineWidth
    (walkFuel text.toList.length) (MeasureState.init text.toList (f32 height) sys)
    (init_inv text.toList (f32 height) sys).1 (walkRank_init _)
  obtain ⟨ls1, hl, hsim, hinv⟩ := sim32_loop getGlyph text.toList (f32 height) maxLineWidth
    (walkFuel text.toList.length) _ ms1 _ (init32_sim text.toList (f32 height) sys)
    (init_inv text.toList (f32 height) sys) hm
  obtain ⟨ls2, hl2, hend, _⟩ := textLinesLoop32_total getGlyph text.toList (f32 height) maxLineWidth
    (walkFuel text.toList.length) (TextLinesState.init text.toList (f32 height) sys)
    (init_inv text.toList (f32 height) sys) (walkRank_init _)
  rw [hl] at hl2
  simp only [Option.some.injEq] at hl2
  subst hl2
  have hb := hinv.2.2 hpos
  have hne2 : ls1.i ≠ ls1.lineBegin := by omega
  unfold measureLayout32 textLinesLayout32
  simp only [hm, hl, hne2, ne_eq, not_false_eq_true, if_true,
    makeLine_eq _ _ _ _ _ (Nat.le_of_lt hb)]
  rw [hsim.sys]
  refine ⟨_, _, _, rfl, rfl, ?_, ?_⟩
  · simp [maxWidth_append, hsim.width, hsim.pos]
  · simp [hsim.pos, hsim.rows]

theorem measureLayout32_isSome (getGlyph : σ → Char → Option Glyph × σ)
    (height maxLineWidth : Int) (text : String) (sys : σ) :
    ∃ r, measureLayout32 getGlyph height maxLineWidth text sys = some r := by
  obtain ⟨ms1, hm, _⟩ := measureLoop32_total getGlyph text.toList (f32 height) maxLineWidth
    (walkFuel text.toList.length) (MeasureState.init text.toList (f32 height) sys)
    (init_inv text.toList (f32 height) sys).1 (walkRank_init _)
  unfold measureLayout32
  simp only [hm]
  exact ⟨_, rfl⟩

theorem textLinesLayout32_isSome (getGlyph : σ → Char → Option Glyph × σ)
    (height maxLineWidth : Int) (text : String) (sys : σ) :
    ∃ r, textLinesLayout32 getGlyph height maxLineWidth text sys = some r := by
  obtain ⟨ls1, hl, hend, hinv⟩ := textLinesLoop32_total getGlyph text.toList (f32 height) maxLineWidth
    (walkFuel text.toList.length) (TextLinesState.init text.toList (f32 height) sys)
    (init_inv text.toList (f32 height) sys) (walkRank_init _)
  unfold textLinesLayout32
  have hb : ls1.lineBegin ≤ text.toList.length := by have := hinv.2.1; omega
  simp only [hl, makeLine_eq _ _ _ _ _ hb]
  split_ifs <;> exact ⟨_, rfl⟩


theorem stackedHeight_exact (h : Int) (h0 : 0 ≤ h) :
    ∀ n : Nat, h * n ≤ 2 ^ 24 → stackedHeight h n = h * n := by
  intro n
  induction n using Nat.strong_induction_on with
  | _ n ih =>
    intro hb
    match n with
    | 0 => simp [stackedHeight]
    | 1 => simp [stackedHeight]
    | n + 2 =>
      have hle : h * ((n + 1 : Nat) : Int) ≤ h * ((n + 2 : Nat) : Int) :=
        mul_le_mul_of_nonneg_left (by push_cast; omega) h0
      have e := ih (n + 1) (by omega) (le_trans hle hb)
      rw [stackedHeight_succ, e]
      have e2 : h * ((n + 1 : Nat) : Int) + h = h * ((n + 2 : Nat) : Int) := by
        push_cast; ring
      rw [e2]
      apply f32_exact
      have hn : 0 ≤ h * ((n + 2 : Nat) : Int) := mul_nonneg h0 (by positivity)
      rw [abs_of_nonneg hn]
      exact hb

theorem handlers32_agree (H : HashCombine) (w : World) (text : String)
    (info : Info) (maxLineWidth : Int) (promise1 promise2 : Nat)
    (family : List (String × FT_Face)) (font : FT_Face)
    (hfamily : w.p.fontFaces.lookup info.family = some family)
    (hface : family.lookup info.face = some font) (hne : text ≠ "") :
    ∃ size lines w1,
      measure32 H w ⟨text, info, maxLineWidth, promise1⟩ = some (size, w1) ∧
      textLines32 H w ⟨text, info, maxLineWidth, promise2⟩ = some (lines, w1) ∧
      size.x = maxWidth lines ∧
      size.y = stackedHeight (f32 (font.sizeMetrics (staticCastInt info.size)).height)
        lines.length := by
  unfold measure32 textLines32
  simp only [hfamily, hface]
  by_cases herr : font.setPixelSizes (staticCastInt info.size) = 0
  · simp only [herr, if_true]
    exact layout32_agree _ _ _ _ _ hne
  · simp only [herr, if_false]
    exact ⟨_, _, _, rfl, rfl, by simp [maxWidth], by simp [stackedHeight]⟩

theorem measureLayout32_empty (getGlyph : σ → Char → Option Glyph × σ)
    (height maxLineWidth : Int) (sys : σ) :
    measureLayout32 getGlyph height maxLineWidth "" sys = some (⟨0, f32 height⟩, sys) := by
  rfl

theorem spread_nonneg (glyphs : List (Option Glyph)) : 0 ≤ spread glyphs := by
  unfold spread
  apply List.sum_nonneg
  intro v hv
  obtain ⟨a, _, rfl⟩ := List.mem_map.mp hv
  have hp : pixel = 64 := rfl
  have := abs_nonneg a
  omega

theorem spread_cons_none (glyphs : List (Option Glyph)) :
    spread (none :: glyphs) = spread glyphs := by
  simp [spread, advances]

theorem spread_cons_some (g : Glyph) (glyphs : List (Option Glyph)) :
    spread (some g :: glyphs) = |g.advance| + pixel + spread glyphs := by
  simp [spread, advances]

theorem glyphAdvance32_exact (g : Option Glyph) (rsb : Int)
    (h : ∀ glyph, g = some glyph → |glyph.advance| + pixel ≤ 2 ^ 24) :
    glyphAdvance32 g rsb = glyphAdvance g rsb := by
  cases g with
  | none => rfl
  | some glyph =>
    have hb := h glyph rfl
    have hp : pixel = 64 := rfl
    have e0 : f32 glyph.advance = glyph.advance :=
      f32_exact _ (by have := abs_nonneg glyph.advance; omega)
    have e1 : f32 (glyph.advance - pixel) = glyph.advance - pixel := by
      apply f32_exact
      have := abs_sub glyph.advance pixel
      have hp2 : |pixel| = 64 := by rw [hp]; rfl
      omega
    have e2 : f32 (glyph.advance + pixel) = glyph.advance + pixel := by
      apply f32_exact
      have := abs_add glyph.advance pixel
      have hp2 : |pixel| = 64 := by rw [hp]; rfl
      omega
    unfold glyphAdvance32 glyphAdvance
    simp only [e0, e1, e2]

theorem glyphAdvance_abs_le (g : Option Glyph) (rsb : Int) :
    |(glyphAdvance g rsb).1| ≤ spread [g] := by
  have hp : pixel = 64 := rfl
  cases g with
  | none => simp [glyphAdvance, spread, advances]
  | some glyph =>
    rw [glyphAdvance_some, spread_cons_some]
    have h0 : spread [] = 0 := by simp [spread, advances]
    rw [h0]
    simp only []
    have hk : |kerningCorrection rsb glyph| ≤ 64 := by
      unfold kerningCorrection
      split_ifs <;> simp [hp]
    have := abs_add glyph.advance (kerningCorrection rsb glyph)
    omega

theorem penRun32_exact (getGlyph : σ → Char → Option Glyph × σ) :
    ∀ (cs : List Char) (sys : σ) (rsb x : Int),
      |x| + spread (lookups getGlyph sys cs) ≤ 2 ^ 24 →
      penRun32 getGlyph sys rsb x cs = penRun getGlyph sys rsb x cs := by
  intro cs
  induction cs with
  | nil => intro sys rsb x _; rfl
  | cons c cs ih =>
    intro sys rsb x hb
    have hp : pixel = 64 := rfl
    unfold lookups at hb
    have hrest := spread_nonneg (lookups getGlyph (getGlyph sys c).2 cs)
    have hx := abs_nonneg x
    have hg : ∀ glyph, (getGlyph sys c).1 = some glyph → |glyph.advance| + pixel ≤ 2 ^ 24 := by
      intro glyph e
      rw [e, spread_cons_some] at hb
      omega
    have hsplit : spread ((getGlyph sys c).1 :: lookups getGlyph (getGlyph sys c).2 cs) =
        spread [(getGlyph sys c).1] + spread (lookups getGlyph (getGlyph sys c).2 cs) := by
      cases (getGlyph sys c).1 with
      | none => simp [spread_cons_none, spread, advances]
      | some glyph => simp [spread_cons_some, spread, advances]
    rw [hsplit] at hb
    have ha := glyphAdvance_abs_le (getGlyph sys c).1 rsb
    have ha0 := abs_nonneg (glyphAdvance (getGlyph sys c).1 rsb).1
    unfold penRun32 penRun
    rw [glyphAdvance32_exact _ rsb hg]
    by_cases hn : isNewline c = true
    · simp only [hn, if_true]
      apply ih
      simp only [abs_zero, zero_add]
      omega
    · simp only [hn, if_false]
      have hsum := abs_add x (glyphAdvance (getGlyph sys c).1 rsb).1
      have e : f32 (x + (glyphAdvance (getGlyph sys c).1 rsb).1) =
          x + (glyphAdvance (getGlyph sys c).1 rsb).1 := f32_exact _ (by omega)
      rw [e]
      apply ih
      omega

theorem measureLoop32_straight (getGlyph : σ → Char → Option Glyph × σ)
    (height maxLineWidth : Int) :
    ∀ (cs pre : List Char) (fuel : Nat) (s : MeasureState σ),
      s.i = pre.length → s.textLine = (pre ++ cs).length → cs.length ≤ fuel →
      (∀ c ∈ cs, isSpace c = false ∧ isNewline c = false) →
      (∀ p ∈ penPositions32 getGlyph s.sys s.rsbDeltaPrev s.pos.x cs, p < maxLineWidth) →
      ∃ s1, measureLoop32 getGlyph (pre ++ cs) height maxLineWidth fuel s = some s1 ∧
        s1.size = s.size ∧ s1.pos.y = s.pos.y ∧
        s1.pos.x = (penRun32 getGlyph s.sys s.rsbDeltaPrev s.pos.x cs).2.2 ∧
        s1.sys = (penRun32 getGlyph s.sys s.rsbDeltaPrev s.pos.x cs).1 := by
  intro cs
  induction cs with
  | nil =>
    intro pre fuel s hi _ _ _ _
    refine ⟨s, ?_, rfl, rfl, rfl, rfl⟩
    unfold measureLoop32
    have : (pre ++ ([] : List Char))[s.i]? = none := by
      rw [List.getElem?_eq_none_iff]
      simp [hi]
    simp only [this]
  | cons c cs ih =>
    intro pre fuel s hi ht hf hplain hfit
    obtain ⟨hsp, hnl⟩ := hplain c (List.mem_cons_self _ _)
    have hc : (pre ++ c :: cs)[s.i]? = some c := by
      rw [hi, List.getElem?_append_right (le_refl _)]
      simp
    cases fuel with
    | zero => simp at hf
    | succ fuel =>
      have hpen : f32 (s.pos.x + (glyphAdvance32 (getGlyph s.sys c).1 s.rsbDeltaPrev).1)
          < maxLineWidth := by
        apply hfit
        unfold penPositions32
        simp [hnl]
      have hstep : measureStep32 getGlyph (pre ++ c :: cs) height maxLineWidth c s =
          { s with
            sys := (getGlyph s.sys c).2
            pos := ⟨f32 (s.pos.x + (glyphAdvance32 (getGlyph s.sys c).1 s.rsbDeltaPrev).1),
              s.pos.y⟩
            rsbDeltaPrev := (glyphAdvance32 (getGlyph s.sys c).1 s.rsbDeltaPrev).2
            i := s.i + 1 } := by
        unfold measureStep32
        simp only [hnl, hsp, Bool.false_eq_true, if_false, Bool.not_false, if_true, false_and]
        rw [if_neg (by intro h; exact absurd h.2 (not_le.mpr hpen))]
      unfold measureLoop32
      simp only [hc, hstep]
      have e : pre ++ c :: cs = (pre ++ [c]) ++ cs := by simp
      have := ih (pre ++ [c]) fuel
        { s with
          sys := (getGlyph s.sys c).2
          pos := ⟨f32 (s.pos.x + (glyphAdvance32 (getGlyph s.sys c).1 s.rsbDeltaPrev).1),
            s.pos.y⟩
          rsbDeltaPrev := (glyphAdvance32 (getGlyph s.sys c).1 s.rsbDeltaPrev).2
          i := s.i + 1 }
        (by simp [hi]) (by rw [← e]; exact ht) (by simpa using hf)
        (fun d hd => hplain d (List.mem_cons_of_mem _ hd))
        (by
          intro p hp
          apply hfit
          unfold penPositions32
          simp only [hnl, Bool.false_eq_true, if_false]
          exact List.mem_cons_of_mem _ hp)
      rw [← e] at this
      obtain ⟨s1, h1, h2, h3, h4, h5⟩ := this
      refine ⟨s1, h1, h2, h3, ?_, ?_⟩
      · rw [h4]
        conv_rhs => unfold penRun32
        simp only [hnl, Bool.false_eq_true, if_false]
      · rw [h5]
        conv_rhs => unfold penRun32
        simp only [hnl, Bool.false_eq_true, if_false]

theorem measureLayout32_straight (getGlyph : σ → Char → Option Glyph × σ)
    (height maxLineWidth : Int) (text : String) (sys : σ)
    (hplain : ∀ c ∈ text.toList, isSpace c = false ∧ isNewline c = false)
    (hfit : ∀ p ∈ penPositions32 getGlyph sys 0 0 text.toList, p < maxLineWidth) :
    measureLayout32 getGlyph height maxLineWidth text sys =
      some (⟨max 0 (penWidth32 getGlyph sys text.toList), f32 height⟩,
        (penRun32 getGlyph sys 0 0 text.toList).1) := by
  obtain ⟨s1, h1, h2, h3, h4, h5⟩ :=
    measureLoop32_straight getGlyph (f32 height) maxLineWidth text.toList []
      (walkFuel text.toList.length) (MeasureState.init text.toList (f32 height) sys)
      rfl (by simp [MeasureState.init]) (by unfold walkFuel; nlinarith) hplain hfit
  simp only [List.nil_append] at h1
  unfold measureLayout32
  simp only [h1]
  rw [h2, h3, h4, h5]
  rfl

/-! ### The worker thread on the requests as passed -/

theorem measureRaw_isSome (H : HashCombine) (w : World) (request : RawMeasureRequest)
    (h : (from_bytes request.text).isSome = true) :
    ∃ r, measureRaw H w request = some r := by
  obtain ⟨utf32, hu⟩ := Option.isSome_iff_exists.mp h
  unfold measureRaw
  cases w.p.fontFaces.lookup request.info.family with
  | none => exact ⟨_, rfl⟩
  | some family =>
    simp only []
    cases family.lookup request.info.face with
    | none => exact ⟨_, rfl⟩
    | some font =>
      simp only [hu]
      split_ifs
      · exact measureLayout32_isSome _ _ _ _ _
      · exact ⟨_, rfl⟩

theorem textLinesRaw_isSome (H : HashCombine) (w : World) (request : RawTextLinesRequest)
    (h : (from_bytes request.text).isSome = true) :
    ∃ r, textLinesRaw H w request = some r := by
  obtain ⟨utf32, hu⟩ := Option.isSome_iff_exists.mp h
  unfold textLinesRaw
  cases w.p.fontFaces.lookup request.info.family with
  | none => exact ⟨_, rfl⟩
  | some family =>
    simp only []
    cases family.lookup request.info.face with
    | none => exact ⟨_, rfl⟩
    | some font =>
      simp only [hu]
      split_ifs
      · exact textLinesLayout32_isSome _ _ _ _ _
      · exact ⟨_, rfl⟩

theorem getGlyphsRaw_isSome (H : HashCombine) (w : World) (request : RawGlyphsRequest)
    (h : (from_bytes request.text).isSome = true) :
    ∃ r, getGlyphsRaw H w request = some r := by
  obtain ⟨utf32, hu⟩ := Option.isSome_iff_exists.mp h
  unfold getGlyphsRaw
  cases w.p.fontFaces.lookup request.info.family with
  | none => exact ⟨_, rfl⟩
  | some family =>
    simp only []
    cases family.lookup request.info.face with
    | none => exact ⟨_, rfl⟩
    | some font =>
      simp only [hu]
      exact ⟨_, rfl⟩

theorem metricsLoop_spec :
    ∀ (reqs : List MetricsRequest) (t : Thread),
      metricsLoop reqs t =
        { t with resolved := t.resolved ++
            reqs.map (fun request => .metrics request.promise (getMetrics32 t.w request)) } := by
  intro reqs
  induction reqs with
  | nil => intro t; simp [metricsLoop]
  | cons r rest ih =>
    intro t
    unfold metricsLoop
    rw [ih]
    simp

theorem measureLoopRaw_spec (H : HashCombine) :
    ∀ (reqs : List RawMeasureRequest) (t : Thread), ∃ events w1,
      outcome (measureLoopRaw H reqs t) =
        { t with w := w1, resolved := t.resolved ++ events } ∧
      events.map Resolved.tag <+: reqs.map (fun request => (Kind.measure, request.promise)) ∧
      (completed (measureLoopRaw H reqs t) = true →
        events.map Resolved.tag = reqs.map (fun request => (Kind.measure, request.promise))) ∧
      ((∀ request ∈ reqs, (from_bytes request.text).isSome = true) →
        completed (measureLoopRaw H reqs t) = true) := by
  intro reqs
  induction reqs with
  | nil =>
    intro t
    exact ⟨[], t.w, by simp [measureLoopRaw, outcome], by simp, by simp, by simp [measureLoopRaw, completed]⟩
  | cons r rest ih =>
    intro t
    unfold measureLoopRaw
    cases hm : measureRaw H t.w r with
    | none =>
      refine ⟨[], t.w, by simp [outcome], by simp, by simp [completed], ?_⟩
      intro hd
      obtain ⟨v, hv⟩ := measureRaw_isSome H t.w r (hd r (List.mem_cons_self _ _))
      rw [hm] at hv
      exact absurd hv (by simp)
    | some v =>
      obtain ⟨size, w1⟩ := v
      simp only []
      obtain ⟨events, w2, h1, h2, h3, h4⟩ :=
        ih { t with w := w1, resolved := t.resolved ++ [.measure r.promise size] }
      refine ⟨.measure r.promise size :: events, w2, ?_, ?_, ?_, ?_⟩
      · rw [h1]
        simp
      · simpa [Resolved.tag] using h2
      · intro hc
        simpa [Resolved.tag] using h3 hc
      · intro hd
        exact h4 (fun request hr => hd request (List.mem_cons_of_mem _ hr))

theorem textLinesLoopRaw_spec (H : HashCombine) :
    ∀ (reqs : List RawTextLinesRequest) (t : Thread), ∃ events w1,
      outcome (textLinesLoopRaw H reqs t) =
        { t with w := w1, resolved := t.resolved ++ events } ∧
      events.map Resolved.tag <+: reqs.map (fun request => (Kind.textLines, request.promise)) ∧
      (completed (textLinesLoopRaw H reqs t) = true →
        events.map Resolved.tag =
          reqs.map (fun request => (Kind.textLines, request.promise))) ∧
      ((∀ request ∈ reqs, (from_bytes request.text).isSome = true) →
        completed (textLinesLoopRaw H reqs t) = true) := by
  intro reqs
  induction reqs with
  | nil =>
    intro t
    exact ⟨[], t.w, by simp [textLinesLoopRaw, outcome], by simp, by simp,
      by simp [textLinesLoopRaw, completed]⟩
  | cons r rest ih =>
    intro t
    unfold textLinesLoopRaw
    cases hm : textLinesRaw H t.w r with
    | none =>
      refine ⟨[], t.w, by simp [outcome], by simp, by simp [completed], ?_⟩
      intro hd
      obtain ⟨v, hv⟩ := textLinesRaw_isSome H t.w r (hd r (List.mem_cons_self _ _))
      rw [hm] at hv
      exact absurd hv (by simp)
    | some v =>
      obtain ⟨lines, w1⟩ := v
      simp only []
      obtain ⟨events, w2, h1, h2, h3, h4⟩ :=
        ih { t with w := w1, resolved := t.resolved ++ [.textLines r.promise lines] }
      refine ⟨.textLines r.promise lines :: events, w2, ?_, ?_, ?_, ?_⟩
      · rw [h1]
        simp
      · simpa [Resolved.tag] using h2
      · intro hc
        simpa [Resolved.tag] using h3 hc
      · intro hd
        exact h4 (fun request hr => hd request (List.mem_cons_of_mem _ hr))

theorem glyphsLoopRaw_spec (H : HashCombine) :
    ∀ (reqs : List RawGlyphsRequest) (t : Thread), ∃ events w1,
      outcome (glyphsLoopRaw H reqs t) =
        { t with w := w1, resolved := t.resolved ++ events } ∧
      events.map Resolved.tag <+: reqs.map (fun request => (Kind.glyphs, request.promise)) ∧
      (completed (glyphsLoopRaw H reqs t) = true →
        events.map Resolved.tag = reqs.map (fun request => (Kind.glyphs, request.promise))) ∧
      ((∀ request ∈ reqs, (from_bytes request.text).isSome = true) →
        completed (glyphsLoopRaw H reqs t) = true) := by
  intro reqs
  induction reqs with
  | nil =>
    intro t
    exact ⟨[], t.w, by simp [glyphsLoopRaw, outcome], by simp, by simp,
      by simp [glyphsLoopRaw, completed]⟩
  | cons r rest ih =>
    intro t
    unfold glyphsLoopRaw
    cases hm : getGlyphsRaw H t.w r with
    | none =>
      refine ⟨[], t.w, by simp [outcome], by simp, by simp [completed], ?_⟩
      intro hd
      obtain ⟨v, hv⟩ := getGlyphsRaw_isSome H t.w r (hd r (List.mem_cons_self _ _))
      rw [hm] at hv
      exact absurd hv (by simp)
    | some v =>
      obtain ⟨glyphs, w1⟩ := v
      simp only []
      obtain ⟨events, w2, h1, h2, h3, h4⟩ :=
        ih { t with w := w1, resolved := t.resolved ++ [.glyphs r.promise glyphs] }
      refine ⟨.glyphs r.promise glyphs :: events, w2, ?_, ?_, ?_, ?_⟩
      · rw [h1]
        simp
      · simpa [Resolved.tag] using h2
      · intro hc
        simpa [Resolved.tag] using h3 hc
      · intro hd
        exact h4 (fun request hr => hd request (List.mem_cons_of_mem _ hr))

theorem metricsStage_spec (t : Thread) :
    (if t.metricsRequests.length ≠ 0 then _handleMetricsRequestsRaw t else t) =
      { t with
        resolved := t.resolved ++
          t.metricsRequests.map (fun request => .metrics request.promise (getMetrics32 t.w request))
        metricsRequests := [] } := by
  by_cases h : t.metricsRequests.length ≠ 0
  · rw [if_pos h]
    unfold _handleMetricsRequestsRaw
    rw [metricsLoop_spec]
  · rw [if_neg h]
    have e : t.metricsRequests = [] := List.length_eq_zero.mp (not_not.mp h)
    rcases t with ⟨w, a, b, c, d, m, z, l, g, r⟩
    simp only at e
    subst e
    simp

theorem measureStage_spec (H : HashCombine) (t : Thread) :
    ∃ events w1,
      outcome (if t.measureRequests.length ≠ 0 then _handleMeasureRequestsRaw H t else .ok t) =
        { t with
          w := w1
          resolved := t.resolved ++ events
          measureRequests :=
            if completed (if t.measureRequests.length ≠ 0 then _handleMeasureRequestsRaw H t
              else .ok t) = true then [] else t.measureRequests } ∧
      events.map Resolved.tag <+:
        t.measureRequests.map (fun request => (Kind.measure, request.promise)) ∧
      (completed (if t.measureRequests.length ≠ 0 then _handleMeasureRequestsRaw H t
          else .ok t) = true →
        events.map Resolved.tag =
          t.measureRequests.map (fun request => (Kind.measure, request.promise))) ∧
      ((∀ request ∈ t.measureRequests, (from_bytes request.text).isSome = true) →
        completed (if t.measureRequests.length ≠ 0 then _handleMeasureRequestsRaw H t
          else .ok t) = true) := by
  by_cases h : t.measureRequests.length ≠ 0
  · rw [if_pos h]
    obtain ⟨events, w1, h1, h2, h3, h4⟩ := measureLoopRaw_spec H t.measureRequests t
    unfold _handleMeasureRequestsRaw
    cases hl : measureLoopRaw H t.measureRequests t with
    | error e =>
      rw [hl] at h1 h3 h4
      simp only [outcome] at h1
      refine ⟨events, w1, ?_, h2, ?_, ?_⟩
      · simp only [outcome, completed, Bool.false_eq_true, if_false]
        rw [h1]
      · intro hc
        exact absurd hc (by simp [completed])
      · intro hd
        exact absurd (h4 hd) (by simp [completed])
    | ok t1 =>
      rw [hl] at h1 h3
      simp only [outcome] at h1
      refine ⟨events, w1, ?_, h2, ?_, ?_⟩
      · simp only [outcome, completed, if_true]
        rw [h1]
      · intro _
        exact h3 rfl
      · intro _
        rfl
  · rw [if_neg h]
    have e : t.measureRequests = [] := List.length_eq_zero.mp (not_not.mp h)
    refine ⟨[], t.w, ?_, by simp, by simp [e], by simp [completed]⟩
    rcases t with ⟨w, a, b, c, d, m, z, l, g, r⟩
    simp only at e
    subst e
    simp [outcome, completed]

theorem textLinesStage_spec (H : HashCombine) (t : Thread) :
    ∃ events w1,
      outcome (if t.textLinesRequests.length ≠ 0 then _handleTextLinesRequestsRaw H t
          else .ok t) =
        { t with
          w := w1
          resolved := t.resolved ++ events
          textLinesRequests :=
            if completed (if t.textLinesRequests.length ≠ 0 then
                _handleTextLinesRequestsRaw H t else .ok t) = true then []
            else t.textLinesRequests } ∧
      events.map Resolved.tag <+:
        t.textLinesRequests.map (fun request => (Kind.textLines, request.promise)) ∧
      (completed (if t.textLinesRequests.length ≠ 0 then _handleTextLinesRequestsRaw H t
          else .ok t) = true →
        events.map Resolved.tag =
          t.textLinesRequests.map (fun request => (Kind.textLines, request.promise))) ∧
      ((∀ request ∈ t.textLinesRequests, (from_bytes request.text).isSome = true) →
        completed (if t.textLinesRequests.length ≠ 0 then _handleTextLinesRequestsRaw H t
          else .ok t) = true) := by
  by_cases h : t.textLinesRequests.length ≠ 0
  · rw [if_pos h]
    obtain ⟨events, w1, h1, h2, h3, h4⟩ := textLinesLoopRaw_spec H t.textLinesRequests t
    unfold _handleTextLinesRequestsRaw
    cases hl : textLinesLoopRaw H t.textLinesRequests t with
    | error e =>
      rw [hl] at h1 h3 h4
      simp only [outcome] at h1
      refine ⟨events, w1, ?_, h2, ?_, ?_⟩
      · simp only [outcome, completed, Bool.false_eq_true, if_false]
        rw [h1]
      · intro hc
        exact absurd hc (by simp [completed])
      · intro hd
        exact absurd (h4 hd) (by simp [completed])
    | ok t1 =>
      rw [hl] at h1 h3
      simp only [outcome] at h1
      refine ⟨events, w1, ?_, h2, ?_, ?_⟩
      · simp only [outcome, completed, if_true]
        rw [h1]
      · intro _
        exact h3 rfl
      · intro _
        rfl
  · rw [if_neg h]
    have e : t.textLinesRequests = [] := List.length_eq_zero.mp (not_not.mp h)
    refine ⟨[], t.w, ?_, by simp, by simp [e], by simp [completed]⟩
    rcases t with ⟨w, a, b, c, d, m, z, l, g, r⟩
    simp only at e
    subst e
    simp [outcome, completed]

theorem glyphsStage_spec (H : HashCombine) (t : Thread) :
    ∃ events w1,
      outcome (if t.glyphsRequests.length ≠ 0 then _handleGlyphsRequestsRaw H t else .ok t) =
        { t with
          w := w1
          resolved := t.resolved ++ events
          glyphsRequests :=
            if completed (if t.glyphsRequests.length ≠ 0 then _handleGlyphsRequestsRaw H t
              else .ok t) = true then [] else t.glyphsRequests } ∧
      events.map Resolved.tag <+:
        t.glyphsRequests.map (fun request => (Kind.glyphs, request.promise)) ∧
      (completed (if t.glyphsRequests.length ≠ 0 then _handleGlyphsRequestsRaw H t
          else .ok t) = true →
        events.map Resolved.tag =
          t.glyphsRequests.map (fun request => (Kind.glyphs, request.promise))) ∧
      ((∀ request ∈ t.glyphsRequests, (from_bytes request.text).isSome = true) →
        completed (if t.glyphsRequests.length ≠ 0 then _handleGlyphsRequestsRaw H t
          else .ok t) = true) := by
  by_cases h : t.glyphsRequests.length ≠ 0
  · rw [if_pos h]
    obtain ⟨events, w1, h1, h2, h3, h4⟩ := glyphsLoopRaw_spec H t.glyphsRequests t
    unfold _handleGlyphsRequestsRaw
    cases hl : glyphsLoopRaw H t.glyphsRequests t with
    | error e =>
      rw [hl] at h1 h3 h4
      simp only [outcome] at h1
      refine ⟨events, w1, ?_, h2, ?_, ?_⟩
      · simp only [outcome, completed, Bool.false_eq_true, if_false]
        rw [h1]
      · intro hc
        exact absurd hc (by simp [completed])
      · intro hd
        exact absurd (h4 hd) (by simp [completed])
    | ok t1 =>
      rw [hl] at h1 h3
      simp only [outcome] at h1
      refine ⟨events, w1, ?_, h2, ?_, ?_⟩
      · simp only [outcome, completed, if_true]
        rw [h1]
      · intro _
        exact h3 rfl
      · intro _
        rfl
  · rw [if_neg h]
    have e : t.glyphsRequests = [] := List.length_eq_zero.mp (not_not.mp h)
    refine ⟨[], t.w, ?_, by simp, by simp [e], by simp [completed]⟩
    rcases t with ⟨w, a, b, c, d, m, z, l, g, r⟩
    simp only at e
    subst e
    simp [outcome, completed]

theorem workerIterationRaw_spec (H : HashCombine) (t : Thread) :
    ∃ events,
      (outcome (workerIterationRaw H t)).resolved = t.resolved ++ events ∧
      events.map Resolved.tag <+: handlerOrder t ∧
      (completed (workerIterationRaw H t) = true →
        events.map Resolved.tag = handlerOrder t ∧
        (outcome (workerIterationRaw H t)).metricsQueue = [] ∧
        (outcome (workerIterationRaw H t)).measureQueue = [] ∧
        (outcome (workerIterationRaw H t)).textLinesQueue = [] ∧
        (outcome (workerIterationRaw H t)).glyphsQueue = [] ∧
        (outcome (workerIterationRaw H t)).metricsRequests = [] ∧
        (outcome (workerIterationRaw H t)).measureRequests = [] ∧
        (outcome (workerIterationRaw H t)).textLinesRequests = [] ∧
        (outcome (workerIterationRaw H t)).glyphsRequests = []) ∧
      (Decodable t → completed (workerIterationRaw H t) = true) := by
  obtain ⟨t1, ht1⟩ : ∃ t1, t1 = (if (drainRaw t).metricsRequests.length ≠ 0 then
      _handleMetricsRequestsRaw (drainRaw t) else drainRaw t) := ⟨_, rfl⟩
  have e1 := ht1
  rw [metricsStage_spec] at e1
  obtain ⟨ms, hms⟩ : ∃ ms : List Resolved, ms =
      t.metricsQueue.map (fun request => .metrics request.promise (getMetrics32 t.w request)) :=
    ⟨_, rfl⟩
  have hmtag : ms.map Resolved.tag =
      t.metricsQueue.map (fun request => (Kind.metrics, request.promise)) := by
    rw [hms]
    simp [Resolved.tag, List.map_map, Function.comp_def]
  have r1 : t1.resolved = t.resolved ++ ms := by rw [e1, hms]; rfl
  have q1 : t1.metricsQueue = [] ∧ t1.measureQueue = [] ∧ t1.textLinesQueue = [] ∧
      t1.glyphsQueue = [] ∧ t1.metricsRequests = [] := by
    rw [e1]; exact ⟨rfl, rfl, rfl, rfl, rfl⟩
  have z1 : t1.measureRequests = t.measureQueue := by rw [e1]; rfl
  have l1 : t1.textLinesRequests = t.textLinesQueue := by rw [e1]; rfl
  have g1 : t1.glyphsRequests = t.glyphsQueue := by rw [e1]; rfl
  unfold workerIterationRaw
  simp only []
  rw [← ht1]
  unfold handlerOrder
  rw [← hmtag]
  obtain ⟨zs, w2, hz1, hz2, hz3, hz4⟩ := measureStage_spec H t1
  rw [z1] at hz2
  cases hr2 : (if t1.measureRequests.length ≠ 0 then _handleMeasureRequestsRaw H t1
      else Except.ok t1) with
  | error e =>
    rw [hr2] at hz1 hz4
    simp only [outcome] at hz1
    rw [z1] at hz4
    simp only [outcome, completed]
    refine ⟨ms ++ zs, ?_, ?_, by simp, ?_⟩
    · rw [hz1]
      simp [r1]
    · rw [List.map_append, List.append_assoc, List.append_assoc]
      exact (List.prefix_append_right_inj _).mpr (hz2.trans (List.prefix_append _ _))
    · intro hd
      exact absurd (hz4 hd.1) (by simp [completed])
  | ok t2 =>
    rw [hr2] at hz1 hz3
    simp only [outcome, completed, if_true] at hz1 hz3
    rw [z1] at hz3
    have hz := hz3 trivial
    simp only []
    obtain ⟨ls, w3, hl1, hl2, hl3, hl4⟩ := textLinesStage_spec H t2
    have l2 : t2.textLinesRequests = t.textLinesQueue := by rw [hz1]; exact l1
    have g2 : t2.glyphsRequests = t.glyphsQueue := by rw [hz1]; exact g1
    rw [l2] at hl2
    cases hr3 : (if t2.textLinesRequests.length ≠ 0 then _handleTextLinesRequestsRaw H t2
        else Except.ok t2) with
    | error e =>
      rw [hr3] at hl1 hl4
      simp only [outcome] at hl1
      rw [l2] at hl4
      simp only [outcome, completed]
      refine ⟨ms ++ zs ++ ls, ?_, ?_, by simp, ?_⟩
      · rw [hl1, hz1]
        simp [r1]
      · rw [List.map_append, List.map_append, hz, List.append_assoc, List.append_assoc,
          List.append_assoc]
        exact (List.prefix_append_right_inj _).mpr
          ((List.prefix_append_right_inj _).mpr (hl2.trans (List.prefix_append _ _)))
      · intro hd
        exact absurd (hl4 hd.2.1) (by simp [completed])
    | ok t3 =>
      rw [hr3] at hl1 hl3
      simp only [outcome, completed, if_true] at hl1 hl3
      rw [l2] at hl3
      have hl := hl3 trivial
      simp only []
      obtain ⟨gs, w4, hg1, hg2, hg3, hg4⟩ := glyphsStage_spec H t3
      have g3 : t3.glyphsRequests = t.glyphsQueue := by rw [hl1]; exact g2
      rw [g3] at hg2
      refine ⟨ms ++ zs ++ ls ++ gs, ?_, ?_, ?_, ?_⟩
      · rw [hg1, hl1, hz1]
        simp [r1]
      · rw [List.map_append, List.map_append, List.map_append, hz, hl]
        exact (List.prefix_append_right_inj _).mpr hg2
      · intro hc
        have hg := hg3 hc
        rw [g3] at hg
        refine ⟨?_, ?_⟩
        · rw [List.map_append, List.map_append, List.map_append, hz, hl, hg]
        · rw [hg1]
          simp only [hc, if_true]
          rw [hl1, hz1]
          simp [q1]
      · intro hd
        exact hg4 (by rw [g3]; exact hd.2.2)

/-! ### Colliding identities inside one font -/

theorem renderGlyph_uid (fontFaces : List (String × List (String × FT_Face)))
    (code : Nat) (info : Info) (uid uid1 : UID) (rsb : Int) :
    glyphAdvance (renderGlyph fontFaces ⟨code, info, uid⟩) rsb =
      glyphAdvance (renderGlyph fontFaces ⟨code, info, uid1⟩) rsb := by
  unfold renderGlyph
  simp only []
  cases fontFaces.lookup info.family with
  | none => rfl
  | some family =>
    simp only []
    cases family.lookup info.face with
    | none => rfl
    | some font =>
      simp only []
      split_ifs
      · rfl
      · cases font.renderGlyph (staticCastInt info.size) (font.getCharIndex code) with
        | none => rfl
        | some slot => rfl
      · rfl

theorem lookupGlyph_parts (H : HashCombine) (w : World) (info : Info) (c : Char) :
    (lookupGlyph H info w c).1 =
      (getGlyph w.p (GlyphInfo.GlyphInfo H w.uids c.toNat info).1).1 ∧
    (lookupGlyph H info w c).2 =
      { w with
        p := (getGlyph w.p (GlyphInfo.GlyphInfo H w.uids c.toNat info).1).2
        uids := (GlyphInfo.GlyphInfo H w.uids c.toNat info).2 } := by
  unfold lookupGlyph
  exact ⟨rfl, rfl⟩

theorem ctor_uid (H : HashCombine) (r : UIDRegistry) (code : Nat) (info : Info) :
    (GlyphInfo.GlyphInfo H r code info).1 =
      ⟨code, info, (GlyphInfo.GlyphInfo H r code info).1.uid⟩ ∧
    (r.map.lookup (glyphHash H code info) = none →
      (GlyphInfo.GlyphInfo H r code info).1.uid = r.next ∧
      (GlyphInfo.GlyphInfo H r code info).2.next = r.next + 1) ∧
    (∀ u, r.map.lookup (glyphHash H code info) = some u →
      (GlyphInfo.GlyphInfo H r code info).1.uid = u) := by
  rw [glyphInfo_ctor_eq]
  cases hl : r.map.lookup (glyphHash H code info) with
  | none => exact ⟨rfl, fun _ => ⟨rfl, rfl⟩, fun u h => absurd h (by simp)⟩
  | some u0 =>
    refine ⟨rfl, fun h => absurd h (by simp), fun u h => ?_⟩
    simp only [Option.some.injEq] at h
    exact h

theorem cacheSound_lookup (H : HashCombine) (info : Info) (cs : List Char) (w : World)
    (hs : CacheSound H info cs w) (c : Char) (hc : c ∈ cs) :
    ∃ uid, (lookupGlyph H info w c).1 = renderGlyph w.p.fontFaces ⟨c.toNat, info, uid⟩ := by
  obtain ⟨hreg, hkeys, _, hglyph⟩ := hs
  obtain ⟨e1, _⟩ := lookupGlyph_parts H w info c
  obtain ⟨hgi, hnone, hsome⟩ := ctor_uid H w.uids c.toNat info
  refine ⟨(GlyphInfo.GlyphInfo H w.uids c.toNat info).1.uid, ?_⟩
  rw [e1, hgi, getGlyph_eq]
  simp only []
  cases hcache : w.p.glyphCache.lookup (GlyphInfo.GlyphInfo H w.uids c.toNat info).1.uid with
  | some g =>
    simp only []
    cases hl : w.uids.map.lookup (glyphHash H c.toNat info) with
    | none =>
      have := hkeys _ g hcache
      rw [(hnone hl).1] at this
      exact absurd this (Nat.lt_irrefl _)
    | some u =>
      have hu := hsome u hl
      rw [hu] at hcache ⊢
      exact (hglyph c hc u g hl hcache).symm
  | none =>
    simp only []
    cases renderGlyph w.p.fontFaces
      ⟨c.toNat, info, (GlyphInfo.GlyphInfo H w.uids c.toNat info).1.uid⟩ with
    | none => rfl
    | some out => rfl

theorem lookup_append_of_none {κ ν : Type} [BEq κ] (m m1 : List (κ × ν)) (k : κ)
    (h : m.lookup k = none) : (m ++ m1).lookup k = m1.lookup k := by
  induction m with
  | nil => rfl
  | cons e rest ih =>
    rcases e with ⟨k0, v0⟩
    simp only [List.cons_append, List.lookup] at h ⊢
    cases hb : k == k0 with
    | true => simp [hb] at h
    | false => simp only [hb] at h ⊢; exact ih h

theorem getGlyph_cache (p : Private) (info : GlyphInfo) :
    (getGlyph p info).2.fontFaces = p.fontFaces ∧
    ((∃ g, p.glyphCache.lookup info.uid = some g ∧ (getGlyph p info).2.glyphCache = p.glyphCache) ∨
      (p.glyphCache.lookup info.uid = none ∧ renderGlyph p.fontFaces info = none ∧
        (getGlyph p info).2.glyphCache = p.glyphCache) ∨
      (∃ out, p.glyphCache.lookup info.uid = none ∧ renderGlyph p.fontFaces info = some out ∧
        (getGlyph p info).2.glyphCache = mapSet p.glyphCache info.uid out)) := by
  refine ⟨getGlyph_fontFaces p info, ?_⟩
  rw [getGlyph_eq]
  cases hc : p.glyphCache.lookup info.uid with
  | some g => exact Or.inl ⟨g, rfl, rfl⟩
  | none =>
    cases hr : renderGlyph p.fontFaces info with
    | none => exact Or.inr (Or.inl ⟨rfl, rfl, rfl⟩)
    | some out => exact Or.inr (Or.inr ⟨out, rfl, rfl, rfl⟩)

theorem cacheSound_step (H : HashCombine) (info : Info) (cs : List Char) (w : World)
    (hs : CacheSound H info cs w) (c : Char) (hc : c ∈ cs) :
    CacheSound H info cs (lookupGlyph H info w c).2 := by
  obtain ⟨hreg, hkeys, hinj, hglyph⟩ := hs
  obtain ⟨_, e2⟩ := lookupGlyph_parts H w info c
  obtain ⟨hgi, hnone, hsome⟩ := ctor_uid H w.uids c.toNat info
  obtain ⟨_, _, hnew, hold, hinv, happ, hsame⟩ := glyphInfo_ctor_spec H w.uids c.toNat info
  obtain ⟨hff, hcache⟩ := getGlyph_cache w.p (GlyphInfo.GlyphInfo H w.uids c.toNat info).1
  have hreg1 := hinv hreg
  -- the counter does not decrease
  have hnext : w.uids.next ≤ (GlyphInfo.GlyphInfo H w.uids c.toNat info).2.next := by
    cases hl : w.uids.map.lookup (glyphHash H c.toNat info) with
    | none => rw [(hnone hl).2]; exact Nat.le_succ _
    | some u => rw [hsame u hl]
  -- the uid of the looked-up identity is issued
  have huid : (GlyphInfo.GlyphInfo H w.uids c.toNat info).1.uid <
      (GlyphInfo.GlyphInfo H w.uids c.toNat info).2.next := hreg1.1 _ _ hnew
  -- a cached glyph under that uid is the glyph rendered for the identity
  have hown : ∀ g, w.p.glyphCache.lookup (GlyphInfo.GlyphInfo H w.uids c.toNat info).1.uid =
      some g → renderGlyph w.p.fontFaces (GlyphInfo.GlyphInfo H w.uids c.toNat info).1 =
        some g := by
    intro g hg
    cases hl : w.uids.map.lookup (glyphHash H c.toNat info) with
    | none =>
      have := hkeys _ g hg
      rw [(hnone hl).1] at this
      exact absurd this (Nat.lt_irrefl _)
    | some u =>
      have hu := hsome u hl
      rw [hgi, hu]
      rw [hu] at hg
      exact hglyph c hc u g hl hg
  rw [e2]
  refine ⟨hreg1, ?_, hinj, ?_⟩
  · intro uid g hg
    simp only [] at hg ⊢
    rcases hcache with ⟨_, _, e⟩ | ⟨_, _, e⟩ | ⟨out, _, _, e⟩
    · rw [e] at hg
      exact Nat.lt_of_lt_of_le (hkeys uid g hg) hnext
    · rw [e] at hg
      exact Nat.lt_of_lt_of_le (hkeys uid g hg) hnext
    · rw [e] at hg
      by_cases hu : uid = (GlyphInfo.GlyphInfo H w.uids c.toNat info).1.uid
      · rw [hu]
        exact huid
      · rw [lookup_mapSet_ne _ _ _ _ hu] at hg
        exact Nat.lt_of_lt_of_le (hkeys uid g hg) hnext
  · intro d hd u g hdu hg
    simp only [] at hdu hg ⊢
    rw [hff]
    by_cases hu : u = (GlyphInfo.GlyphInfo H w.uids c.toNat info).1.uid
    · have hh : glyphHash H d.toNat info = glyphHash H c.toNat info := by
        rw [hu] at hdu
        exact hreg1.2 _ _ _ hdu hnew
      have hdc : d = c := hinj d hd c hc hh
      rw [hdc, hu, ← hgi]
      rw [hu] at hg
      rcases hcache with ⟨g0, h0, e⟩ | ⟨h0, _, e⟩ | ⟨out, _, hr, e⟩
      · rw [e] at hg
        exact hown g hg
      · rw [e, h0] at hg
        exact absurd hg (by simp)
      · rw [e, lookup_mapSet_self] at hg
        rw [hr]
        exact hg
    · have hg0 : w.p.glyphCache.lookup u = some g := by
        rcases hcache with ⟨_, _, e⟩ | ⟨_, _, e⟩ | ⟨out, _, _, e⟩
        · rw [e] at hg; exact hg
        · rw [e] at hg; exact hg
        · rw [e, lookup_mapSet_ne _ _ _ _ hu] at hg; exact hg
      have hdu0 : w.uids.map.lookup (glyphHash H d.toNat info) = some u := by
        cases hl : w.uids.map.lookup (glyphHash H c.toNat info) with
        | some u0 =>
          rw [hsame u0 hl] at hdu
          exact hdu
        | none =>
          rw [happ hl] at hdu
          cases hld : w.uids.map.lookup (glyphHash H d.toNat info) with
          | some u1 =>
            rw [lookup_append_of_some _ _ _ _ hld] at hdu
            exact hdu
          | none =>
            rw [lookup_append_of_none _ _ _ hld] at hdu
            simp only [List.lookup] at hdu
            split at hdu
            · simp only [Option.some.injEq] at hdu
              exact absurd hdu.symm hu
            · exact absurd hdu (by simp)
      exact hglyph d hd u g hdu0 hg0

theorem cacheSound_fresh (H : HashCombine) (info : Info) (cs : List Char) (w : World)
    (hcache : w.p.glyphCache = []) (hreg : w.uids.map = [])
    (hinj : ∀ c ∈ cs, ∀ d ∈ cs,
      glyphHash H c.toNat info = glyphHash H d.toNat info → c = d) :
    CacheSound H info cs w := by
  refine ⟨⟨?_, ?_⟩, ?_, hinj, ?_⟩
  · intro h u hl
    rw [hreg] at hl
    exact absurd hl (by simp [List.lookup])
  · intro h1 h2 u hl
    rw [hreg] at hl
    exact absurd hl (by simp [List.lookup])
  · intro uid g hl
    rw [hcache] at hl
    exact absurd hl (by simp [List.lookup])
  · intro c _ uid g _ hl
    rw [hcache] at hl
    exact absurd hl (by simp [List.lookup])

/-! ### Walks over a lookup with stable metrics -/

theorem textLinesStep_forget (getGlyph : σ → Char → Option Glyph × σ)
    (table : Char → Option Glyph) (utf32 : List Char) (height maxLineWidth : Int) (c : Char)
    (s : TextLinesState σ)
    (hm : ∀ rsb, glyphAdvance (getGlyph s.sys c).1 rsb = glyphAdvance (table c) rsb) :
    (textLinesStep getGlyph utf32 height maxLineWidth c s).map TextLinesState.forget =
      textLinesStep (tableLookup table) utf32 height maxLineWidth c s.forget := by
  unfold textLinesStep tableLookup TextLinesState.forget
  simp only [hm]
  split_ifs
  all_goals first
    | rfl
    | (cases makeLine utf32 s.lineBegin s.i s.pos.x height <;> rfl)
    | (cases makeLine utf32 s.lineBegin s.textLine s.textLineX height <;> rfl)

theorem measureStep_forget (getGlyph : σ → Char → Option Glyph × σ)
    (table : Char → Option Glyph) (utf32 : List Char) (height maxLineWidth : Int) (c : Char)
    (s : MeasureState σ)
    (hm : ∀ rsb, glyphAdvance (getGlyph s.sys c).1 rsb = glyphAdvance (table c) rsb) :
    (measureStep getGlyph utf32 height maxLineWidth c s).forget =
      measureStep (tableLookup table) utf32 height maxLineWidth c s.forget := by
  unfold measureStep tableLookup MeasureState.forget
  simp only [hm]
  split_ifs <;> rfl

theorem textLinesLoop_forget (getGlyph : σ → Char → Option Glyph × σ)
    (table : Char → Option Glyph) (P : σ → Prop) (utf32 : List Char)
    (height maxLineWidth : Int)
    (hstep : ∀ sys, P sys → ∀ c ∈ utf32, P (getGlyph sys c).2 ∧
      ∀ rsb, glyphAdvance (getGlyph sys c).1 rsb = glyphAdvance (table c) rsb) :
    ∀ (fuel : Nat) (s : TextLinesState σ), P s.sys →
      (textLinesLoop getGlyph utf32 height maxLineWidth fuel s).map TextLinesState.forget =
        textLinesLoop (tableLookup table) utf32 height maxLineWidth fuel s.forget := by
  intro fuel
  induction fuel with
  | zero =>
    intro s _
    unfold textLinesLoop
    have e : s.forget.i = s.i := rfl
    rw [e]
    cases utf32[s.i]? <;> rfl
  | succ fuel ih =>
    intro s hp
    unfold textLinesLoop
    have e : s.forget.i = s.i := rfl
    rw [e]
    cases hc : utf32[s.i]? with
    | none => rfl
    | some c =>
      simp only []
      have hmem : c ∈ utf32 := List.getElem?_mem hc
      obtain ⟨hp1, hm⟩ := hstep s.sys hp c hmem
      have hf := textLinesStep_forget getGlyph table utf32 height maxLineWidth c s hm
      cases hs : textLinesStep getGlyph utf32 height maxLineWidth c s with
      | none =>
        rw [hs] at hf
        simp only [Option.map_none'] at hf
        rw [← hf]
        rfl
      | some s1 =>
        rw [hs] at hf
        simp only [Option.map_some'] at hf
        rw [← hf]
        simp only []
        apply ih
        rw [textLinesStep_sys getGlyph utf32 height maxLineWidth c s s1 hs]
        exact hp1

theorem measureLoop_forget (getGlyph : σ → Char → Option Glyph × σ)
    (table : Char → Option Glyph) (P : σ → Prop) (utf32 : List Char)
    (height maxLineWidth : Int)
    (hstep : ∀ sys, P sys → ∀ c ∈ utf32, P (getGlyph sys c).2 ∧
      ∀ rsb, glyphAdvance (getGlyph sys c).1 rsb = glyphAdvance (table c) rsb) :
    ∀ (fuel : Nat) (s : MeasureState σ), P s.sys →
      (measureLoop getGlyph utf32 height maxLineWidth fuel s).map MeasureState.forget =
        measureLoop (tableLookup table) utf32 height maxLineWidth fuel s.forget := by
  intro fuel
  induction fuel with
  | zero =>
    intro s _
    unfold measureLoop
    have e : s.forget.i = s.i := rfl
    rw [e]
    cases utf32[s.i]? <;> rfl
  | succ fuel ih =>
    intro s hp
    unfold measureLoop
    have e : s.forget.i = s.i := rfl
    rw [e]
    cases hc : utf32[s.i]? with
    | none => rfl
    | some c =>
      simp only []
      have hmem : c ∈ utf32 := List.getElem?_mem hc
      obtain ⟨hp1, hm⟩ := hstep s.sys hp c hmem
      rw [← measureStep_forget getGlyph table utf32 height maxLineWidth c s hm]
      apply ih
      rw [measureStep_sys]
      exact hp1

theorem textLinesLayout_forget (getGlyph : σ → Char → Option Glyph × σ)
    (table : Char → Option Glyph) (P : σ → Prop) (height maxLineWidth : Int) (text : String)
    (sys : σ)
    (hstep : ∀ sys, P sys → ∀ c ∈ text.toList, P (getGlyph sys c).2 ∧
      ∀ rsb, glyphAdvance (getGlyph sys c).1 rsb = glyphAdvance (table c) rsb)
    (hinit : P sys) :
    (textLinesLayout getGlyph height maxLineWidth text sys).map Prod.fst =
      (textLinesLayout (tableLookup table) height maxLineWidth text ()).map Prod.fst := by
  have h := textLinesLoop_forget getGlyph table P text.toList height maxLineWidth hstep
    (walkFuel text.toList.length) (TextLinesState.init text.toList height sys) hinit
  have e : (TextLinesState.init text.toList height sys).forget =
      TextLinesState.init text.toList height () := rfl
  rw [e] at h
  unfold textLinesLayout
  simp only []
  rw [← h]
  cases textLinesLoop getGlyph text.toList height maxLineWidth (walkFuel text.toList.length)
      (TextLinesState.init text.toList height sys) with
  | none => rfl
  | some s =>
    simp only [Option.map_some', TextLinesState.forget]
    split_ifs
    · cases makeLine text.toList s.lineBegin s.i s.pos.x height <;> rfl
    · rfl

theorem measureLayout_forget (getGlyph : σ → Char → Option Glyph × σ)
    (table : Char → Option Glyph) (P : σ → Prop) (height maxLineWidth : Int) (text : String)
    (sys : σ)
    (hstep : ∀ sys, P sys → ∀ c ∈ text.toList, P (getGlyph sys c).2 ∧
      ∀ rsb, glyphAdvance (getGlyph sys c).1 rsb = glyphAdvance (table c) rsb)
    (hinit : P sys) :
    (measureLayout getGlyph height maxLineWidth text sys).map Prod.fst =
      (measureLayout (tableLookup table) height maxLineWidth text ()).map Prod.fst := by
  have h := measureLoop_forget getGlyph table P text.toList height maxLineWidth hstep
    (walkFuel text.toList.length) (MeasureState.init text.toList height sys) hinit
  have e : (MeasureState.init text.toList height sys).forget =
      MeasureState.init text.toList height () := rfl
  rw [e] at h
  unfold measureLayout
  simp only []
  rw [← h]
  cases measureLoop getGlyph text.toList height maxLineWidth (walkFuel text.toList.length)
      (MeasureState.init text.toList height sys) with
  | none => rfl
  | some s => rfl

theorem cacheSound_stable (H : HashCombine) (info : Info) (cs : List Char) (w : World)
    (hs : CacheSound H info cs w) :
    ∀ s : World, (CacheSound H info cs s ∧ s.p.fontFaces = w.p.fontFaces) → ∀ c ∈ cs,
      (CacheSound H info cs (lookupGlyph H info s c).2 ∧
        (lookupGlyph H info s c).2.p.fontFaces = w.p.fontFaces) ∧
      ∀ rsb, glyphAdvance (lookupGlyph H info s c).1 rsb =
        glyphAdvance (glyphsIn H info w cs c) rsb := by
  intro s hp c hc
  obtain ⟨hss, hff⟩ := hp
  refine ⟨⟨cacheSound_step H info cs s hss c hc, ?_⟩, ?_⟩
  · rw [lookupGlyph_fontFaces, hff]
  · intro rsb
    obtain ⟨u1, e1⟩ := cacheSound_lookup H info cs s hss c hc
    obtain ⟨u2, e2⟩ := cacheSound_lookup H info cs w hs c hc
    unfold glyphsIn
    rw [if_pos hc, e1, e2, hff]
    exact renderGlyph_uid _ _ _ _ _ _

theorem textLines_table (H : HashCombine) (w : World) (request : TextLinesRequest)
    (family : List (String × FT_Face)) (font : FT_Face)
    (hfamily : w.p.fontFaces.lookup request.info.family = some family)
    (hface : family.lookup request.info.face = some font)
    (herr : font.setPixelSizes (staticCastInt request.info.size) = 0)
    (hs : CacheSound H request.info request.text.toList w) :
    (textLines H w request).map Prod.fst =
      (textLinesLayout (tableLookup (glyphsIn H request.info w request.text.toList))
        (font.sizeMetrics (staticCastInt request.info.size)).height request.maxLineWidth
        request.text ()).map Prod.fst := by
  unfold textLines
  simp only [hfamily, hface, herr, if_true]
  exact textLinesLayout_forget _ _ _ _ _ _ _
    (cacheSound_stable H request.info request.text.toList w hs) ⟨hs, rfl⟩

theorem measure_table (H : HashCombine) (w : World) (request : MeasureRequest)
    (family : List (String × FT_Face)) (font : FT_Face)
    (hfamily : w.p.fontFaces.lookup request.info.family = some family)
    (hface : family.lookup request.info.face = some font)
    (herr : font.setPixelSizes (staticCastInt request.info.size) = 0)
    (hs : CacheSound H request.info request.text.toList w) :
    (measure H w request).map Prod.fst =
      (measureLayout (tableLookup (glyphsIn H request.info w request.text.toList))
        (font.sizeMetrics (staticCastInt request.info.size)).height request.maxLineWidth
        request.text ()).map Prod.fst := by
  unfold measure
  simp only [hfamily, hface, herr, if_true]
  exact measureLayout_forget _ _ _ _ _ _ _
    (cacheSound_stable H request.info request.text.toList w hs) ⟨hs, rfl⟩

theorem handlers_same_state (H : HashCombine) (w : World) (text : String) (info : Info)
    (maxLineWidth : Int) (promise1 promise2 : Nat) :
    ∃ lines size w1,
      textLines H w ⟨text, info, maxLineWidth, promise1⟩ = some (lines, w1) ∧
      measure H w ⟨text, info, maxLineWidth, promise2⟩ = some (size, w1) := by
  unfold textLines measure
  simp only []
  cases w.p.fontFaces.lookup info.family with
  | none => exact ⟨_, _, _, rfl, rfl⟩
  | some family =>
    simp only []
    cases family.lookup info.face with
    | none => exact ⟨_, _, _, rfl, rfl⟩
    | some font =>
      simp only []
      split_ifs
      · by_cases hne : text = ""
        · subst hne
          exact ⟨_, _, _, textLinesLayout_empty _ _ _ _, measureLayout_empty _ _ _ _⟩
        · obtain ⟨size, lines, sys1, hm, hl, _⟩ := layout_agree (lookupGlyph H info)
            (font.sizeMetrics (staticCastInt info.size)).height maxLineWidth text w hne
          exact ⟨lines, size, sys1, hl, hm⟩
      · exact ⟨_, _, _, rfl, rfl⟩

theorem sampleWorld_glyph (H : HashCombine) (c : Char) (info : Info) (g : Glyph)
    (hfamily : info.family = "Noto Sans") (hface : info.face = "Regular")
    (h : (lookupGlyph H info sampleWorld c).1 = some g) :
    g.advance = 640 ∧ g.lsbDelta = 0 ∧ g.rsbDelta = 0 := by
  have hs : CacheSound H info [c] sampleWorld :=
    cacheSound_fresh H info [c] sampleWorld rfl rfl (by
      intro a ha b hb _
      rw [List.mem_singleton.mp ha, List.mem_singleton.mp hb])
  obtain ⟨uid, e⟩ := cacheSound_lookup H info [c] sampleWorld hs c (List.mem_singleton.mpr rfl)
  rw [h] at e
  unfold renderGlyph at e
  have e1 : sampleWorld.p.fontFaces.lookup "Noto Sans" = some [("Regular", sampleFace)] := rfl
  have e2 : ([("Regular", sampleFace)] : List (String × FT_Face)).lookup "Regular" =
      some sampleFace := rfl
  simp only [hfamily, hface, e1, e2] at e
  simp [sampleFace] at e
  rw [e]
  exact ⟨rfl, rfl, rfl⟩

end Lemmas

/-! ## Claims -/

section Claims

variable {σ : Type}

/-- C1, amended: for every non-empty text, every FontSpec whose family and face are
loaded and every maxLineWidth, `measure` and `textLines` run from the same state both
return, leave the same state, and agree: the measured width is the maximum of 0 and the
widths of the returned lines, and the measured height is the `float` reached by adding
the line height once per returned line; it is the line height times the number of lines
when the line height is not negative and that product is at most 2^24 on the 1/64 pixel
grid (262144 pixels). -/
theorem measure_agrees_with_textLines (H : HashCombine) (w : World) (text : String)
    (info : Info) (maxLineWidth : Int) (promise1 promise2 : Nat)
    (family : List (String × FT_Face)) (font : FT_Face)
    (hfamily : w.p.fontFaces.lookup info.family = some family)
    (hface : family.lookup info.face = some font) (hne : text ≠ "") :
    ∃ size lines w1,
      measure32 H w ⟨text, info, maxLineWidth, promise1⟩ = some (size, w1) ∧
      textLines32 H w ⟨text, info, maxLineWidth, promise2⟩ = some (lines, w1) ∧
      size.x = maxWidth lines ∧
      size.y = stackedHeight (f32 (font.sizeMetrics (staticCastInt info.size)).height)
        lines.length ∧
      (0 ≤ f32 (font.sizeMetrics (staticCastInt info.size)).height →
        f32 (font.sizeMetrics (staticCastInt info.size)).height * lines.length ≤ 2 ^ 24 →
        size.y = f32 (font.sizeMetrics (staticCastInt info.size)).height * lines.length) := by
  obtain ⟨size, lines, w1, h1, h2, h3, h4⟩ :=
    handlers32_agree H w text info maxLineWidth promise1 promise2 family font hfamily hface hne
  refine ⟨size, lines, w1, h1, h2, h3, h4, ?_⟩
  intro h0 hb
  rw [h4]
  exact stackedHeight_exact _ h0 _ hb

/-- C1, example: the text "ab cd" in the sample font. -/
theorem measure_agrees_with_textLines_witness :
    ∃ size lines w1,
      measure32 sampleHash sampleWorld ⟨"ab cd", sampleInfo, 1920, 0⟩ = some (size, w1) ∧
      textLines32 sampleHash sampleWorld ⟨"ab cd", sampleInfo, 1920, 1⟩ = some (lines, w1) ∧
      size.x = maxWidth lines ∧
      size.y = stackedHeight (f32 (sampleFace.sizeMetrics (staticCastInt sampleInfo.size)).height)
        lines.length ∧
      (0 ≤ f32 (sampleFace.sizeMetrics (staticCastInt sampleInfo.size)).height →
        f32 (sampleFace.sizeMetrics (staticCastInt sampleInfo.size)).height * lines.length
          ≤ 2 ^ 24 →
        size.y =
          f32 (sampleFace.sizeMetrics (staticCastInt sampleInfo.size)).height * lines.length) :=
  measure_agrees_with_textLines sampleHash sampleWorld "ab cd" sampleInfo 1920 0 1
    [("Regular", sampleFace)] sampleFace rfl rfl (by decide)

/-- C1, counterexample to the claim as stated: the five-line text "a\nb\nc\nd\ne" in a
font whose line height is the `float` 5033089/64 pixels.  `textLines` returns five
lines and `measure` returns the height 25165444/64, the `float` sum, while the line
height times the number of lines is 25165445/64. -/
theorem stacked_height_is_rounded :
    (measure32 sampleHash tallWorld ⟨"a\nb\nc\nd\ne", tallInfo, 100000, 0⟩).map
      (fun r => r.1) = some ⟨640, 25165444⟩ ∧
    ((textLines32 sampleHash tallWorld ⟨"a\nb\nc\nd\ne", tallInfo, 100000, 1⟩).map
      (fun r => r.1.length)) = some 5 ∧
    f32 (tallFace.sizeMetrics (staticCastInt tallInfo.size)).height * 5 = 25165445 := by
  decide

/-- C4: the layout walks of `measure` and of `textLines` terminate for every text, every
glyph lookup (missing glyphs, zero and negative advances included) and every
maxLineWidth: both return a result within the granted iterations, more iterations give
the same final state, and the iterator reaches the end of the text.  The positions at
which the walks resume after a soft wrap are strictly increasing, and a hard break
moves to the next codepoint with the current codepoint's advance as the new pen x. -/
theorem layout_walks_terminate (getGlyph : σ → Char → Option Glyph × σ)
    (height maxLineWidth : Int) (text : String) (sys : σ) :
    (∃ r, measureLayout getGlyph height maxLineWidth text sys = some r) ∧
    (∃ r, textLinesLayout getGlyph height maxLineWidth text sys = some r) ∧
    (∃ s, ∀ extra, measureLoop getGlyph text.toList height maxLineWidth
        (walkFuel text.toList.length + extra) (MeasureState.init text.toList height sys)
          = some s) ∧
    (∃ s, ∀ extra, textLinesLoop getGlyph text.toList height maxLineWidth
        (walkFuel text.toList.length + extra) (TextLinesState.init text.toList height sys)
          = some s) ∧
    (measureTrace getGlyph text.toList height maxLineWidth (walkFuel text.toList.length)
        (MeasureState.init text.toList height sys)).getLast? = some text.toList.length ∧
    (textLinesTrace getGlyph text.toList height maxLineWidth (walkFuel text.toList.length)
        (TextLinesState.init text.toList height sys)).getLast? = some text.toList.length ∧
    (resumePoints (measureTrace getGlyph text.toList height maxLineWidth
        (walkFuel text.toList.length) (MeasureState.init text.toList height sys))).Pairwise
      (fun a b => a < b) ∧
    (resumePoints (textLinesTrace getGlyph text.toList height maxLineWidth
        (walkFuel text.toList.length) (TextLinesState.init text.toList height sys))).Pairwise
      (fun a b => a < b) ∧
    (∀ (s : MeasureState σ) (c : Char), isNewline c = false →
      (s.pos.x > 0 ∧ s.pos.x + (if !isSpace c then
          (glyphAdvance (getGlyph s.sys c).1 s.rsbDeltaPrev).1 else 0) ≥ maxLineWidth) →
      s.textLine = text.toList.length →
      (measureStep getGlyph text.toList height maxLineWidth c s).i = s.i + 1 ∧
      (measureStep getGlyph text.toList height maxLineWidth c s).pos.x =
        (glyphAdvance (getGlyph s.sys c).1 s.rsbDeltaPrev).1) ∧
    (∀ (s : TextLinesState σ) (c : Char), isNewline c = false →
      (s.pos.x > 0 ∧ s.pos.x + (if !isSpace c then
          (glyphAdvance (getGlyph s.sys c).1 s.rsbDeltaPrev).1 else 0) ≥ maxLineWidth) →
      s.textLine = text.toList.length → s.lineBegin ≤ text.toList.length →
      ∃ s1, textLinesStep getGlyph text.toList height maxLineWidth c s = some s1 ∧
        s1.i = s.i + 1 ∧ s1.lineBegin = s.i ∧
        s1.pos.x = (glyphAdvance (getGlyph s.sys c).1 s.rsbDeltaPrev).1) := by
  refine ⟨measureLayout_isSome _ _ _ _ _, textLinesLayout_isSome _ _ _ _ _, ?_, ?_,
    measureTrace_last _ _ _ _ _ _ (init_inv text.toList height sys).1 (walkRank_init _),
    textLinesTrace_last _ _ _ _ _ _ (init_inv text.toList height sys) (walkRank_init _),
    measureTrace_increasing _ _ _ _ _ _, textLinesTrace_increasing _ _ _ _ _ _, ?_, ?_⟩
  · obtain ⟨ms1, hm, _⟩ := measureLoop_total getGlyph text.toList height maxLineWidth
      (walkFuel text.toList.length) (MeasureState.init text.toList height sys)
      (init_inv text.toList height sys).1 (walkRank_init _)
    exact ⟨ms1, fun extra => measureLoop_fuel _ _ _ _ _ extra _ _ hm⟩
  · obtain ⟨ls1, hl, _⟩ := textLinesLoop_total getGlyph text.toList height maxLineWidth
      (walkFuel text.toList.length) (TextLinesState.init text.toList height sys)
      (init_inv text.toList height sys) (walkRank_init _)
    exact ⟨ls1, fun extra => textLinesLoop_fuel _ _ _ _ _ extra _ _ hl⟩
  · intro s c hn hov ht
    unfold measureStep
    simp only []
    rw [if_neg (by simp [hn]), if_pos hov, if_neg (not_not.mpr ht)]
    exact ⟨rfl, rfl⟩
  · intro s c hn hov ht hb
    unfold textLinesStep
    simp only [makeLine_eq _ _ _ _ _ hb]
    rw [if_neg (by simp [hn]), if_pos hov, if_neg (not_not.mpr ht)]
    exact ⟨_, rfl, rfl, rfl, rfl⟩

/-- C5, the code at the failing input: for "a b\ncccc" with 10 pixel glyphs and a
maxLineWidth of 35 pixels `textLines` returns five lines, "a b", "\ncccc", "b", "\nccc"
and "c"; the second line reaches to the end of the text and later lines repeat parts
of it. -/
theorem textLines_repeats_text :
    (textLines sampleHash sampleWorld ⟨"a b\ncccc", sampleInfo, 2240, 0⟩).map (fun r => r.1) =
      some [⟨"a b", ⟨1920, 1280⟩⟩, ⟨"\ncccc", ⟨640, 1280⟩⟩, ⟨"b", ⟨640, 1280⟩⟩,
        ⟨"\nccc", ⟨1920, 1280⟩⟩, ⟨"c", ⟨640, 1280⟩⟩] := by
  decide

/-- C7, amended: for every text without space, tab or newline and every maxLineWidth
greater than every pen position reached, the width `measure` returns is the maximum of
0 and the pen x reached in `float`; there is one kerning correction per resolved glyph,
each -1, 0 or +1 pixel; and when the absolute advances of the resolved glyphs plus one
pixel each total at most 2^24 on the 1/64 pixel grid (262144 pixels), so that the
`float` sums are exact, the width is the maximum of 0 and the sum of the advances plus
the sum of the corrections, and when that sum is not negative it differs from the plain
sum of advances by at most one pixel per resolved glyph. -/
theorem measured_width_is_kerned_sum (getGlyph : σ → Char → Option Glyph × σ)
    (height maxLineWidth : Int) (text : String) (sys : σ)
    (hplain : ∀ c ∈ text.toList, isSpace c = false ∧ isNewline c = false)
    (hfit : ∀ p ∈ penPositions32 getGlyph sys 0 0 text.toList, p < maxLineWidth) :
    ∃ size sys1,
      measureLayout32 getGlyph height maxLineWidth text sys = some (size, sys1) ∧
      size.x = max 0 (penWidth32 getGlyph sys text.toList) ∧
      (∀ k ∈ corrections 0 (lookups getGlyph sys text.toList),
        k = -pixel ∨ k = 0 ∨ k = pixel) ∧
      (corrections 0 (lookups getGlyph sys text.toList)).length =
        (advances (lookups getGlyph sys text.toList)).length ∧
      (spread (lookups getGlyph sys text.toList) ≤ 2 ^ 24 →
        size.x = max 0 ((advances (lookups getGlyph sys text.toList)).sum +
          (corrections 0 (lookups getGlyph sys text.toList)).sum) ∧
        (0 ≤ (advances (lookups getGlyph sys text.toList)).sum +
            (corrections 0 (lookups getGlyph sys text.toList)).sum →
          |size.x - (advances (lookups getGlyph sys text.toList)).sum| ≤
            pixel * (advances (lookups getGlyph sys text.toList)).length)) := by
  obtain ⟨hc1, hc2⟩ := corrections_bound (lookups getGlyph sys text.toList) 0
  have hsum := abs_sum_le _ pixel hc1 (by decide)
  rw [hc2] at hsum
  refine ⟨_, _, measureLayout32_straight getGlyph height maxLineWidth text sys hplain hfit,
    rfl, hc1, hc2, ?_⟩
  intro hb
  have hpen := (penRun_sum getGlyph text.toList sys 0 0 (fun c hc => (hplain c hc).2)).1
  have hex := penRun32_exact getGlyph text.toList sys 0 0 (by simpa using hb)
  have hx : penWidth32 getGlyph sys text.toList =
      (advances (lookups getGlyph sys text.toList)).sum +
        (corrections 0 (lookups getGlyph sys text.toList)).sum := by
    unfold penWidth32
    rw [hex, hpen]
    ring
  rw [hx]
  refine ⟨rfl, ?_⟩
  intro h0
  rw [max_eq_right h0]
  simpa using hsum

/-- C7, example: the text "abc" in the sample glyph table. -/
theorem measured_width_is_kerned_sum_witness :
    ∃ size sys1,
      measureLayout32 sampleTable 1280 100000 "abc" () = some (size, sys1) ∧
      size.x = max 0 (penWidth32 sampleTable () "abc".toList) ∧
      (∀ k ∈ corrections 0 (lookups sampleTable () "abc".toList),
        k = -pixel ∨ k = 0 ∨ k = pixel) ∧
      (corrections 0 (lookups sampleTable () "abc".toList)).length =
        (advances (lookups sampleTable () "abc".toList)).length ∧
      (spread (lookups sampleTable () "abc".toList) ≤ 2 ^ 24 →
        size.x = max 0 ((advances (lookups sampleTable () "abc".toList)).sum +
          (corrections 0 (lookups sampleTable () "abc".toList)).sum) ∧
        (0 ≤ (advances (lookups sampleTable () "abc".toList)).sum +
            (corrections 0 (lookups sampleTable () "abc".toList)).sum →
          |size.x - (advances (lookups sampleTable () "abc".toList)).sum| ≤
            pixel * (advances (lookups sampleTable () "abc".toList)).length)) :=
  measured_width_is_kerned_sum sampleTable 1280 100000 "abc" () (by decide) (by decide)

/-- C7, counterexamples to the claim as stated.  A glyph with advance 0 whose
correction at the start of the line is -1 pixel: `measure` returns width 0, not
-1 pixel.  Five glyphs of advance 5033089/64 pixels with no correction: `measure`
returns the `float` sum 25165444/64, not the sum 25165445/64. -/
theorem measured_width_not_kerned_sum :
    ((∀ c ∈ "a".toList, isSpace c = false ∧ isNewline c = false) ∧
      (∀ p ∈ penPositions32 shrunkTable () 0 0 "a".toList, p < 1000) ∧
      measureLayout32 shrunkTable 1280 1000 "a" () = some (⟨0, 1280⟩, ()) ∧
      (advances (lookups shrunkTable () "a".toList)).sum +
        (corrections 0 (lookups shrunkTable () "a".toList)).sum = -64) ∧
    ((∀ c ∈ "aaaaa".toList, isSpace c = false ∧ isNewline c = false) ∧
      (∀ p ∈ penPositions32 wideTable () 0 0 "aaaaa".toList, p < 2 ^ 26) ∧
      measureLayout32 wideTable 1280 (2 ^ 26) "aaaaa" () = some (⟨25165444, 1280⟩, ()) ∧
      (advances (lookups wideTable () "aaaaa".toList)).sum +
        (corrections 0 (lookups wideTable () "aaaaa".toList)).sum = 25165445) := by
  decide

/-- C9: when the family of the FontSpec is not loaded, or the face is not loaded for
that family, every request is resolved with the empty value whatever the text:
`getMetrics` gives the zero metrics, `measure` gives (0, 0), `textLines` gives no line
and `getGlyphs` gives no glyph, and the state is unchanged. -/
theorem unknown_font_resolves_empty (H : HashCombine) (w : World) (info : Info)
    (h : w.p.fontFaces.lookup info.family = none ∨
      ∃ family, w.p.fontFaces.lookup info.family = some family ∧
        family.lookup info.face = none) :
    (∀ promise, getMetrics w ⟨info, promise⟩ = ⟨0, 0, 0⟩) ∧
    (∀ text maxLineWidth promise,
      measure H w ⟨text, info, maxLineWidth, promise⟩ = some (⟨0, 0⟩, w)) ∧
    (∀ text maxLineWidth promise,
      textLines H w ⟨text, info, maxLineWidth, promise⟩ = some ([], w)) ∧
    (∀ text promise, getGlyphs H w ⟨text, info, promise⟩ = ([], w)) := by
  rcases h with h | ⟨family, h1, h2⟩
  · refine ⟨?_, ?_, ?_, ?_⟩ <;> intros <;>
      simp [getMetrics, measure, textLines, getGlyphs, h, Metrics.default]
  · refine ⟨?_, ?_, ?_, ?_⟩ <;> intros <;>
      simp [getMetrics, measure, textLines, getGlyphs, h1, h2, Metrics.default]

/-- C9, example: the face "Bold" is not loaded in the sample system. -/
theorem unknown_font_resolves_empty_witness :
    (∀ promise, getMetrics sampleWorld ⟨⟨"Noto Sans", "Bold", 768, 96⟩, promise⟩ = ⟨0, 0, 0⟩) ∧
    (∀ text maxLineWidth promise,
      measure sampleHash sampleWorld ⟨text, ⟨"Noto Sans", "Bold", 768, 96⟩, maxLineWidth, promise⟩
        = some (⟨0, 0⟩, sampleWorld)) ∧
    (∀ text maxLineWidth promise,
      textLines sampleHash sampleWorld
        ⟨text, ⟨"Noto Sans", "Bold", 768, 96⟩, maxLineWidth, promise⟩ = some ([], sampleWorld)) ∧
    (∀ text promise,
      getGlyphs sampleHash sampleWorld ⟨text, ⟨"Noto Sans", "Bold", 768, 96⟩, promise⟩
        = ([], sampleWorld)) :=
  unknown_font_resolves_empty sampleHash sampleWorld ⟨"Noto Sans", "Bold", 768, 96⟩
    (Or.inr ⟨[("Regular", sampleFace)], rfl, rfl⟩)

/-- C10: for every text and loaded FontSpec, `getGlyphs` returns the results of looking
up the codepoints in text order with the absent results dropped: it has at most as
many glyphs as the text has codepoints and is an order-preserving subsequence of the
lookup results, one lookup per codepoint whatever its class. -/
theorem getGlyphs_resolved_in_order (H : HashCombine) (w : World) (text : String)
    (info : Info) (promise : Nat) (family : List (String × FT_Face)) (font : FT_Face)
    (hfamily : w.p.fontFaces.lookup info.family = some family)
    (hface : family.lookup info.face = some font) :
    (getGlyphs H w ⟨text, info, promise⟩).1 =
        (lookups (lookupGlyph H info) w text.toList).filterMap id ∧
    (getGlyphs H w ⟨text, info, promise⟩).1.length ≤ text.toList.length ∧
    ((getGlyphs H w ⟨text, info, promise⟩).1.map some).Sublist
        (lookups (lookupGlyph H info) w text.toList) ∧
    (lookups (lookupGlyph H info) w text.toList).length = text.toList.length := by
  have h : (getGlyphs H w ⟨text, info, promise⟩).1 =
      (lookups (lookupGlyph H info) w text.toList).filterMap id := by
    unfold getGlyphs
    simp [hfamily, hface, collectGlyphs_eq]
  refine ⟨h, ?_, ?_, lookups_length _ _ _⟩
  · rw [h, ← lookups_length (lookupGlyph H info) text.toList w]
    exact List.length_filterMap_le _ _
  · rw [h]
    exact filterMap_id_sublist _

/-- C10, example: the text "a b" in the sample font. -/
theorem getGlyphs_resolved_in_order_witness :
    (getGlyphs sampleHash sampleWorld ⟨"a b", sampleInfo, 0⟩).1 =
        (lookups (lookupGlyph sampleHash sampleInfo) sampleWorld "a b".toList).filterMap id ∧
    (getGlyphs sampleHash sampleWorld ⟨"a b", sampleInfo, 0⟩).1.length ≤ "a b".toList.length ∧
    ((getGlyphs sampleHash sampleWorld ⟨"a b", sampleInfo, 0⟩).1.map some).Sublist
        (lookups (lookupGlyph sampleHash sampleInfo) sampleWorld "a b".toList) ∧
    (lookups (lookupGlyph sampleHash sampleInfo) sampleWorld "a b".toList).length =
      "a b".toList.length :=
  getGlyphs_resolved_in_order sampleHash sampleWorld "a b" sampleInfo 0
    [("Regular", sampleFace)] sampleFace rfl rfl

/-- C12: resolving the same glyph identity twice yields the same glyph.  If a request
for the codepoint `c` of the font `info` returns the glyph `g`, then after any further
sequence of glyph requests a request for the same codepoint and font returns the
identical `g`; it is answered from the cache (the identity is registered and the cache
holds `g` under its uid), nothing is rendered and the state, cache included, is left
unchanged. -/
theorem same_identity_same_glyph (H : HashCombine) (w : World) (info : Info) (c : Char)
    (g : Glyph) (calls : List (Info × Char))
    (h : (lookupGlyph H info w c).1 = some g) :
    lookupGlyph H info (runLookups H (lookupGlyph H info w c).2 calls) c =
        (some g, runLookups H (lookupGlyph H info w c).2 calls) ∧
      Cached H (runLookups H (lookupGlyph H info w c).2 calls) info c g := by
  have hc := cached_runLookups H info c g calls _ (cached_after H w info c g h)
  exact ⟨lookupGlyph_cached H _ info c g hc, hc⟩

/-- C12, example: the codepoint `a` in the sample font, requested again after a
request for `b`. -/
theorem same_identity_same_glyph_witness :
    lookupGlyph sampleHash sampleInfo
        (runLookups sampleHash (lookupGlyph sampleHash sampleInfo sampleWorld 'a').2
          [(sampleInfo, 'b')]) 'a' =
        (some sampleGlyphA,
          runLookups sampleHash (lookupGlyph sampleHash sampleInfo sampleWorld 'a').2
            [(sampleInfo, 'b')]) ∧
      Cached sampleHash
        (runLookups sampleHash (lookupGlyph sampleHash sampleInfo sampleWorld 'a').2
          [(sampleInfo, 'b')]) sampleInfo 'a' sampleGlyphA :=
  same_identity_same_glyph sampleHash sampleWorld sampleInfo 'a' sampleGlyphA
    [(sampleInfo, 'b')] (by decide)

/-- C13: the glyph cache only grows and its entries are never changed.  For every
`getGlyph` call every entry present before the call is present and unchanged after it;
the call either leaves the cache as it is or appends exactly one entry, under the
requested uid, holding the glyph it rendered and returns; it changes nothing when it
returns absent.  Hence over any sequence of glyph requests the cache size does not
decrease, and once a sequence of requests has been run, running any of those requests
again leaves the state, and so the cache size, unchanged. -/
theorem glyph_cache_only_grows (H : HashCombine) (p : Private) (info : GlyphInfo) :
    (∀ uid g, p.glyphCache.lookup uid = some g →
      (getGlyph p info).2.glyphCache.lookup uid = some g) ∧
    (∀ e ∈ p.glyphCache, e ∈ (getGlyph p info).2.glyphCache) ∧
    ((getGlyph p info).2.glyphCache = p.glyphCache ∨
      ∃ g, (getGlyph p info).1 = some g ∧ p.glyphCache.lookup info.uid = none ∧
        renderGlyph p.fontFaces info = some g ∧
        (getGlyph p info).2.glyphCache = p.glyphCache ++ [(info.uid, g)]) ∧
    ((getGlyph p info).1 = none → (getGlyph p info).2 = p) ∧
    (∀ (w : World) (calls : List (Info × Char)),
      w.p.glyphCache.length ≤ (runLookups H w calls).p.glyphCache.length) ∧
    (∀ (w : World) (calls again : List (Info × Char)), (∀ x ∈ again, x ∈ calls) →
      runLookups H (runLookups H w calls) again = runLookups H w calls) := by
  refine ⟨(getGlyph_cache_grows p info).1, (getGlyph_cache_grows p info).2.1, ?_, ?_,
    fun w calls => runLookups_length H calls w, ?_⟩
  · rcases getGlyph_cases p info with ⟨h, _⟩ | ⟨g, h1, h2, h3, h4⟩
    · exact Or.inl (by rw [h])
    · exact Or.inr ⟨g, h1, h2, h3, by rw [h4]⟩
  · intro hn
    rcases getGlyph_cases p info with ⟨h, _⟩ | ⟨g, h1, _⟩
    · exact h
    · rw [h1] at hn; exact absurd hn (by simp)
  · intro w calls again hsub
    exact runLookups_settled H again _ (fun x hx => settled_of_mem H calls w x (hsub x hx))

/-- C14, amended: when font initialisation fails fatally (`FT_Init_FreeType` reports an
error, or no file of the listing opens) in a system with no face loaded,
`_initFreeType` leaves the state as it was, so no face is loaded and the font-names
result is not set; the loop of the worker thread is entered all the same.  An iteration
of the loop in a system with no face loaded resolves every request it drains, with the
empty value: zero metrics, (0, 0), no line, no glyph.  So the first iteration of the
thread resolves the requests enqueued before the failure, and however many iterations
run, the thread returns with the font-names result still unset and no face loaded. -/
theorem failed_init_still_serves (H : HashCombine) (ftInitError : Nat)
    (directoryList : List FontFile) (w : World) (hfresh : w.p.fontFaces = [])
    (hrun : w.p.running = true)
    (hfatal : ftInitError ≠ 0 ∨ ∀ f ∈ directoryList, f.face = none) :
    _initFreeType ftInitError directoryList w.p = w.p ∧
    (∀ w2 : World, w2.p.fontFaces = [] →
      workerIteration H w2 = some
        { w2 with
          p := { w2.p with
            metricsQueue := [], measureQueue := [], textLinesQueue := [], glyphsQueue := []
            metricsRequests := [], measureRequests := [], textLinesRequests := []
            glyphsRequests := [] }
          futures :=
            { metrics := w2.futures.metrics ++
                w2.p.metricsQueue.map (fun request => (request.promise, (⟨0, 0, 0⟩ : Metrics)))
              measure := w2.futures.measure ++
                w2.p.measureQueue.map (fun request => (request.promise, (⟨0, 0⟩ : vec2)))
              textLines := w2.futures.textLines ++
                w2.p.textLinesQueue.map (fun request => (request.promise, ([] : List TextLine)))
              glyphs := w2.futures.glyphs ++
                w2.p.glyphsQueue.map (fun request => (request.promise, ([] : List Glyph))) } }) ∧
    workerThread H ftInitError directoryList 1 w = workerIteration H w ∧
    (∀ n, ∃ w1, workerThread H ftInitError directoryList n w = some w1 ∧
      w1.p.fontNamesPromise = w.p.fontNamesPromise ∧ w1.p.fontFaces = []) := by
  have hinit := initFreeType_fatal ftInitError directoryList w.p hfresh hfatal
  have hw : ({ w with p := _initFreeType ftInitError directoryList w.p } : World) = w := by
    rw [hinit]
  have hthread : workerThread H ftInitError directoryList 1 w = workerIteration H w := by
    unfold workerThread
    rw [hw]
    unfold workerLoop
    rw [if_pos hrun]
    cases workerIteration H w with
    | none => rfl
    | some w1 => rfl
  refine ⟨hinit, fun w2 h2 => workerIteration_noFonts H w2 h2, hthread, ?_⟩
  intro n
  obtain ⟨w1, h1, h2, _, h4⟩ := workerLoop_total H n w
  refine ⟨w1, ?_, h2, h4.trans hfresh⟩
  unfold workerThread
  rw [hw]
  exact h1

/-- C14, example: the library cannot be initialised while one `measure` request is
pending. -/
theorem failed_init_still_serves_witness :
    _initFreeType 1 [] (System.measure (_init {}) "abc" 1000 sampleInfo 7).p =
      (System.measure (_init {}) "abc" 1000 sampleInfo 7).p ∧
    (∀ w2 : World, w2.p.fontFaces = [] →
      workerIteration sampleHash w2 = some
        { w2 with
          p := { w2.p with
            metricsQueue := [], measureQueue := [], textLinesQueue := [], glyphsQueue := []
            metricsRequests := [], measureRequests := [], textLinesRequests := []
            glyphsRequests := [] }
          futures :=
            { metrics := w2.futures.metrics ++
                w2.p.metricsQueue.map (fun request => (request.promise, (⟨0, 0, 0⟩ : Metrics)))
              measure := w2.futures.measure ++
                w2.p.measureQueue.map (fun request => (request.promise, (⟨0, 0⟩ : vec2)))
              textLines := w2.futures.textLines ++
                w2.p.textLinesQueue.map (fun request => (request.promise, ([] : List TextLine)))
              glyphs := w2.futures.glyphs ++
                w2.p.glyphsQueue.map (fun request => (request.promise, ([] : List Glyph))) } }) ∧
    workerThread sampleHash 1 [] 1 (System.measure (_init {}) "abc" 1000 sampleInfo 7) =
      workerIteration sampleHash (System.measure (_init {}) "abc" 1000 sampleInfo 7) ∧
    (∀ n, ∃ w1, workerThread sampleHash 1 [] n
        (System.measure (_init {}) "abc" 1000 sampleInfo 7) = some w1 ∧
      w1.p.fontNamesPromise =
        (System.measure (_init {}) "abc" 1000 sampleInfo 7).p.fontNamesPromise ∧
      w1.p.fontFaces = []) :=
  failed_init_still_serves sampleHash 1 [] (System.measure (_init {}) "abc" 1000 sampleInfo 7)
    rfl rfl (Or.inl (by decide))

/-- C14, counterexample to the claim as stated: `FT_Init_FreeType` fails while the
`measure` request with promise 7 is pending; the first iteration of the worker thread
resolves it, with the size (0, 0). -/
theorem failed_init_resolves_request :
    (workerThread sampleHash 1 [] 1 (System.measure (_init {}) "abc" 1000 sampleInfo 7)).map
      (fun w => (w.futures.measure, w.p.fontNamesPromise)) = some ([(7, ⟨0, 0⟩)], []) := by
  decide

/-- C15, the code at the failing input: the sample face is loaded and three requests
are pending, a metrics request, a measure request whose text is the one byte 0xFF and a
glyphs request.  The iteration resolves the metrics request; decoding the text of the
measure request throws, which ends the thread function: the measure request and the
glyphs request are never resolved and stay in the in-flight lists. -/
theorem invalid_utf8_ends_thread :
    from_bytes [0xFF] = none ∧
    handlerOrder invalidThread = [(Kind.metrics, 1), (Kind.measure, 2), (Kind.glyphs, 3)] ∧
    completed (workerIterationRaw sampleHash invalidThread) = false ∧
    (outcome (workerIterationRaw sampleHash invalidThread)).resolved.map Resolved.tag =
      [(Kind.metrics, 1)] ∧
    (outcome (workerIterationRaw sampleHash invalidThread)).measureRequests.map
      (fun request => request.promise) = [2] ∧
    (outcome (workerIterationRaw sampleHash invalidThread)).glyphsRequests.map
      (fun request => request.promise) = [3] := by
  decide

/-- C16: when setting the pixel size fails for the loaded face of a request, the
request is resolved with the zero value: `getMetrics` gives the zero metrics, `measure`
gives (0, 0) and `textLines` gives no line, in each case with the state unchanged (no
glyph is looked up); and a `getGlyph` call for that font whose uid is not in the cache
returns absent and leaves the state, cache included, unchanged. -/
theorem pixel_size_failure_resolves_zero (H : HashCombine) (w : World) (info : Info)
    (family : List (String × FT_Face)) (font : FT_Face)
    (hfamily : w.p.fontFaces.lookup info.family = some family)
    (hface : family.lookup info.face = some font)
    (herr : font.setPixelSizes (staticCastInt info.size) ≠ 0) :
    (∀ promise, getMetrics w ⟨info, promise⟩ = ⟨0, 0, 0⟩) ∧
    (∀ text maxLineWidth promise,
      measure H w ⟨text, info, maxLineWidth, promise⟩ = some (⟨0, 0⟩, w)) ∧
    (∀ text maxLineWidth promise,
      textLines H w ⟨text, info, maxLineWidth, promise⟩ = some ([], w)) ∧
    (∀ code uid, w.p.glyphCache.lookup uid = none →
      getGlyph w.p ⟨code, info, uid⟩ = (none, w.p)) := by
  refine ⟨?_, ?_, ?_, ?_⟩
  · intro promise
    simp [getMetrics, hfamily, hface, herr, Metrics.default]
  · intro text maxLineWidth promise
    simp [measure, hfamily, hface, herr]
  · intro text maxLineWidth promise
    simp [textLines, hfamily, hface, herr]
  · intro code uid hc
    simp [getGlyph, hc, hfamily, hface, herr]

/-- C16, example: the face of `brokenWorld` rejects every pixel size. -/
theorem pixel_size_failure_resolves_zero_witness :
    (∀ promise, getMetrics brokenWorld ⟨⟨"Broken", "Regular", 768, 96⟩, promise⟩ = ⟨0, 0, 0⟩) ∧
    (∀ text maxLineWidth promise,
      measure sampleHash brokenWorld ⟨text, ⟨"Broken", "Regular", 768, 96⟩, maxLineWidth, promise⟩
        = some (⟨0, 0⟩, brokenWorld)) ∧
    (∀ text maxLineWidth promise,
      textLines sampleHash brokenWorld
        ⟨text, ⟨"Broken", "Regular", 768, 96⟩, maxLineWidth, promise⟩
          = some ([], brokenWorld)) ∧
    (∀ code uid, brokenWorld.p.glyphCache.lookup uid = none →
      getGlyph brokenWorld.p ⟨code, ⟨"Broken", "Regular", 768, 96⟩, uid⟩
        = (none, brokenWorld.p)) :=
  pixel_size_failure_resolves_zero sampleHash brokenWorld ⟨"Broken", "Regular", 768, 96⟩
    [("Regular", brokenFace)] brokenFace rfl rfl (by decide)

theorem allNamed_sampleDirectory : AllNamed sampleDirectory := by
  intro file hm ftFace hf
  simp only [sampleDirectory, List.mem_cons, List.mem_singleton, List.not_mem_nil,
    or_false] at hm
  rcases hm with h | h | h
  · subst h
    have e : sampleFace = ftFace := Option.some.inj hf
    subst e
    exact ⟨⟨_, rfl⟩, ⟨_, rfl⟩⟩
  · subst h
    exact absurd hf (by simp)
  · subst h
    have e : { sampleFace with style_name := some "Bold" } = ftFace := Option.some.inj hf
    subst e
    exact ⟨⟨_, rfl⟩, ⟨_, rfl⟩⟩

-- The load over a listing in which every opened face has its two names: every opened
-- file has an entry, every entry comes from an opened file, and the files that failed
-- make no difference.
theorem named_listing_load (directoryList : List FontFile) (p : Private)
    (hnamed : AllNamed directoryList) :
    (∀ file ∈ directoryList, ∀ ftFace family style, file.face = some ftFace →
      ftFace.family_name = some family → ftFace.style_name = some style →
      (faceEntry (_initFreeType 0 directoryList p).fontFaces family style).isSome = true) ∧
    (∀ family style ftFace,
      faceEntry (_initFreeType 0 directoryList p).fontFaces family style = some ftFace →
      faceEntry p.fontFaces family style = some ftFace ∨
        ∃ file ∈ directoryList, file.face = some ftFace ∧
          ftFace.family_name = some family ∧ ftFace.style_name = some style) ∧
    (∀ file, file.face = none → loadFont p file = (p, false)) ∧
    _initFreeType 0 directoryList p =
      _initFreeType 0 (directoryList.filter (fun file => file.face.isSome)) p := by
  refine ⟨?_, ?_, fun file h => loadFont_failed p file h, ?_⟩
  · intro file hm ftFace family style hf h1 h2
    rw [initFreeType_fontFaces]
    exact faceEntry_of_opened directoryList p file ftFace family style hnamed hm hf h1 h2
  · intro family style ftFace h
    rw [initFreeType_fontFaces] at h
    exact faceEntry_origin directoryList p family style ftFace hnamed h
  · unfold _initFreeType
    rw [← loadFonts_filter]

/-- C17, the code at the failing input: the listing holds a file that opens as a face
without a family name, followed by the sample font file, which opens.  After
`_initFreeType` the face table is empty: the sample face has no entry under its family
and style although its file opened, and the font-names result is not set.  With the
first file removed from the listing the entry is there. -/
theorem nameless_face_aborts_load :
    (∃ ftFace, ⟨"NotoSans-Regular.ttf", some ftFace⟩ ∈ namelessDirectory ∧
      ftFace.family_name = some "Noto Sans" ∧ ftFace.style_name = some "Regular") ∧
    (_initFreeType 0 namelessDirectory {}).fontFaces = [] ∧
    faceEntry (_initFreeType 0 namelessDirectory {}).fontFaces "Noto Sans" "Regular" = none ∧
    (_initFreeType 0 namelessDirectory {}).fontNamesPromise = [] ∧
    (faceEntry (_initFreeType 0 namelessDirectory.tail {}).fontFaces
      "Noto Sans" "Regular").isSome = true := by
  exact ⟨⟨sampleFace, by simp [namelessDirectory], rfl, rfl⟩, rfl, rfl, by decide, by decide⟩

-- The font-names result over a fresh state: set at most once, and exactly when the
-- library initialised, some file opened and no opened face lacks a name.
theorem fontNames_promise_spec (ftInitError : Nat) (directoryList : List FontFile)
    (p : Private) (hfaces : p.fontFaces = []) (hnames : p.fontNames = [])
    (hpromise : p.fontNamesPromise = []) :
    (_initFreeType ftInitError directoryList p).fontNamesPromise.length ≤ 1 ∧
    ((_initFreeType ftInitError directoryList p).fontNamesPromise ≠ [] ↔
      ftInitError = 0 ∧ AllNamed directoryList ∧
        ∃ file ∈ directoryList, file.face.isSome = true) ∧
    (ftInitError = 0 → AllNamed directoryList →
      (∃ file ∈ directoryList, file.face.isSome = true) →
      (_initFreeType ftInitError directoryList p).fontNamesPromise =
        [fontNamesOf directoryList] ∧
      (_initFreeType ftInitError directoryList p).fontNames = fontNamesOf directoryList) ∧
    ((ftInitError ≠ 0 ∨ ∀ file ∈ directoryList, file.face = none) →
      (_initFreeType ftInitError directoryList p).fontNamesPromise = []) ∧
    (∀ (H : HashCombine) (n : Nat) (w : World), w.p = p →
      ∃ w1, workerThread H ftInitError directoryList n w = some w1 ∧
        w1.p.fontNamesPromise = (_initFreeType ftInitError directoryList p).fontNamesPromise) := by
  classical
  have hp := initFreeType_promise ftInitError directoryList p hfaces
  rw [hpromise, hnames] at hp
  refine ⟨?_, ?_, ?_, ?_, ?_⟩
  · rw [hp]
    split_ifs <;> simp
  · rw [hp]
    split_ifs with hc
    · simpa using hc
    · simpa using hc
  · intro he hn hex
    rw [hp, if_pos ⟨he, hn, hex⟩]
    refine ⟨by simp [fontNamesOf], ?_⟩
    subst he
    have hne := loadFonts_ne_nil directoryList p hn (Or.inr hex)
    have hlen : (loadFonts directoryList p).1.fontFaces.length ≠ 0 :=
      fun e => hne (List.length_eq_zero.mp e)
    unfold _initFreeType
    simp only [ne_eq, not_true_eq_false, if_false, hlen, loadFonts_ok directoryList p hn,
      Bool.false_eq_true]
    rw [loadFonts_fontNames directoryList p hn, hnames]
    rfl
  · intro hfatal
    rw [initFreeType_fatal ftInitError directoryList p hfaces hfatal, hpromise]
  · intro H n w hw
    subst hw
    obtain ⟨w1, h1, h2, _⟩ := workerLoop_total H n
      { w with p := _initFreeType ftInitError directoryList w.p }
    exact ⟨w1, h1, h2⟩

/-- C18, the code at the failing input: the library initialises and the listing holds
the sample font file, which opens and is entered in the face table, followed by a file
that opens as a face without a family name.  A face was opened and is served, yet after
`_initFreeType` the font-names result is not set, and the worker loop never sets it. -/
theorem opened_face_without_font_names :
    (faceEntry (_initFreeType 0 namelessLastDirectory {}).fontFaces
      "Noto Sans" "Regular").isSome = true ∧
    (_initFreeType 0 namelessLastDirectory {}).fontNames =
      [("Noto Sans", "NotoSans-Regular.ttf")] ∧
    (_initFreeType 0 namelessLastDirectory {}).fontNamesPromise = [] ∧
    (∀ (H : HashCombine) (n : Nat), ∃ w1,
      workerThread H 0 namelessLastDirectory n {} = some w1 ∧ w1.p.fontNamesPromise = []) := by
  refine ⟨by decide, by decide, by decide, ?_⟩
  intro H n
  obtain ⟨w1, h1, h2, _⟩ := workerLoop_total H n
    { ({} : World) with p := _initFreeType 0 namelessLastDirectory ({} : World).p }
  exact ⟨w1, h1, h2.trans (by decide)⟩

/-- C21: the kerning correction rule.  For a resolved glyph with left bearing delta l
processed with the previous right bearing delta r, the amount `x` of lines 568-577 and
667-676 is the advance less one pixel when r - l > 32, the advance plus one pixel when
r - l < -31 and the advance otherwise; the differences 32 and -31 give no correction, 33
and -32 give -1 and +1 pixel.  The walks of `measure` and of `textLines` use this same
amount: it is what the wrap test adds for a codepoint that is not a space or tab, what
is added to the pen x when the test fails, and the new pen x after a hard break. -/
theorem kerning_correction_rule (getGlyph : σ → Char → Option Glyph × σ) (utf32 : List Char)
    (height maxLineWidth : Int) (g : Glyph) (r : Int) :
    (r - g.lsbDelta > 32 → (glyphAdvance (some g) r).1 = g.advance - pixel) ∧
    (r - g.lsbDelta < -31 → (glyphAdvance (some g) r).1 = g.advance + pixel) ∧
    (-31 ≤ r - g.lsbDelta → r - g.lsbDelta ≤ 32 → (glyphAdvance (some g) r).1 = g.advance) ∧
    (r - g.lsbDelta = 32 → (glyphAdvance (some g) r).1 = g.advance) ∧
    (r - g.lsbDelta = -31 → (glyphAdvance (some g) r).1 = g.advance) ∧
    (r - g.lsbDelta = 33 → (glyphAdvance (some g) r).1 = g.advance - pixel) ∧
    (r - g.lsbDelta = -32 → (glyphAdvance (some g) r).1 = g.advance + pixel) ∧
    (∀ (s : MeasureState σ) (c : Char), (getGlyph s.sys c).1 = some g → s.rsbDeltaPrev = r →
      isNewline c = false →
      (¬ (s.pos.x > 0 ∧
          s.pos.x + (if !isSpace c then (glyphAdvance (some g) r).1 else 0) ≥ maxLineWidth) →
        (measureStep getGlyph utf32 height maxLineWidth c s).pos.x =
          s.pos.x + (glyphAdvance (some g) r).1) ∧
      ((s.pos.x > 0 ∧
          s.pos.x + (if !isSpace c then (glyphAdvance (some g) r).1 else 0) ≥ maxLineWidth) →
        s.textLine = utf32.length →
        (measureStep getGlyph utf32 height maxLineWidth c s).pos.x =
          (glyphAdvance (some g) r).1)) ∧
    (∀ (s s1 : TextLinesState σ) (c : Char), (getGlyph s.sys c).1 = some g →
      s.rsbDeltaPrev = r → isNewline c = false →
      textLinesStep getGlyph utf32 height maxLineWidth c s = some s1 →
      (¬ (s.pos.x > 0 ∧
          s.pos.x + (if !isSpace c then (glyphAdvance (some g) r).1 else 0) ≥ maxLineWidth) →
        s1.pos.x = s.pos.x + (glyphAdvance (some g) r).1) ∧
      ((s.pos.x > 0 ∧
          s.pos.x + (if !isSpace c then (glyphAdvance (some g) r).1 else 0) ≥ maxLineWidth) →
        s.textLine = utf32.length → s1.pos.x = (glyphAdvance (some g) r).1)) := by
  refine ⟨?_, ?_, ?_, ?_, ?_, ?_, ?_, ?_, ?_⟩
  · intro h
    simp [glyphAdvance, h]
  · intro h
    have h1 : ¬ (r - g.lsbDelta > 32) := by omega
    simp [glyphAdvance, h, h1]
  · intro h1 h2
    have h3 : ¬ (r - g.lsbDelta > 32) := by omega
    have h4 : ¬ (r - g.lsbDelta < -31) := by omega
    simp only [glyphAdvance, if_neg h3, if_neg h4]
  · intro h
    have h3 : ¬ (r - g.lsbDelta > 32) := by omega
    have h4 : ¬ (r - g.lsbDelta < -31) := by omega
    simp only [glyphAdvance, if_neg h3, if_neg h4]
  · intro h
    have h3 : ¬ (r - g.lsbDelta > 32) := by omega
    have h4 : ¬ (r - g.lsbDelta < -31) := by omega
    simp only [glyphAdvance, if_neg h3, if_neg h4]
  · intro h
    have h3 : r - g.lsbDelta > 32 := by omega
    simp only [glyphAdvance, if_pos h3]
  · intro h
    have h3 : ¬ (r - g.lsbDelta > 32) := by omega
    have h4 : r - g.lsbDelta < -31 := by omega
    simp only [glyphAdvance, if_neg h3, if_pos h4]
  · intro s c hg hr hn
    subst hr
    constructor
    · intro hno
      unfold measureStep
      simp only [hg, hn, Bool.false_eq_true, if_false, if_neg hno]
    · intro hov ht
      unfold measureStep
      simp only [hg, hn, Bool.false_eq_true, if_false, if_pos hov, ht, ne_eq,
        not_true_eq_false]
  · intro s s1 c hg hr hn hs
    subst hr
    constructor
    · intro hno
      unfold textLinesStep at hs
      simp only [hg, hn, Bool.false_eq_true, if_false, if_neg hno, Option.some.injEq] at hs
      rw [← hs]
    · intro hov ht
      unfold textLinesStep at hs
      simp only [hg, hn, Bool.false_eq_true, if_false, if_pos hov, ht, ne_eq,
        not_true_eq_false] at hs
      split at hs
      · exact absurd hs (by simp)
      · simp only [Option.some.injEq] at hs
        rw [← hs]

/-- C22: the kerning state is reset at missing glyphs and line boundaries.  Both walks
start with the previous right bearing delta 0 and compute the amount of a codepoint
from the delta the iteration before left.  An absent glyph has the amount 0: it leaves
the pen x unchanged when the wrap test fails and gives the pen x 0 after a hard break.
After an iteration the delta is 0 when the codepoint is a newline, when the wrap test
was met (soft wrap or hard break) or when its glyph is absent, and the right bearing
delta of its glyph in every other case. -/
theorem kerning_state_reset (getGlyph : σ → Char → Option Glyph × σ) (utf32 : List Char)
    (height maxLineWidth : Int) :
    (∀ r, glyphAdvance none r = (0, 0)) ∧
    (∀ sys : σ, (MeasureState.init utf32 height sys).rsbDeltaPrev = 0 ∧
      (TextLinesState.init utf32 height sys).rsbDeltaPrev = 0) ∧
    (∀ (s : MeasureState σ) (c : Char),
      (measureStep getGlyph utf32 height maxLineWidth c s).rsbDeltaPrev =
        if isNewline c = true ∨ (s.pos.x > 0 ∧ s.pos.x + (if !isSpace c then
            (glyphAdvance (getGlyph s.sys c).1 s.rsbDeltaPrev).1 else 0) ≥ maxLineWidth)
        then 0
        else match (getGlyph s.sys c).1 with
          | none => 0
          | some g => g.rsbDelta) ∧
    (∀ (s s1 : TextLinesState σ) (c : Char),
      textLinesStep getGlyph utf32 height maxLineWidth c s = some s1 →
      s1.rsbDeltaPrev =
        if isNewline c = true ∨ (s.pos.x > 0 ∧ s.pos.x + (if !isSpace c then
            (glyphAdvance (getGlyph s.sys c).1 s.rsbDeltaPrev).1 else 0) ≥ maxLineWidth)
        then 0
        else match (getGlyph s.sys c).1 with
          | none => 0
          | some g => g.rsbDelta) ∧
    (∀ (s : MeasureState σ) (c : Char), (getGlyph s.sys c).1 = none → isNewline c = false →
      (¬ (s.pos.x > 0 ∧ s.pos.x ≥ maxLineWidth) →
        (measureStep getGlyph utf32 height maxLineWidth c s).pos.x = s.pos.x) ∧
      ((s.pos.x > 0 ∧ s.pos.x ≥ maxLineWidth) →
        (measureStep getGlyph utf32 height maxLineWidth c s).pos.x = 0)) ∧
    (∀ (s s1 : TextLinesState σ) (c : Char), (getGlyph s.sys c).1 = none →
      isNewline c = false →
      textLinesStep getGlyph utf32 height maxLineWidth c s = some s1 →
      (¬ (s.pos.x > 0 ∧ s.pos.x ≥ maxLineWidth) → s1.pos.x = s.pos.x) ∧
      ((s.pos.x > 0 ∧ s.pos.x ≥ maxLineWidth) → s1.pos.x = 0)) ∧
    (∀ (s : MeasureState σ) (c : Char), isNewline c = false →
      ¬ (s.pos.x > 0 ∧ s.pos.x + (if !isSpace c then
          (glyphAdvance (getGlyph s.sys c).1 s.rsbDeltaPrev).1 else 0) ≥ maxLineWidth) →
      (measureStep getGlyph utf32 height maxLineWidth c s).pos.x =
        s.pos.x + (glyphAdvance (getGlyph s.sys c).1 s.rsbDeltaPrev).1) ∧
    (∀ (s s1 : TextLinesState σ) (c : Char), isNewline c = false →
      ¬ (s.pos.x > 0 ∧ s.pos.x + (if !isSpace c then
          (glyphAdvance (getGlyph s.sys c).1 s.rsbDeltaPrev).1 else 0) ≥ maxLineWidth) →
      textLinesStep getGlyph utf32 height maxLineWidth c s = some s1 →
      s1.pos.x = s.pos.x + (glyphAdvance (getGlyph s.sys c).1 s.rsbDeltaPrev).1) := by
  refine ⟨fun _ => rfl, fun _ => ⟨rfl, rfl⟩, ?_, ?_, ?_, ?_, ?_, ?_⟩
  · intro s c
    unfold measureStep
    cases hn : isNewline c with
    | true => simp
    | false =>
      simp only [Bool.false_eq_true, if_false, false_or]
      by_cases hov : s.pos.x > 0 ∧ s.pos.x + (if !isSpace c then
          (glyphAdvance (getGlyph s.sys c).1 s.rsbDeltaPrev).1 else 0) ≥ maxLineWidth
      · simp only [if_pos hov]
        split_ifs <;> rfl
      · simp only [if_neg hov]
        cases (getGlyph s.sys c).1 <;> rfl
  · intro s s1 c hs
    unfold textLinesStep at hs
    cases hn : isNewline c with
    | true =>
      simp only [hn, if_true] at hs
      split at hs
      · exact absurd hs (by simp)
      · simp only [Option.some.injEq] at hs
        rw [← hs]
        simp
    | false =>
      simp only [hn, Bool.false_eq_true, if_false, false_or] at hs ⊢
      by_cases hov : s.pos.x > 0 ∧ s.pos.x + (if !isSpace c then
          (glyphAdvance (getGlyph s.sys c).1 s.rsbDeltaPrev).1 else 0) ≥ maxLineWidth
      · simp only [if_pos hov] at hs ⊢
        split_ifs at hs
        · split at hs
          · exact absurd hs (by simp)
          · simp only [Option.some.injEq] at hs
            rw [← hs]
        · split at hs
          · exact absurd hs (by simp)
          · simp only [Option.some.injEq] at hs
            rw [← hs]
      · simp only [if_neg hov, Option.some.injEq] at hs ⊢
        rw [← hs]
        cases (getGlyph s.sys c).1 <;> rfl
  · intro s c hg hn
    have hx : ∀ p : Int, p + (if !isSpace c then (glyphAdvance none s.rsbDeltaPrev).1 else 0) = p := by
      intro p
      split_ifs <;> simp [glyphAdvance]
    constructor
    · intro hno
      unfold measureStep
      simp only [hg, hn, Bool.false_eq_true, if_false, hx, if_neg hno]
      simp [glyphAdvance]
    · intro hov
      unfold measureStep
      simp only [hg, hn, Bool.false_eq_true, if_false, hx, if_pos hov]
      split_ifs <;> simp [glyphAdvance]
  · intro s s1 c hg hn hs
    have hx : ∀ p : Int, p + (if !isSpace c then (glyphAdvance none s.rsbDeltaPrev).1 else 0) = p := by
      intro p
      split_ifs <;> simp [glyphAdvance]
    unfold textLinesStep at hs
    simp only [hg, hn, Bool.false_eq_true, if_false, hx] at hs
    constructor
    · intro hno
      simp only [if_neg hno, Option.some.injEq] at hs
      rw [← hs]
      simp [glyphAdvance]
    · intro hov
      simp only [if_pos hov] at hs
      split_ifs at hs
      · split at hs
        · exact absurd hs (by simp)
        · simp only [Option.some.injEq] at hs
          rw [← hs]
      · split at hs
        · exact absurd hs (by simp)
        · simp only [Option.some.injEq] at hs
          rw [← hs]
          simp [glyphAdvance]
  · intro s c hn hno
    unfold measureStep
    simp only [hn, Bool.false_eq_true, if_false, if_neg hno]
  · intro s s1 c hn hno hs
    unfold textLinesStep at hs
    simp only [hn, Bool.false_eq_true, if_false, if_neg hno, Option.some.injEq] at hs
    rw [← hs]

/-- C23, the code at the failing input: for "a\nb" in the sample font with no wrap in
reach, `textLines` returns the lines "a" and "\nb"; the second line begins with the
newline that ended the first. -/
theorem newline_kept_in_next_line :
    (textLines sampleHash sampleWorld ⟨"a\nb", sampleInfo, 100000, 0⟩).map (fun r => r.1) =
      some [⟨"a", ⟨640, 1280⟩⟩, ⟨"\nb", ⟨640, 1280⟩⟩] := by
  decide

/-- C24, the code at the failing input: for "aaaa  bbbbbbbbb" with 10 pixel glyphs and
a maxLineWidth of 41 pixels, `textLines` returns five lines of which the second has the
empty text. -/
theorem double_space_gives_empty_line :
    (textLines sampleHash sampleWorld ⟨"aaaa  bbbbbbbbb", sampleInfo, 2624, 0⟩).map
        (fun r => r.1.map (fun l => (l.text, l.size.x))) =
      some [("aaaa", 2560), ("", 0), ("bbbb", 2560), ("bbbb", 2560), ("b", 640)] := by
  decide

-- The fit of the lines for any glyph lookup whose glyphs all obey the two bounds.
theorem table_lines_fit (getGlyph : σ → Char → Option Glyph × σ)
    (height maxLineWidth : Int) (text : String) (sys : σ)
    (hsize : text.toList.length < 2 ^ 64) (hM : 0 < maxLineWidth)
    (hadv : ∀ sys c g, (getGlyph sys c).1 = some g → pixel ≤ g.advance)
    (hfit : ∀ sys c g r, (getGlyph sys c).1 = some g →
      (glyphAdvance (some g) r).1 < maxLineWidth) :
    ∃ lines size sys1,
      textLinesLayout getGlyph height maxLineWidth text sys = some (lines, sys1) ∧
      measureLayout getGlyph height maxLineWidth text sys = some (size, sys1) ∧
      (∀ l ∈ lines, LineFits getGlyph maxLineWidth l) ∧
      (∀ l ∈ lines, (∀ c, l.text.toList.getLast? = some c → isSpace c = false) →
        l.size.x < maxLineWidth) ∧
      (size.x = 0 ∨ ∃ l ∈ lines, size.x = l.size.x) ∧
      ((∀ l ∈ lines, l.size.x < maxLineWidth) → size.x < maxLineWidth) := by
  have hx := amount_bounds getGlyph maxLineWidth hM hadv hfit
  obtain ⟨lines, sys1, hl, hall⟩ := fit_layout getGlyph height maxLineWidth text sys hsize hx
  have hnarrow : ∀ l ∈ lines, (∀ c, l.text.toList.getLast? = some c → isSpace c = false) →
      l.size.x < maxLineWidth := by
    intro l hm hns
    rcases hall l hm with h | ⟨c, hc, hsp, _⟩
    · exact h
    · rw [hns c hc] at hsp
      exact absurd hsp (by simp)
  by_cases hne : text = ""
  · subst hne
    rw [textLinesLayout_empty] at hl
    simp only [Option.some.injEq, Prod.mk.injEq] at hl
    obtain ⟨e1, e2⟩ := hl
    subst e1 e2
    exact ⟨[], ⟨0, height⟩, sys, textLinesLayout_empty _ _ _ _, measureLayout_empty _ _ _ _,
      hall, hnarrow, Or.inl rfl, fun _ => hM⟩
  · obtain ⟨size, lines2, sys2, hm2, hl2, hw, _⟩ :=
      layout_agree getGlyph height maxLineWidth text sys hne
    rw [hl] at hl2
    simp only [Option.some.injEq, Prod.mk.injEq] at hl2
    obtain ⟨e1, e2⟩ := hl2
    subst e1 e2
    have hcases := maxWidth_cases lines
    rw [← hw] at hcases
    refine ⟨lines, size, sys1, hl, hm2, hall, hnarrow, hcases, ?_⟩
    intro hlt
    rcases hcases with h | ⟨l, hm, h⟩
    · rw [h]
      exact hM
    · rw [h]
      exact hlt l hm

/-- C25, amended: wrapped lines fit the requested width, a trailing space or tab apart.
Take a font whose family and face are loaded and whose pixel size can be set, a system
whose glyph cache is sound for the codepoints of the text (as before any lookup), a text
(shorter than 2^64 codepoints) and a positive maxLineWidth of at most 2^23 on the 1/64
pixel grid (131072 pixels, so that every pen position is exact in `float`) such that
every glyph of the text has an advance of at least 1 pixel and a corrected advance
smaller than maxLineWidth.  Then `textLines` and `measure` return, and every returned
line has a width smaller than maxLineWidth, or its text ends in a space or tab and its
width is smaller than maxLineWidth plus the advance of that last codepoint plus one pixel
(the largest kerning correction).  So a line whose text does not end in a space or tab
is narrower than maxLineWidth.  The width `measure` returns is 0 or the width of one of
these lines, and is smaller than maxLineWidth when all of them are. -/
theorem wrapped_lines_fit (H : HashCombine) (w : World) (info : Info)
    (maxLineWidth : Int) (text : String) (promise1 promise2 : Nat)
    (family : List (String × FT_Face)) (font : FT_Face)
    (hfamily : w.p.fontFaces.lookup info.family = some family)
    (hface : family.lookup info.face = some font)
    (herr : font.setPixelSizes (staticCastInt info.size) = 0)
    (hsize : text.toList.length < 2 ^ 64) (hM : 0 < maxLineWidth)
    (_hwide : maxLineWidth ≤ 2 ^ 23)
    (hsound : CacheSound H info text.toList w)
    (hadv : ∀ c ∈ text.toList, ∀ g, (lookupGlyph H info w c).1 = some g → pixel ≤ g.advance)
    (hfit : ∀ c ∈ text.toList, ∀ g r, (lookupGlyph H info w c).1 = some g →
      (glyphAdvance (some g) r).1 < maxLineWidth) :
    ∃ lines size w1,
      textLines H w ⟨text, info, maxLineWidth, promise1⟩ = some (lines, w1) ∧
      measure H w ⟨text, info, maxLineWidth, promise2⟩ = some (size, w1) ∧
      (∀ l ∈ lines, l.size.x < maxLineWidth ∨
        ∃ c g, l.text.toList.getLast? = some c ∧ isSpace c = true ∧
          (lookupGlyph H info w c).1 = some g ∧
          l.size.x < maxLineWidth + g.advance + pixel) ∧
      (∀ l ∈ lines, (∀ c, l.text.toList.getLast? = some c → isSpace c = false) →
        l.size.x < maxLineWidth) ∧
      (size.x = 0 ∨ ∃ l ∈ lines, size.x = l.size.x) ∧
      ((∀ l ∈ lines, l.size.x < maxLineWidth) → size.x < maxLineWidth) := by
  have hp : pixel = 64 := rfl
  have hadv1 : ∀ (sys : Unit) c g,
      (tableLookup (glyphsIn H info w text.toList) sys c).1 = some g → pixel ≤ g.advance := by
    intro _ c g hg
    simp only [tableLookup, glyphsIn] at hg
    split_ifs at hg with hc
    exact hadv c hc g hg
  have hfit1 : ∀ (sys : Unit) c g r,
      (tableLookup (glyphsIn H info w text.toList) sys c).1 = some g →
      (glyphAdvance (some g) r).1 < maxLineWidth := by
    intro _ c g r hg
    simp only [tableLookup, glyphsIn] at hg
    split_ifs at hg with hc
    exact hfit c hc g r hg
  obtain ⟨linesP, sizeP, sysP, hlP, hmP, hfits, hnarrow, hcases, hlt⟩ :=
    table_lines_fit (tableLookup (glyphsIn H info w text.toList))
      (font.sizeMetrics (staticCastInt info.size)).height maxLineWidth text () hsize hM
      hadv1 hfit1
  obtain ⟨lines, size, w1, hl, hm⟩ :=
    handlers_same_state H w text info maxLineWidth promise1 promise2
  have ht := textLines_table H w ⟨text, info, maxLineWidth, promise1⟩ family font
    hfamily hface herr hsound
  have hs := measure_table H w ⟨text, info, maxLineWidth, promise2⟩ family font
    hfamily hface herr hsound
  rw [hl, hlP] at ht
  rw [hm, hmP] at hs
  simp only [Option.map_some', Option.some.injEq] at ht hs
  subst ht hs
  refine ⟨lines, size, w1, hl, hm, ?_, hnarrow, hcases, hlt⟩
  intro l hmem
  rcases hfits l hmem with h | ⟨c, hc, hsp, sys, r, hover⟩
  · exact Or.inl h
  · simp only [tableLookup, glyphsIn] at hover
    by_cases hin : c ∈ text.toList
    · rw [if_pos hin] at hover
      cases hg : (lookupGlyph H info w c).1 with
      | none =>
        rw [hg] at hover
        simp only [glyphAdvance_none, sub_zero] at hover
        exact Or.inl hover
      | some g =>
        rw [hg, glyphAdvance_some] at hover
        simp only [] at hover
        have hk : kerningCorrection r g ≤ 64 := by
          unfold kerningCorrection
          split_ifs <;> omega
        exact Or.inr ⟨c, g, hc, hsp, hg, by omega⟩
    · rw [if_neg hin] at hover
      simp only [glyphAdvance_none, sub_zero] at hover
      exact Or.inl hover

/-- C25, example: "aaaa bb" in the sample font, whose glyphs are 10 pixels wide, with a
maxLineWidth of 45 pixels. -/
theorem wrapped_lines_fit_witness :
    ∃ lines size w1,
      textLines sampleHash sampleWorld ⟨"aaaa bb", sampleInfo, 2880, 0⟩ = some (lines, w1) ∧
      measure sampleHash sampleWorld ⟨"aaaa bb", sampleInfo, 2880, 1⟩ = some (size, w1) ∧
      (∀ l ∈ lines, l.size.x < 2880 ∨
        ∃ c g, l.text.toList.getLast? = some c ∧ isSpace c = true ∧
          (lookupGlyph sampleHash sampleInfo sampleWorld c).1 = some g ∧
          l.size.x < 2880 + g.advance + pixel) ∧
      (∀ l ∈ lines, (∀ c, l.text.toList.getLast? = some c → isSpace c = false) →
        l.size.x < 2880) ∧
      (size.x = 0 ∨ ∃ l ∈ lines, size.x = l.size.x) ∧
      ((∀ l ∈ lines, l.size.x < 2880) → size.x < 2880) :=
  wrapped_lines_fit sampleHash sampleWorld sampleInfo 2880 "aaaa bb" 0 1
    [("Regular", sampleFace)] sampleFace rfl rfl rfl (by decide) (by decide) (by decide)
    (cacheSound_fresh sampleHash sampleInfo _ sampleWorld rfl rfl (by decide))
    (fun c _ g hg => by
      rw [(sampleWorld_glyph sampleHash c sampleInfo g rfl rfl hg).1]
      decide)
    (fun c _ g r hg => by
      obtain ⟨h1, h2, h3⟩ := sampleWorld_glyph sampleHash c sampleInfo g rfl rfl hg
      have hp : pixel = 64 := rfl
      unfold glyphAdvance
      simp only [h1]
      split_ifs <;> omega)

/-- C25, counterexample to the claim as stated: in the sample font every glyph is 10
pixels wide and its corrected advance is at most 11 pixels; with a maxLineWidth of 45
pixels the one line `textLines` returns for "aaaa " ends in a space and has the width
50 pixels, which is also the width `measure` returns. -/
theorem trailing_space_overhangs :
    (∀ c ∈ "aaaa ".toList,
      ((lookupGlyph sampleHash sampleInfo sampleWorld c).1.map
        (fun g => decide (pixel ≤ g.advance ∧ g.advance + pixel < 2880))) = some true) ∧
    (textLines sampleHash sampleWorld ⟨"aaaa ", sampleInfo, 2880, 0⟩).map (fun r => r.1) =
      some [⟨"aaaa ", ⟨3200, 1280⟩⟩] ∧
    (measure sampleHash sampleWorld ⟨"aaaa ", sampleInfo, 2880, 1⟩).map (fun r => r.1) =
      some ⟨3200, 1280⟩ ∧
    ¬ ((3200 : Int) < 2880) := by
  decide

/-- C26, the code at the failing input: for "aaa" in the kerned font with a maxLineWidth
between 19 and 29 pixels, `textLines` hard-breaks before the third codepoint and returns
the lines "aa" and "a" with the widths 19 and 9 pixels, while `measure` gives the text
"a" alone the width 10 pixels. -/
theorem hard_break_carries_kerning :
    (textLines sampleHash kernedWorld ⟨"aaa", sampleInfo, 1300, 0⟩).map
        (fun r => r.1.map (fun l => (l.text, l.size.x))) =
      some [("aa", 1216), ("a", 576)] ∧
    (measure sampleHash kernedWorld ⟨"a", sampleInfo, 100000, 1⟩).map (fun r => r.1) =
      some ⟨640, 1280⟩ ∧
    (measure sampleHash kernedWorld ⟨"aa", sampleInfo, 100000, 2⟩).map (fun r => r.1) =
      some ⟨1216, 1280⟩ := by
  decide

/-- C27, amended: the empty text with a loaded font.  For every FontSpec whose family
and face are loaded and whose pixel size can be set, and every maxLineWidth, `measure`
of the empty text returns (0, lineHeight) and `textLines` of the empty text returns no
line, both leaving the state unchanged; so the measured height differs from the line
height times the number of lines whenever the line height is not 0.  For every other
text the two handlers return and the measured height is the `float` reached by adding
the line height once per line, which is the line height times the number of lines when
the line height is not negative and that product is at most 2^24 on the 1/64 pixel
grid (262144 pixels). -/
theorem empty_text_measures_one_line (H : HashCombine) (w : World) (info : Info)
    (maxLineWidth : Int) (promise1 promise2 : Nat)
    (family : List (String × FT_Face)) (font : FT_Face)
    (hfamily : w.p.fontFaces.lookup info.family = some family)
    (hface : family.lookup info.face = some font)
    (herr : font.setPixelSizes (staticCastInt info.size) = 0) :
    measure32 H w ⟨"", info, maxLineWidth, promise1⟩ =
      some (⟨0, f32 (font.sizeMetrics (staticCastInt info.size)).height⟩, w) ∧
    textLines32 H w ⟨"", info, maxLineWidth, promise2⟩ = some ([], w) ∧
    (f32 (font.sizeMetrics (staticCastInt info.size)).height ≠ 0 →
      f32 (font.sizeMetrics (staticCastInt info.size)).height ≠
        f32 (font.sizeMetrics (staticCastInt info.size)).height *
          (([] : List TextLine).length : Int)) ∧
    (∀ text : String, text ≠ "" →
      ∃ size lines w1,
        measure32 H w ⟨text, info, maxLineWidth, promise1⟩ = some (size, w1) ∧
        textLines32 H w ⟨text, info, maxLineWidth, promise2⟩ = some (lines, w1) ∧
        size.y = stackedHeight (f32 (font.sizeMetrics (staticCastInt info.size)).height)
          lines.length ∧
        (0 ≤ f32 (font.sizeMetrics (staticCastInt info.size)).height →
          f32 (font.sizeMetrics (staticCastInt info.size)).height * lines.length ≤ 2 ^ 24 →
          size.y =
            f32 (font.sizeMetrics (staticCastInt info.size)).height * lines.length)) := by
  refine ⟨?_, ?_, ?_, ?_⟩
  · unfold measure32
    simp only [hfamily, hface, herr, if_true]
    exact measureLayout32_empty _ _ _ _
  · unfold textLines32
    simp only [hfamily, hface, herr, if_true]
    rfl
  · intro h
    simpa using h
  · intro text hne
    obtain ⟨size, lines, w1, h1, h2, _, h4⟩ :=
      handlers32_agree H w text info maxLineWidth promise1 promise2 family font hfamily hface
        hne
    refine ⟨size, lines, w1, h1, h2, h4, ?_⟩
    intro h0 hb
    rw [h4]
    exact stackedHeight_exact _ h0 _ hb

/-- C27, example: the empty text in the sample font, whose line height is 20 pixels. -/
theorem empty_text_measures_one_line_witness :
    measure32 sampleHash sampleWorld ⟨"", sampleInfo, 1000, 0⟩ =
      some (⟨0, f32 (sampleFace.sizeMetrics (staticCastInt sampleInfo.size)).height⟩,
        sampleWorld) ∧
    textLines32 sampleHash sampleWorld ⟨"", sampleInfo, 1000, 1⟩ = some ([], sampleWorld) ∧
    (f32 (sampleFace.sizeMetrics (staticCastInt sampleInfo.size)).height ≠ 0 →
      f32 (sampleFace.sizeMetrics (staticCastInt sampleInfo.size)).height ≠
        f32 (sampleFace.sizeMetrics (staticCastInt sampleInfo.size)).height *
          (([] : List TextLine).length : Int)) ∧
    (∀ text : String, text ≠ "" →
      ∃ size lines w1,
        measure32 sampleHash sampleWorld ⟨text, sampleInfo, 1000, 0⟩ = some (size, w1) ∧
        textLines32 sampleHash sampleWorld ⟨text, sampleInfo, 1000, 1⟩ = some (lines, w1) ∧
        size.y =
          stackedHeight (f32 (sampleFace.sizeMetrics (staticCastInt sampleInfo.size)).height)
            lines.length ∧
        (0 ≤ f32 (sampleFace.sizeMetrics (staticCastInt sampleInfo.size)).height →
          f32 (sampleFace.sizeMetrics (staticCastInt sampleInfo.size)).height * lines.length
            ≤ 2 ^ 24 →
          size.y =
            f32 (sampleFace.sizeMetrics (staticCastInt sampleInfo.size)).height *
              lines.length)) :=
  empty_text_measures_one_line sampleHash sampleWorld sampleInfo 1000 0 1
    [("Regular", sampleFace)] sampleFace rfl rfl rfl

/-- C27, counterexample to the claim as stated: the text of four newlines is not empty,
`textLines` returns five lines for it, and in a font whose line height is the `float`
5033089/64 pixels `measure` returns the height 25165444/64, which is not the line
height times the number of lines, 25165445/64. -/
theorem nonempty_text_height_differs :
    ("\n\n\n\n" : String) ≠ "" ∧
    (measure32 sampleHash tallWorld ⟨"\n\n\n\n", tallInfo, 100000, 0⟩).map
      (fun r => r.1.y) = some 25165444 ∧
    ((textLines32 sampleHash tallWorld ⟨"\n\n\n\n", tallInfo, 100000, 1⟩).map
      (fun r => r.1.length)) = some 5 ∧
    f32 (tallFace.sizeMetrics (staticCastInt tallInfo.size)).height * 5 = 25165445 := by
  decide

/-- C28: the fixed order of the handlers in a batch.  In every worker iteration the
calls of `set_value`, in call order, are a beginning of the list made of the drained
metrics requests in queue order, then the drained measure requests, then the drained
textLines requests, then the drained glyphs requests, whatever the order in which the
requests were enqueued; they are that whole list when the iteration runs to its end,
which it does whenever every text is UTF-8. -/
theorem handlers_run_in_fixed_order (H : HashCombine) (t : Thread) :
    ∃ events,
      (outcome (workerIterationRaw H t)).resolved = t.resolved ++ events ∧
      events.map Resolved.tag <+: handlerOrder t ∧
      (completed (workerIterationRaw H t) = true → events.map Resolved.tag = handlerOrder t) ∧
      (Decodable t → completed (workerIterationRaw H t) = true) := by
  obtain ⟨events, h1, h2, h3, h4⟩ := workerIterationRaw_spec H t
  exact ⟨events, h1, h2, fun hc => (h3 hc).1, h4⟩

/-- C29: the glyph UID registry is an append-only one-to-one map.  Starting from a
registry in which every UID was issued by `createUID` and no UID is held by two hashes
(the empty registry is one), run any sequence of `GlyphInfo` constructions.  Each
constructed value carries the requested codepoint and font; two constructions get the
same UID exactly when their hashes are equal; every entry of the registry is still
there, unchanged, after the sequence; a single construction leaves the registry as it is
when the hash is registered and appends one entry for it otherwise; and the registry
left has the same two properties. -/
theorem uid_registry_append_only (H : HashCombine) (r : UIDRegistry)
    (calls : List (Nat × Info)) (hinv : RegistryInv r) :
    (constructAll H r calls).1.map (fun g => (g.code, g.info)) = calls ∧
    (∀ g1 ∈ (constructAll H r calls).1, ∀ g2 ∈ (constructAll H r calls).1,
      (glyphHash H g1.code g1.info = glyphHash H g2.code g2.info ↔ g1.uid = g2.uid)) ∧
    (∀ h u, r.map.lookup h = some u → (constructAll H r calls).2.map.lookup h = some u) ∧
    (∀ code info,
      (∀ u, r.map.lookup (glyphHash H code info) = some u →
        (GlyphInfo.GlyphInfo H r code info).2 = r ∧
          (GlyphInfo.GlyphInfo H r code info).1.uid = u) ∧
      (r.map.lookup (glyphHash H code info) = none →
        (GlyphInfo.GlyphInfo H r code info).2.map =
          r.map ++ [(glyphHash H code info, (GlyphInfo.GlyphInfo H r code info).1.uid)])) ∧
    RegistryInv (constructAll H r calls).2 := by
  obtain ⟨h1, h2, h3, h4⟩ := constructAll_spec H calls r hinv
  refine ⟨h2, ?_, h3, ?_, h1⟩
  · intro g1 hg1 g2 hg2
    constructor
    · intro e
      have a := h4 g1 hg1
      rw [e, h4 g2 hg2] at a
      exact (Option.some.inj a).symm
    · intro e
      have a := h4 g1 hg1
      rw [e] at a
      exact h1.2 _ _ _ a (h4 g2 hg2)
  · intro code info
    obtain ⟨_, _, k3, _, _, k6, k7⟩ := glyphInfo_ctor_spec H r code info
    refine ⟨fun u hu => ⟨k7 u hu, ?_⟩, k6⟩
    rw [k7 u hu, hu] at k3
    exact (Option.some.inj k3).symm

/-- C29, example: the codepoints `a`, `b`, `a` of the sample font constructed on the
empty registry. -/
theorem uid_registry_append_only_witness :
    (constructAll sampleHash {} [(97, sampleInfo), (98, sampleInfo), (97, sampleInfo)]).1.map
        (fun g => (g.code, g.info)) = [(97, sampleInfo), (98, sampleInfo), (97, sampleInfo)] ∧
    (∀ g1 ∈ (constructAll sampleHash {}
        [(97, sampleInfo), (98, sampleInfo), (97, sampleInfo)]).1,
      ∀ g2 ∈ (constructAll sampleHash {}
        [(97, sampleInfo), (98, sampleInfo), (97, sampleInfo)]).1,
      (glyphHash sampleHash g1.code g1.info = glyphHash sampleHash g2.code g2.info ↔
        g1.uid = g2.uid)) ∧
    (∀ h u, ({} : UIDRegistry).map.lookup h = some u →
      (constructAll sampleHash {}
        [(97, sampleInfo), (98, sampleInfo), (97, sampleInfo)]).2.map.lookup h = some u) ∧
    (∀ code info,
      (∀ u, ({} : UIDRegistry).map.lookup (glyphHash sampleHash code info) = some u →
        (GlyphInfo.GlyphInfo sampleHash {} code info).2 = {} ∧
          (GlyphInfo.GlyphInfo sampleHash {} code info).1.uid = u) ∧
      (({} : UIDRegistry).map.lookup (glyphHash sampleHash code info) = none →
        (GlyphInfo.GlyphInfo sampleHash {} code info).2.map =
          ({} : UIDRegistry).map ++
            [(glyphHash sampleHash code info,
              (GlyphInfo.GlyphInfo sampleHash {} code info).1.uid)])) ∧
    RegistryInv (constructAll sampleHash {}
      [(97, sampleInfo), (98, sampleInfo), (97, sampleInfo)]).2 :=
  uid_registry_append_only sampleHash {} [(97, sampleInfo), (98, sampleInfo), (97, sampleInfo)]
    ⟨fun _ _ h => absurd h (by simp), fun _ _ _ h => absurd h (by simp)⟩

/-- C30: whitespace classification.  `isSpace` holds exactly for the space U+0020 and
the tab U+0009, `isNewline` exactly for the line feed and the carriage return; U+00A0
and U+2028 are neither.  An iteration of either walk records its codepoint as the break
opportunity only when it is a space or tab, not a newline, and not the first codepoint
of the text.  Only a newline forces a line break: on a newline `textLines` always pushes
a line, and on any other codepoint that fails the wrap test it pushes none, adds the
amount of the codepoint to the pen x and moves on; when that codepoint is not a space
or tab the recorded break opportunity is left as it is.  A soft wrap ends the line at the
recorded break opportunity, and in every state the walk of `textLines` reaches, a
recorded break opportunity is the position of a space or tab other than the first
codepoint. -/
theorem whitespace_classification (getGlyph : σ → Char → Option Glyph × σ)
    (utf32 : List Char) (height maxLineWidth : Int) :
    (∀ c, isSpace c = true ↔ c = ' ' ∨ c = '\t') ∧
    (∀ c, isNewline c = true ↔ c = '\n' ∨ c = '\r') ∧
    (isSpace (Char.ofNat 0xA0) = false ∧ isNewline (Char.ofNat 0xA0) = false ∧
      isSpace (Char.ofNat 0x2028) = false ∧ isNewline (Char.ofNat 0x2028) = false) ∧
    (∀ (s s1 : TextLinesState σ) (c : Char),
      textLinesStep getGlyph utf32 height maxLineWidth c s = some s1 →
      s1.textLine = s.textLine ∨ s1.textLine = utf32.length ∨
        (s1.textLine = s.i ∧ isSpace c = true ∧ s.i ≠ 0 ∧ isNewline c = false)) ∧
    (∀ (s : MeasureState σ) (c : Char),
      (measureStep getGlyph utf32 height maxLineWidth c s).textLine = s.textLine ∨
      (measureStep getGlyph utf32 height maxLineWidth c s).textLine = utf32.length ∨
      ((measureStep getGlyph utf32 height maxLineWidth c s).textLine = s.i ∧
        isSpace c = true ∧ s.i ≠ 0 ∧ isNewline c = false)) ∧
    (∀ (s s1 : TextLinesState σ) (c : Char), isNewline c = true →
      textLinesStep getGlyph utf32 height maxLineWidth c s = some s1 →
      s1.lines.length = s.lines.length + 1 ∧ s1.pos.x = 0 ∧ s1.i = s.i + 1) ∧
    (∀ (s s1 : TextLinesState σ) (c : Char), isNewline c = false →
      ¬ (s.pos.x > 0 ∧ s.pos.x + (if !isSpace c then
          (glyphAdvance (getGlyph s.sys c).1 s.rsbDeltaPrev).1 else 0) ≥ maxLineWidth) →
      textLinesStep getGlyph utf32 height maxLineWidth c s = some s1 →
      s1.lines = s.lines ∧ s1.lineBegin = s.lineBegin ∧ s1.i = s.i + 1 ∧
        s1.pos.x = s.pos.x + (glyphAdvance (getGlyph s.sys c).1 s.rsbDeltaPrev).1 ∧
        (isSpace c = false → s1.textLine = s.textLine ∧ s1.textLineX = s.textLineX)) ∧
    (∀ (s s1 : TextLinesState σ) (c : Char), isNewline c = false →
      (s.pos.x > 0 ∧ s.pos.x + (if !isSpace c then
          (glyphAdvance (getGlyph s.sys c).1 s.rsbDeltaPrev).1 else 0) ≥ maxLineWidth) →
      s.textLine ≠ utf32.length →
      textLinesStep getGlyph utf32 height maxLineWidth c s = some s1 →
      s1.i = s.textLine + 1 ∧ s1.lineBegin = s.textLine + 1) ∧
    (∀ (sys : σ) (s : TextLinesState σ),
      LinesReach getGlyph utf32 height maxLineWidth (TextLinesState.init utf32 height sys) s →
      s.textLine ≠ utf32.length →
      s.textLine ≠ 0 ∧ ∃ c, utf32[s.textLine]? = some c ∧ isSpace c = true) := by
  refine ⟨?_, ?_, by decide, ?_, ?_, ?_, ?_, ?_, ?_⟩
  · intro c
    unfold isSpace
    simp only [Bool.or_eq_true, beq_iff_eq]
    constructor
    · rintro (h | h)
      · exact Or.inl h.symm
      · exact Or.inr h.symm
    · rintro (h | h)
      · exact Or.inl h.symm
      · exact Or.inr h.symm
  · intro c
    unfold isNewline
    simp only [Bool.or_eq_true, beq_iff_eq]
    constructor
    · rintro (h | h)
      · exact Or.inl h.symm
      · exact Or.inr h.symm
    · rintro (h | h)
      · exact Or.inl h.symm
      · exact Or.inr h.symm
  · intro s s1 c hs
    exact textLinesStep_textLine getGlyph utf32 height maxLineWidth c s s1 hs
  · intro s c
    exact measureStep_textLine getGlyph utf32 height maxLineWidth c s
  · intro s s1 c hn hs
    unfold textLinesStep at hs
    simp only [hn, if_true] at hs
    split at hs
    · exact absurd hs (by simp)
    · simp only [Option.some.injEq] at hs
      rw [← hs]
      simp
  · intro s s1 c hn hno hs
    obtain ⟨s2, h2, hi, _, _, hpos, hl, hb, ht, htx⟩ :=
      textLinesStep_advance getGlyph utf32 height maxLineWidth c s hn hno
    rw [hs] at h2
    simp only [Option.some.injEq] at h2
    subst h2
    refine ⟨hl, hb, hi, by rw [hpos], ?_⟩
    intro hsp
    rw [ht, htx]
    simp [hsp]
  · intro s s1 c hn hov ht hs
    unfold textLinesStep at hs
    simp only [hn, Bool.false_eq_true, if_false, if_pos hov, if_pos ht] at hs
    split at hs
    · exact absurd hs (by simp)
    · simp only [Option.some.injEq] at hs
      rw [← hs]
      exact ⟨rfl, rfl⟩
  · intro sys s hr ht
    exact breakOpportunity_isSpace getGlyph utf32 height maxLineWidth sys s hr ht

end Claims

end Font
